import Mathlib

/-! Arithmetic.cpp: infix expression calculator

A shallow embedding of `Arithmetic.cpp` (classes `Token`, `ExpParser`, `Calculator`
and the body of the read loop of `main`), followed by theorems about it.

Modelling conventions.

* A `std::string` is a `List Char`; `isspace` and `isdigit` are those of the "C" locale, so a
  character beyond ASCII is neither a space nor a digit.
* `double` values are exact rationals (`ℚ`). The program agrees with this wherever every
  value it computes is a finite `double` (`IsDouble`); where a result is not, the program
  holds a rounded or non-finite `double` instead. Theorems that state a value say so.
* Every error path of the source prints a message and calls `exit(EXIT_FAILURE)`; here the
  function returns `Except.error` with the kind of the message.
* `std::stack<Token>` is a `List Token` whose head is the top of the stack.
* The pointers `val1`, `val2`, `op` taken to `top()` just before `pop()` are read as the
  element that was popped. For `val2`, which is read after two pops, the program agrees with
  this only while the second pop does not release the storage of the first popped element
  (`releasesBlock`).
* Members that a constructor of `Token` leaves unassigned hold `0` (`Char.ofNat 0` for `op`).
* The index `i` into `tokens` is represented by the suffix of tokens from `i` on.
-/

namespace Arithmetic

/-! ## Errors -/

/-- Kinds of the diagnostics after which the source terminates. -/
inductive Error where
  /-- "character c at index i is not allowed" (`checkValidChars`). -/
  | invalidCharacter (ch : Char) (index : Nat)
  /-- "Parenthesees are not balanced" (`checkParenthesees`). -/
  | unbalancedParentheses
  /-- "Missing operator between right/left parenthese and number" (`checkNearParens`). -/
  | missingOperator
  /-- "Error: expression not formed correctly" and "Issues with operators" (`calculate`). -/
  | malformedExpression
  /-- "Operator op is not an allowed binary operation" (`applyOperation`). -/
  | unknownOperator (op : Char)
  deriving DecidableEq

deriving instance DecidableEq for Except

/-! ## class Token -/

/-- The constants `UNKNOWN`, `NUMBER`, `OPERATOR`, `LEFT_PARENTHESIS`, `RIGHT_PARENTHESIS`. -/
inductive TokenType where
  | UNKNOWN
  | NUMBER
  | OPERATOR
  | LEFT_PARENTHESIS
  | RIGHT_PARENTHESIS
  deriving DecidableEq

open TokenType

/-- The four private members of `Token`. -/
structure Token where
  type : TokenType
  value : ℚ
  op : Char
  precedence : Int
  deriving DecidableEq

/-- Content of a `char` member that no constructor assigned. -/
def unsetOp : Char := Char.ofNat 0

/-- `Token::toNumber(int i)`: `i - 48`. -/
def toNumber (i : Int) : Int := i - 48

/-- `Token::Token()`. -/
def Token.new : Token := ⟨UNKNOWN, 0, unsetOp, 0⟩

/-- `Token::Token(double val)`. -/
def Token.ofDouble (val : ℚ) : Token := ⟨NUMBER, val, unsetOp, 0⟩

/-- `Token::Token(char ch)`: the `switch` on `ch`. -/
def Token.ofChar (ch : Char) : Token :=
  if ch = '+' then ⟨OPERATOR, 0, ch, 1⟩
  else if ch = '-' then ⟨OPERATOR, 0, ch, 1⟩
  else if ch = '*' then ⟨OPERATOR, 0, ch, 2⟩
  else if ch = '/' then ⟨OPERATOR, 0, ch, 2⟩
  else if ch = '(' then ⟨LEFT_PARENTHESIS, 0, unsetOp, 0⟩
  else if ch = ')' then ⟨RIGHT_PARENTHESIS, 0, unsetOp, 0⟩
  else ⟨NUMBER, ((toNumber (ch.toNat : Int) : Int) : ℚ), unsetOp, 0⟩

/-! ## class ExpParser -/

/-- `isspace` in the "C" locale: space, `\t`, `\n`, `\v`, `\f`, `\r`. -/
def isspace (c : Char) : Bool :=
  c.toNat = 32 || (9 ≤ c.toNat && c.toNat ≤ 13)

/-- `isdigit`: `'0'` to `'9'`. -/
def isdigit (c : Char) : Bool :=
  48 ≤ c.toNat && c.toNat ≤ 57

/-- `ExpParser::removeSpaces`: erase-remove of the characters satisfying `isspace`. -/
def removeSpaces (expStr : List Char) : List Char :=
  expStr.filter (fun c => !isspace c)

/-- The negation of the test in `checkValidChars`. -/
def allowedChar (c : Char) : Bool :=
  !(!isdigit c && c != ')' && c != '(' && c != '+' && c != '*' && c != '/' && c != '-')

/-- The loop of `checkValidChars` from index `i`, on the characters from `i` on. -/
def checkValidCharsFrom : Nat → List Char → Except Error Unit
  | _, [] => .ok ()
  | i, c :: rest =>
    if !isdigit c && c != ')' && c != '(' && c != '+' && c != '*' && c != '/' && c != '-' then
      .error (.invalidCharacter c i)
    else checkValidCharsFrom (i + 1) rest

/-- `ExpParser::checkValidChars`. -/
def checkValidChars (expStr : List Char) : Except Error Unit :=
  checkValidCharsFrom 0 expStr

/-- The loop of `checkParenthesees` with the stack `parenthesees`, and the test after it. -/
def checkParentheseesFrom : List Char → List Char → Except Error Unit
  | parenthesees, [] =>
    if !parenthesees.isEmpty then .error .unbalancedParentheses else .ok ()
  | parenthesees, c :: rest =>
    if c = '(' then checkParentheseesFrom (c :: parenthesees) rest
    else if c = ')' then
      match parenthesees with
      | _ :: popped => checkParentheseesFrom popped rest
      | [] => .error .unbalancedParentheses
    else checkParentheseesFrom parenthesees rest

/-- `ExpParser::checkParenthesees`. -/
def checkParenthesees (expStr : List Char) : Except Error Unit :=
  checkParentheseesFrom [] expStr

/-- The two tests of `checkNearParens` at index `i`. -/
def nearParenAt (expStr : List Char) (i : Nat) : Bool :=
  (expStr[i]? == some ')' && decide (i + 1 < expStr.length) && (expStr[i + 1]?).any isdigit)
    || (expStr[i]? == some '(' && decide (i > 0) && (expStr[i - 1]?).any isdigit)

/-- The loop of `checkNearParens` from index `i`, with `n` iterations left. -/
def checkNearParensFrom (expStr : List Char) : Nat → Nat → Except Error Unit
  | 0, _ => .ok ()
  | n + 1, i =>
    if nearParenAt expStr i then .error .missingOperator
    else checkNearParensFrom expStr n (i + 1)

/-- `ExpParser::checkNearParens`. -/
def checkNearParens (expStr : List Char) : Except Error Unit :=
  checkNearParensFrom expStr expStr.length 0

/-- `ExpParser::createTokenVector`. -/
def createTokenVector (expStr : List Char) : List Token :=
  expStr.map Token.ofChar

/-- `ExpParser::ExpParser(string input)` followed by `getParsedTokens()`. -/
def ExpParser (input : List Char) : Except Error (List Token) :=
  let expStr := removeSpaces input
  match checkValidChars expStr with
  | .error e => .error e
  | .ok _ =>
    match checkParenthesees expStr with
    | .error e => .error e
    | .ok _ =>
      match checkNearParens expStr with
      | .error e => .error e
      | .ok _ => .ok (createTokenVector expStr)

/-! ## class Calculator -/

/-- `Calculator::applyOperation`. The four operations are those of `double`, taken here as
exact: the result is the program's whenever it is a finite `double` (`IsDouble`). -/
def applyOperation (a b : ℚ) (op : Char) : Except Error Token :=
  if op = '+' then .ok (Token.ofDouble (a + b))
  else if op = '-' then .ok (Token.ofDouble (a - b))
  else if op = '*' then .ok (Token.ofDouble (a * b))
  else if op = '/' then .ok (Token.ofDouble (a / b))
  else .error (.unknownOperator op)

/-- The body shared by the three reduction loops of `calculate`, for an operator stack whose
top is `op`: pop `val2`, pop `val1`, pop `op`, push `applyOperation(val1, val2, op)`.
Returns the value stack; the operator stack loses its top. The source reads the operands
through the pointers `val1`, `val2` after the pops; here they are the popped values, which is
what the program reads unless the second pop released the storage behind `val2`
(`releasesBlock` of the height of `valueStack`). -/
def reduceTop (valueStack : List Token) (op : Token) : Except Error (List Token) :=
  match valueStack with
  | [] => .error .malformedExpression
  | val2 :: valueStack1 =>
    match valueStack1 with
    | [] => .error .malformedExpression
    | val1 :: valueStack2 =>
      match applyOperation val1.value val2.value op.op with
      | .error e => .error e
      | .ok t => .ok (t :: valueStack2)

/-- The inner `while` of the number branch: accumulates `val` over the run of `NUMBER` tokens
and returns it with the tokens that are left. `val` is a `double` in the source, taken here
as exact: the accumulation is the program's as long as the value stays below `2 ^ 53`. -/
def numberLoop (val : ℚ) : List Token → ℚ × List Token
  | [] => (val, [])
  | t :: rest =>
    if t.type = NUMBER then numberLoop (val * 10 + t.value) rest else (val, t :: rest)

/-- The inner `while` of the right-parenthesis branch. -/
def rightParenLoop : List Token → List Token → Except Error (List Token × List Token)
  | valueStack, [] => .ok (valueStack, [])
  | valueStack, top :: operatorStack =>
    if top.type ≠ LEFT_PARENTHESIS then
      match reduceTop valueStack top with
      | .error e => .error e
      | .ok valueStack1 => rightParenLoop valueStack1 operatorStack
    else .ok (valueStack, top :: operatorStack)

/-- The inner `while` of the operator branch, for a current token of precedence `p`. -/
def operatorLoop (p : Int) : List Token → List Token → Except Error (List Token × List Token)
  | valueStack, [] => .ok (valueStack, [])
  | valueStack, top :: operatorStack =>
    if top.precedence ≥ p then
      match reduceTop valueStack top with
      | .error e => .error e
      | .ok valueStack1 => operatorLoop p valueStack1 operatorStack
    else .ok (valueStack, top :: operatorStack)

/-- The `while (!operatorStack.empty())` after the scan; returns the value stack. -/
def drainLoop : List Token → List Token → Except Error (List Token)
  | valueStack, [] => .ok valueStack
  | valueStack, top :: operatorStack =>
    match reduceTop valueStack top with
    | .error e => .error e
    | .ok valueStack1 => drainLoop valueStack1 operatorStack

/-- The variables of `calculate` that the scan changes: the tokens from index `i` on and
the two stacks. -/
structure State where
  tokens : List Token
  valueStack : List Token
  operatorStack : List Token
  deriving DecidableEq

/-- One iteration of `while (i < tokens.size())` when `tokens.at(i)` is `t` and `rest` are
the tokens after it. -/
def step (t : Token) (rest : List Token) (valueStack operatorStack : List Token) :
    Except Error State :=
  if t.type = LEFT_PARENTHESIS then
    .ok ⟨rest, valueStack, t :: operatorStack⟩
  else if t.type = NUMBER then
    let r := numberLoop 0 (t :: rest)
    .ok ⟨r.2, Token.ofDouble r.1 :: valueStack, operatorStack⟩
  else if t.type = RIGHT_PARENTHESIS then
    match rightParenLoop valueStack operatorStack with
    | .error e => .error e
    | .ok (valueStack1, operatorStack1) => .ok ⟨rest, valueStack1, operatorStack1.tail⟩
  else
    match operatorLoop t.precedence valueStack operatorStack with
    | .error e => .error e
    | .ok (valueStack1, operatorStack1) => .ok ⟨rest, valueStack1, t :: operatorStack1⟩

/-- At most `n` iterations of `while (i < tokens.size())`. -/
def scan : Nat → State → Except Error State
  | 0, st => .ok st
  | n + 1, st =>
    match st.tokens with
    | [] => .ok st
    | t :: rest =>
      match step t rest st.valueStack st.operatorStack with
      | .error e => .error e
      | .ok st1 => scan n st1

/-- `Calculator::calculate`. Every iteration of the scan consumes a token, so
`tokens.length` iterations reach the end of the scan (`scan_tokens`). The test
`if (!operatorStack.empty())` after the draining loop cannot succeed and is left out. -/
def calculate (tokens : List Token) : Except Error ℚ :=
  match scan tokens.length ⟨tokens, [], []⟩ with
  | .error e => .error e
  | .ok st =>
    match drainLoop st.valueStack st.operatorStack with
    | .error e => .error e
    | .ok valueStack =>
      match valueStack with
      | top :: _ => .ok top.value
      | [] => .error .malformedExpression

/-- The scan of `calculate` run over all the tokens that are left in `st`. -/
def exec (st : State) : Except Error State := scan st.tokens.length st

/-- The value stack of `calculate` at its final test: after the scan and the loop that
empties the operator stack. -/
def drainedStack (tokens : List Token) : Except Error (List Token) :=
  match scan tokens.length ⟨tokens, [], []⟩ with
  | .error e => .error e
  | .ok st => drainLoop st.valueStack st.operatorStack

/-- The body of the loop of `main` for one line: `ExpParser parser(line)` and
`c.calculate(parser.getParsedTokens())`. -/
def evaluate (line : List Char) : Except Error ℚ :=
  match ExpParser line with
  | .error e => .error e
  | .ok tokens => calculate tokens

/-! ## Reference semantics: infix expressions -/

/-- The four binary operators. -/
inductive Op where
  | add
  | sub
  | mul
  | div
  deriving DecidableEq

/-- The character of an operator. -/
def Op.char : Op → Char
  | .add => '+'
  | .sub => '-'
  | .mul => '*'
  | .div => '/'

/-- Whether the operator is `*` or `/`, the tighter-binding pair. -/
def Op.tight : Op → Bool
  | .add => false
  | .sub => false
  | .mul => true
  | .div => true

/-- The arithmetic meaning of an operator on exact rationals. -/
def Op.apply : Op → ℚ → ℚ → ℚ
  | .add, a, b => a + b
  | .sub, a, b => a - b
  | .mul, a, b => a * b
  | .div, a, b => a / b

/-- Derivation trees of the grammar `E ::= digit+ | E op E | '(' E ')'`. -/
inductive Exp where
  | num (digits : List Char)
  | paren (e : Exp)
  | bin (l : Exp) (op : Op) (r : Exp)

/-- The numeric value of the digit character `c`. -/
def digitValue (c : Char) : Nat := c.toNat - 48

/-- The base-10 value of a string of digits, most significant digit first. -/
def decimal (digits : List Char) : Nat :=
  Nat.ofDigits 10 (digits.reverse.map digitValue)

/-- A non-empty string of digit characters. -/
def digitString (d : List Char) : Bool := !d.isEmpty && d.all isdigit

/-- The string derived by a tree. -/
def Exp.str : Exp → List Char
  | .num digits => digits
  | .paren e => '(' :: (e.str ++ [')'])
  | .bin l op r => l.str ++ op.char :: r.str

/-- Every number leaf is a non-empty string of digit characters. -/
def Exp.wellFormed : Exp → Bool
  | .num digits => !digits.isEmpty && digits.all isdigit
  | .paren e => e.wellFormed
  | .bin l _ r => l.wellFormed && r.wellFormed

/-- The value of a tree, each node computed from its children. -/
def Exp.value : Exp → ℚ
  | .num digits => (decimal digits : ℚ)
  | .paren e => e.value
  | .bin l op r => op.apply l.value r.value

/-- No right operand of a division evaluates to zero. -/
def Exp.noZeroDivisor : Exp → Bool
  | .num _ => true
  | .paren e => e.noZeroDivisor
  | .bin l op r => l.noZeroDivisor && r.noZeroDivisor && (op != .div || decide (r.value ≠ 0))

/-- A factor: a number or a parenthesised expression. -/
def Exp.isFactor : Exp → Bool
  | .num _ => true
  | .paren _ => true
  | .bin _ _ _ => false

/-- A term: a factor or a product/quotient, that is, not a sum or difference at the root. -/
def Exp.isTerm : Exp → Bool
  | .num _ => true
  | .paren _ => true
  | .bin _ op _ => op.tight

/-- The standard reading of an infix expression: `*` and `/` bind tighter than `+` and `-`
(an operand of `*` or `/` is never an unparenthesised sum or difference), and all four
operators associate to the left (the right operand of `+`/`-` is a term, the right operand
of `*`/`/` is a factor). -/
def Exp.standard : Exp → Bool
  | .num digits => !digits.isEmpty && digits.all isdigit
  | .paren e => e.standard
  | .bin l op r =>
    l.standard && r.standard && (if op.tight then l.isTerm && r.isFactor else r.isTerm)

/-- Regrouping `l op f` where `op` is `*` or `/` and `f` is a factor: the operator applies
to the last term of `l`. -/
def Exp.attachFactor (l : Exp) (op : Op) (f : Exp) : Exp :=
  match l with
  | .bin l1 op1 l2 => if op1.tight then .bin l op f else .bin l1 op1 (.bin l2 op f)
  | _ => .bin l op f

/-- Appending `op f` to a standard tree `x`. -/
def Exp.join (x : Exp) (op : Op) (f : Exp) : Exp :=
  if op.tight then x.attachFactor op f else .bin x op f

/-- The standard tree of the string `l.str ++ op.char :: r.str`. -/
def Exp.attach (l : Exp) (op : Op) : Exp → Exp
  | .bin r1 op1 r2 => (Exp.attach l op r1).join op1 r2
  | r => l.join op r

/-- The standard tree deriving the same string as a given derivation tree. -/
def Exp.standardize : Exp → Exp
  | .num digits => .num digits
  | .paren e => .paren e.standardize
  | .bin l op r => Exp.attach l.standardize op r.standardize

/-- Two neighbouring characters that `checkNearParens` accepts. -/
def goodPair (x y : Char) : Prop :=
  ¬(x = ')' ∧ isdigit y = true) ∧ ¬(isdigit x = true ∧ y = '(')

/-- Balanced parentheses: every prefix contains at least as many `(` as `)`, and the whole
string contains equally many. -/
def Balanced (s : List Char) : Prop :=
  (∀ n, (s.take n).count ')' ≤ (s.take n).count '(') ∧ s.count '(' = s.count ')'

/-- The condition under which `checkNearParens` reports a missing operator at index `i`:
a `)` directly followed by a digit, or a `(` directly preceded by a digit. -/
def Adjacent (s : List Char) (i : Nat) : Prop :=
  (s[i]? = some ')' ∧ ∃ d, s[i + 1]? = some d ∧ isdigit d = true) ∨
  (s[i]? = some '(' ∧ 0 < i ∧ ∃ d, s[i - 1]? = some d ∧ isdigit d = true)

/-- The two kinds of error that `calculate` reports. -/
def fromCalculator (e : Error) : Prop :=
  e = .malformedExpression ∨ ∃ c, e = .unknownOperator c

/-! ## Stack shapes used in the proofs -/

/-- A token list that does not continue a run of digits. -/
def noNumberHead (k : List Token) : Prop := ∀ t ∈ k.head?, t.type ≠ NUMBER

/-- The top of the operator stack, if any, has precedence below `p`. -/
def lowTop (p : Int) (operatorStack : List Token) : Prop :=
  ∀ t ∈ operatorStack.head?, t.precedence < p

/-- The stacks `vs1`, `os1` reached from `vs`, `os` once a term of value `v` has been scanned:
either `v` is pushed, or a product/quotient of value `v` is pending. -/
def TermForm (v : ℚ) (vs os vs1 os1 : List Token) : Prop :=
  (vs1 = Token.ofDouble v :: vs ∧ os1 = os) ∨
  ∃ (a b : ℚ) (o : Op), o.tight = true ∧ vs1 = Token.ofDouble b :: Token.ofDouble a :: vs ∧
    os1 = Token.ofChar o.char :: os ∧ o.apply a b = v

/-- The stacks reached once an expression of value `v` has been scanned: a term form, or a
term form above a pending sum/difference. -/
def ExprForm (v : ℚ) (vs os vs1 os1 : List Token) : Prop :=
  TermForm v vs os vs1 os1 ∨
  ∃ (a w : ℚ) (o : Op), o.tight = false ∧
    TermForm w (Token.ofDouble a :: vs) (Token.ofChar o.char :: os) vs1 os1 ∧ o.apply a w = v

/-- The line `spaced` is obtained from `s` by inserting whitespace characters at any
positions: the characters of `s` are kept in order and every inserted one satisfies
`isspace`. -/
inductive Spaced : List Char → List Char → Prop where
  | nil : Spaced [] []
  | keep (c : Char) {s spaced : List Char} : Spaced s spaced → Spaced (c :: s) (c :: spaced)
  | insert (w : Char) {s spaced : List Char} :
      isspace w = true → Spaced s spaced → Spaced s (w :: spaced)

/-! ## Invariants of the scan -/

/-- The operators on the operator stack above its topmost `LEFT_PARENTHESIS` (above its bottom
when it holds none), the top of the stack first. -/
def pendingOperators (operatorStack : List Token) : List Token :=
  operatorStack.takeWhile (fun t => t.type != LEFT_PARENTHESIS)

/-- The token of one of the four operator characters. -/
def OperatorToken (x : Token) : Prop := ∃ o : Op, x = Token.ofChar o.char

/-- The tokens that the scan pushes on the operator stack: operators and `(`. -/
def StackToken (x : Token) : Prop := OperatorToken x ∨ x = Token.ofChar '('

/-- Of two neighbours on the operator stack that are both operators, the upper one has the
strictly greater precedence. -/
def increasing (upper lower : Token) : Prop :=
  upper.type = OPERATOR → lower.type = OPERATOR → lower.precedence < upper.precedence

/-- The shape of the operator stack during the scan. -/
def StackShape (operatorStack : List Token) : Prop :=
  (∀ x ∈ operatorStack, StackToken x) ∧ operatorStack.Chain' increasing

/-- The tokens left come from characters and the operator stack has its shape. -/
def ShapeInv (st : State) : Prop :=
  (∀ t ∈ st.tokens, ∃ c, t = Token.ofChar c) ∧ StackShape st.operatorStack

/-- The number of `LEFT_PARENTHESIS` tokens of a list. -/
def opens (l : List Token) : Nat := l.countP (fun t => t.type == LEFT_PARENTHESIS)

/-- The number of `RIGHT_PARENTHESIS` tokens of a list. -/
def closes (l : List Token) : Nat := l.countP (fun t => t.type == RIGHT_PARENTHESIS)

/-- Tokens whose parentheses are balanced once `k` parentheses are already open. -/
def Bal (k : Nat) (tokens : List Token) : Prop :=
  (∀ n, closes (tokens.take n) ≤ k + opens (tokens.take n)) ∧ k + opens tokens = closes tokens

/-- The state of the scan on a line with balanced parentheses: the stack has its shape and
the tokens left close the parentheses that are open on the stack. -/
def BalancedInv (st : State) : Prop :=
  ShapeInv st ∧ Bal (opens st.operatorStack) st.tokens

/-- The number of operator characters `+ - * /` of a string. -/
def operatorCount (s : List Char) : Nat :=
  s.countP (fun c => c == '+' || c == '-' || c == '*' || c == '/')

/-- Whether a string starts with a digit. -/
def startsWithDigit : List Char → Bool
  | [] => false
  | c :: _ => isdigit c

/-- The number of maximal runs of digits of a string, counted at the last digit of each run:
a digit that is not followed by a digit. -/
def digitRuns : List Char → Nat
  | [] => 0
  | c :: rest => (if isdigit c && !startsWithDigit rest then 1 else 0) + digitRuns rest

/-- The number of `OPERATOR` tokens of a list. -/
def operators (l : List Token) : Nat := l.countP (fun t => t.type == OPERATOR)

/-- Whether a token list starts with a `NUMBER`. -/
def startsWithNumber : List Token → Bool
  | [] => false
  | t :: _ => t.type == NUMBER

/-- The number of maximal runs of `NUMBER` tokens of a list. -/
def numberRuns : List Token → Nat
  | [] => 0
  | t :: rest => (if t.type == NUMBER && !startsWithNumber rest then 1 else 0) + numberRuns rest

/-- The state of the scan on a line with balanced parentheses, with the count that every
iteration keeps: values on the stack plus runs of numbers left, against operators on the
stack plus operators left. -/
def CountInv (d : Int) (st : State) : Prop :=
  BalancedInv st ∧
  (st.valueStack.length : Int) + (numberRuns st.tokens : Int) =
    (operators st.operatorStack : Int) + (operators st.tokens : Int) + d

/-- The state of the scan that corresponds to `st` when the line is put in a pair of
parentheses: a `)` follows the tokens left and a `(` lies at the bottom of the operator
stack. -/
def State.frame (st : State) : State :=
  ⟨st.tokens ++ [Token.ofChar ')'], st.valueStack, st.operatorStack ++ [Token.ofChar '(']⟩

/-! ## Where the model and the program part -/

/-- The finite values of the type `double` (IEEE 754 binary64): `m * 2 ^ e` with an integer
`m` of at most 53 bits and `-1074 ≤ e ≤ 971`. The model computes in exact rationals; an
operation of the source returns the exact result whenever that result is such a value, and a
rounded or non-finite `double` otherwise. -/
def IsDouble (q : ℚ) : Prop :=
  ∃ m e : ℤ, |m| < 2 ^ 53 ∧ -1074 ≤ e ∧ e ≤ 971 ∧ q = (m : ℚ) * (2 : ℚ) ^ e

/-- Whether, in a reduction started with `height` tokens on the value stack, the second
`valueStack.pop()` releases the storage that `val2` points to. The source keeps
`val2 = &valueStack.top()` across both pops and reads `val2->getValue()` afterwards. The
`std::deque` under `std::stack<Token>` stores the tokens in blocks; with libstdc++ a block
has 512 bytes and holds ten `Token`s of 48 bytes. The second pop releases the block of the
token popped first when that token was the first of its block and the block is not the first
one: `height = 10 * k + 1` with `k ≥ 1`. `reduceTop` describes the program only where this is
`false`. -/
def releasesBlock (height : Nat) : Bool :=
  decide (10 < height ∧ height % 10 = 1)

/-- One more level of nesting: `1+2*(e)`. -/
def deepen (e : Exp) : Exp :=
  .bin (.num ['1']) .add (.bin (.num ['2']) .mul (.paren e))

/-- The expression `1+2*(1+2*(1+2*(1+2*(1+2*7))))`: when its first `)` is reached, eleven
numbers lie on the value stack. -/
def deepExample : Exp :=
  deepen (deepen (deepen (deepen (.bin (.num ['1']) .add (.bin (.num ['2']) .mul (.num ['7']))))))

/-! # Theorems -/

/-! ## The scan consumes tokens -/

theorem numberLoop_length (l : List Token) : ∀ val : ℚ, (numberLoop val l).2.length ≤ l.length := by
  induction l with
  | nil => intro val; simp [numberLoop]
  | cons t rest ih =>
    intro val
    unfold numberLoop
    split
    · exact Nat.le_succ_of_le (ih _)
    · simp

theorem step_tokens_length {t : Token} {rest valueStack operatorStack : List Token} {st : State}
    (h : step t rest valueStack operatorStack = .ok st) : st.tokens.length ≤ rest.length := by
  unfold step at h
  split at h
  · cases h; simp
  · split at h
    · rename_i hnum
      cases h
      simp only [numberLoop, hnum, if_true]
      exact numberLoop_length _ _
    · split at h
      · split at h
        · cases h
        · cases h; simp
      · split at h
        · cases h
        · cases h; simp

theorem scan_fuel (n : Nat) : ∀ (m : Nat) (st : State), st.tokens.length ≤ n →
    st.tokens.length ≤ m → scan n st = scan m st := by
  induction n with
  | zero =>
    intro m st hn _
    have h0 : st.tokens = [] := List.length_eq_zero.mp (Nat.le_zero.mp hn)
    cases m with
    | zero => rfl
    | succ m => simp [scan, h0]
  | succ n ih =>
    intro m st hn hm
    rcases st with ⟨tokens, vs, os⟩
    cases tokens with
    | nil => cases m <;> simp [scan]
    | cons t rest =>
      cases m with
      | zero => simp at hm
      | succ m =>
        simp only [scan]
        cases hs : step t rest vs os with
        | error e => rfl
        | ok st1 =>
          have hl := step_tokens_length hs
          simp only [List.length_cons, Nat.add_le_add_iff_right] at hn hm
          exact ih m st1 (le_trans hl hn) (le_trans hl hm)

theorem exec_nil (vs os : List Token) : exec ⟨[], vs, os⟩ = .ok ⟨[], vs, os⟩ := rfl

theorem exec_cons (t : Token) (rest vs os : List Token) :
    exec ⟨t :: rest, vs, os⟩ =
      match step t rest vs os with
      | .error e => .error e
      | .ok st1 => exec st1 := by
  simp only [exec, List.length_cons, scan]
  cases hs : step t rest vs os with
  | error e => rfl
  | ok st1 =>
    exact scan_fuel _ _ _ (step_tokens_length hs) le_rfl

theorem scan_tokens (n : Nat) : ∀ (st st1 : State), st.tokens.length ≤ n → scan n st = .ok st1 →
    st1.tokens = [] := by
  induction n with
  | zero =>
    intro st st1 hn h
    simp only [scan] at h
    cases h
    exact List.length_eq_zero.mp (Nat.le_zero.mp hn)
  | succ n ih =>
    intro st st1 hn h
    rcases st with ⟨tokens, vs, os⟩
    cases tokens with
    | nil => simp only [scan] at h; cases h; rfl
    | cons t rest =>
      simp only [scan] at h
      cases hs : step t rest vs os with
      | error e => rw [hs] at h; cases h
      | ok st2 =>
        rw [hs] at h
        have hl := step_tokens_length hs
        simp only [List.length_cons, Nat.add_le_add_iff_right] at hn
        exact ih st2 st1 (le_trans hl hn) h

theorem calculate_eq (tokens : List Token) :
    calculate tokens =
      match exec ⟨tokens, [], []⟩ with
      | .error e => .error e
      | .ok st =>
        match drainLoop st.valueStack st.operatorStack with
        | .error e => .error e
        | .ok valueStack =>
          match valueStack with
          | top :: _ => .ok top.value
          | [] => .error .malformedExpression := rfl

/-! ## Tokens of characters -/

theorem isdigit_iff (c : Char) : isdigit c = true ↔ 48 ≤ c.toNat ∧ c.toNat ≤ 57 := by
  simp [isdigit]

theorem ofChar_digit {c : Char} (h : isdigit c = true) :
    Token.ofChar c = ⟨NUMBER, (digitValue c : ℚ), unsetOp, 0⟩ := by
  rw [isdigit_iff] at h
  have h1 : c ≠ '+' := by rintro rfl; revert h; decide
  have h2 : c ≠ '-' := by rintro rfl; revert h; decide
  have h3 : c ≠ '*' := by rintro rfl; revert h; decide
  have h4 : c ≠ '/' := by rintro rfl; revert h; decide
  have h5 : c ≠ '(' := by rintro rfl; revert h; decide
  have h6 : c ≠ ')' := by rintro rfl; revert h; decide
  simp only [Token.ofChar, h1, h2, h3, h4, h5, h6, if_false, toNumber, digitValue]
  congr 1
  rw [Nat.cast_sub h.1]
  push_cast
  rfl

theorem ofChar_op (o : Op) :
    Token.ofChar o.char = ⟨OPERATOR, 0, o.char, if o.tight then 2 else 1⟩ := by
  cases o <;> rfl

theorem ofChar_left : Token.ofChar '(' = ⟨LEFT_PARENTHESIS, 0, unsetOp, 0⟩ := rfl

theorem ofChar_right : Token.ofChar ')' = ⟨RIGHT_PARENTHESIS, 0, unsetOp, 0⟩ := rfl

theorem applyOperation_op (o : Op) (a b : ℚ) :
    applyOperation a b o.char = .ok (Token.ofDouble (o.apply a b)) := by
  cases o <;> rfl

theorem reduceTop_op (o : Op) (a b : ℚ) (vs : List Token) :
    reduceTop (Token.ofDouble b :: Token.ofDouble a :: vs) (Token.ofChar o.char) =
      .ok (Token.ofDouble (o.apply a b) :: vs) := by
  simp only [reduceTop, ofChar_op, Token.ofDouble, applyOperation_op]

/-! ## Runs of digits -/

theorem decimal_cons (c : Char) (ds : List Char) :
    decimal (c :: ds) = digitValue c * 10 ^ ds.length + decimal ds := by
  simp [decimal, Nat.ofDigits_append, Nat.ofDigits_singleton]
  ring

theorem numberLoop_digits (ds : List Char) (hd : ds.all isdigit = true) (k : List Token)
    (hk : noNumberHead k) : ∀ val : ℚ,
    numberLoop val (ds.map Token.ofChar ++ k) = (val * 10 ^ ds.length + (decimal ds : ℚ), k) := by
  induction ds with
  | nil =>
    intro val
    cases k with
    | nil => simp [numberLoop, decimal]
    | cons t k =>
      have : t.type ≠ NUMBER := hk t (by simp)
      simp [numberLoop, decimal, this]
  | cons c ds ih =>
    intro val
    simp only [List.all_cons, Bool.and_eq_true] at hd
    have e : numberLoop val ((c :: ds).map Token.ofChar ++ k) =
        numberLoop (val * 10 + (digitValue c : ℚ)) (ds.map Token.ofChar ++ k) := by
      simp only [List.map_cons, List.cons_append]
      rw [numberLoop, ofChar_digit hd.1]
      simp
    rw [e, ih hd.2, decimal_cons]
    congr 1
    push_cast
    simp only [List.length_cons]
    ring

/-! ## Reduction loops on pending operators -/

theorem operatorLoop_stop {p : Int} {os : List Token} (h : lowTop p os) (vs : List Token) :
    operatorLoop p vs os = .ok (vs, os) := by
  cases os with
  | nil => rfl
  | cons t os =>
    have ht : t.precedence < p := h t (by simp)
    simp [operatorLoop, not_le.mpr ht]

theorem operatorLoop_op (p : Int) (o : Op) (hp : p ≤ if o.tight then 2 else 1) (a b : ℚ)
    (vs os : List Token) :
    operatorLoop p (Token.ofDouble b :: Token.ofDouble a :: vs) (Token.ofChar o.char :: os) =
      operatorLoop p (Token.ofDouble (o.apply a b) :: vs) os := by
  rw [operatorLoop, reduceTop_op]
  have : (Token.ofChar o.char).precedence ≥ p := by rw [ofChar_op]; exact hp
  simp [this]

theorem rightParenLoop_op (o : Op) (a b : ℚ) (vs os : List Token) :
    rightParenLoop (Token.ofDouble b :: Token.ofDouble a :: vs) (Token.ofChar o.char :: os) =
      rightParenLoop (Token.ofDouble (o.apply a b) :: vs) os := by
  rw [rightParenLoop, reduceTop_op]
  have : (Token.ofChar o.char).type ≠ LEFT_PARENTHESIS := by rw [ofChar_op]; simp
  simp [this]

theorem drainLoop_op (o : Op) (a b : ℚ) (vs os : List Token) :
    drainLoop (Token.ofDouble b :: Token.ofDouble a :: vs) (Token.ofChar o.char :: os) =
      drainLoop (Token.ofDouble (o.apply a b) :: vs) os := by
  rw [drainLoop, reduceTop_op]

/-- A loop that reduces a pending tight operator sees a term form as its value. -/
theorem termForm_collapse {α : Type} (L : List Token → List Token → α)
    (hL : ∀ (o : Op) (a b : ℚ) (vs os : List Token), o.tight = true →
      L (Token.ofDouble b :: Token.ofDouble a :: vs) (Token.ofChar o.char :: os) =
        L (Token.ofDouble (o.apply a b) :: vs) os)
    {v : ℚ} {vs os vs1 os1 : List Token} (h : TermForm v vs os vs1 os1) :
    L vs1 os1 = L (Token.ofDouble v :: vs) os := by
  rcases h with ⟨rfl, rfl⟩ | ⟨a, b, o, ho, rfl, rfl, rfl⟩
  · rfl
  · exact hL o a b vs os ho

/-- A loop that reduces every pending operator sees an expression form as its value. -/
theorem exprForm_collapse {α : Type} (L : List Token → List Token → α)
    (hL : ∀ (o : Op) (a b : ℚ) (vs os : List Token),
      L (Token.ofDouble b :: Token.ofDouble a :: vs) (Token.ofChar o.char :: os) =
        L (Token.ofDouble (o.apply a b) :: vs) os)
    {v : ℚ} {vs os vs1 os1 : List Token} (h : ExprForm v vs os vs1 os1) :
    L vs1 os1 = L (Token.ofDouble v :: vs) os := by
  rcases h with h | ⟨a, w, o, -, h, rfl⟩
  · exact termForm_collapse L (fun o a b vs os _ => hL o a b vs os) h
  · rw [termForm_collapse L (fun o a b vs os _ => hL o a b vs os) h, hL]

theorem lowTop_mono {p q : Int} (hpq : p ≤ q) {os : List Token} (h : lowTop p os) :
    lowTop q os := fun t ht => lt_of_lt_of_le (h t ht) hpq

theorem operatorLoop_term {v : ℚ} {vs os vs1 os1 : List Token} (h : TermForm v vs os vs1 os1)
    (hos : lowTop 2 os) : operatorLoop 2 vs1 os1 = .ok (Token.ofDouble v :: vs, os) := by
  rw [termForm_collapse (operatorLoop 2)
    (fun o a b vs os ho => operatorLoop_op 2 o (by simp [ho]) a b vs os) h]
  exact operatorLoop_stop hos _

theorem operatorLoop_expr {v : ℚ} {vs os vs1 os1 : List Token} (h : ExprForm v vs os vs1 os1)
    (hos : lowTop 1 os) : operatorLoop 1 vs1 os1 = .ok (Token.ofDouble v :: vs, os) := by
  rw [exprForm_collapse (operatorLoop 1)
    (fun o a b vs os => operatorLoop_op 1 o (by cases o <;> simp [Op.tight]) a b vs os) h]
  exact operatorLoop_stop hos _

theorem rightParenLoop_expr {v : ℚ} {vs os vs1 os1 : List Token}
    (h : ExprForm v vs (Token.ofChar '(' :: os) vs1 os1) :
    rightParenLoop vs1 os1 = .ok (Token.ofDouble v :: vs, Token.ofChar '(' :: os) := by
  rw [exprForm_collapse rightParenLoop rightParenLoop_op h]
  simp [rightParenLoop, ofChar_left]

theorem drainLoop_expr {v : ℚ} {vs vs1 os1 : List Token} (h : ExprForm v vs [] vs1 os1) :
    drainLoop vs1 os1 = .ok (Token.ofDouble v :: vs) := by
  rw [exprForm_collapse drainLoop drainLoop_op h]
  rfl

/-! ## One iteration of the scan, by kind of token -/

theorem step_left (rest vs os : List Token) :
    step (Token.ofChar '(') rest vs os = .ok ⟨rest, vs, Token.ofChar '(' :: os⟩ := by
  simp [step, ofChar_left]

theorem step_right (rest vs os : List Token) :
    step (Token.ofChar ')') rest vs os =
      match rightParenLoop vs os with
      | .error e => .error e
      | .ok (vs1, os1) => .ok ⟨rest, vs1, os1.tail⟩ := by
  cases h : rightParenLoop vs os <;> simp [step, ofChar_right, h]

theorem step_op (o : Op) (rest vs os : List Token) :
    step (Token.ofChar o.char) rest vs os =
      match operatorLoop (if o.tight then 2 else 1) vs os with
      | .error e => .error e
      | .ok (vs1, os1) => .ok ⟨rest, vs1, Token.ofChar o.char :: os1⟩ := by
  cases h : operatorLoop (if o.tight then 2 else 1) vs os <;> simp [step, ofChar_op, h]

theorem step_digits (c : Char) (ds : List Char) (hd : (c :: ds).all isdigit = true)
    (k : List Token) (hk : noNumberHead k) (vs os : List Token) :
    step (Token.ofChar c) (ds.map Token.ofChar ++ k) vs os =
      .ok ⟨k, Token.ofDouble (decimal (c :: ds)) :: vs, os⟩ := by
  have h := numberLoop_digits (c :: ds) hd k hk 0
  simp only [List.map_cons, List.cons_append, zero_mul, zero_add] at h
  have hc : isdigit c = true := by simp only [List.all_cons, Bool.and_eq_true] at hd; exact hd.1
  have ht : (Token.ofChar c).type = NUMBER := by rw [ofChar_digit hc]
  simp [step, ht, h]

/-! ## The scan of a standard expression -/

theorem createTokenVector_append (s t : List Char) :
    createTokenVector (s ++ t) = createTokenVector s ++ createTokenVector t := by
  simp [createTokenVector]

theorem createTokenVector_cons (c : Char) (s : List Char) :
    createTokenVector (c :: s) = Token.ofChar c :: createTokenVector s := rfl

theorem noNumberHead_op (o : Op) (k : List Token) : noNumberHead (Token.ofChar o.char :: k) := by
  intro t ht
  simp only [List.head?_cons, Option.mem_def, Option.some.injEq] at ht
  subst ht
  rw [ofChar_op]; simp

theorem noNumberHead_right (k : List Token) : noNumberHead (Token.ofChar ')' :: k) := by
  intro t ht
  simp only [List.head?_cons, Option.mem_def, Option.some.injEq] at ht
  subst ht
  rw [ofChar_right]; simp

theorem lowTop_left (p : Int) (hp : 0 < p) (os : List Token) :
    lowTop p (Token.ofChar '(' :: os) := by
  intro t ht
  simp only [List.head?_cons, Option.mem_def, Option.some.injEq] at ht
  subst ht
  rw [ofChar_left]; exact hp

theorem lowTop_loose (o : Op) (ho : o.tight = false) (os : List Token) :
    lowTop 2 (Token.ofChar o.char :: os) := by
  intro t ht
  simp only [List.head?_cons, Option.mem_def, Option.some.injEq] at ht
  subst ht
  rw [ofChar_op]; simp [ho]

/-- Scanning the tokens of a standard expression `e`, followed by tokens `k` that do not
start with a digit: a factor pushes its value; a term leaves a term form; any expression
leaves an expression form above an operator stack whose top is not an operator. -/
theorem exec_standard (e : Exp) (hs : e.standard = true) :
    (e.isFactor = true → ∀ k vs os, noNumberHead k →
      exec ⟨createTokenVector e.str ++ k, vs, os⟩ = exec ⟨k, Token.ofDouble e.value :: vs, os⟩) ∧
    (e.isTerm = true → ∀ k vs os, noNumberHead k → lowTop 2 os →
      ∃ vs1 os1, TermForm e.value vs os vs1 os1 ∧
        exec ⟨createTokenVector e.str ++ k, vs, os⟩ = exec ⟨k, vs1, os1⟩) ∧
    (∀ k vs os, noNumberHead k → lowTop 1 os →
      ∃ vs1 os1, ExprForm e.value vs os vs1 os1 ∧
        exec ⟨createTokenVector e.str ++ k, vs, os⟩ = exec ⟨k, vs1, os1⟩) := by
  induction e with
  | num ds =>
    have hF : ∀ k vs os, noNumberHead k →
        exec ⟨createTokenVector (Exp.num ds).str ++ k, vs, os⟩ =
          exec ⟨k, Token.ofDouble (Exp.num ds).value :: vs, os⟩ := by
      intro k vs os hk
      simp only [Exp.standard, Bool.and_eq_true, Bool.not_eq_true', List.isEmpty_eq_false] at hs
      cases ds with
      | nil => simp at hs
      | cons c ds =>
        simp only [Exp.str, createTokenVector, List.map_cons, List.cons_append, Exp.value]
        rw [exec_cons, step_digits c ds hs.2 k hk]
    refine ⟨fun _ => hF, fun _ k vs os hk _ => ⟨_, _, Or.inl ⟨rfl, rfl⟩, hF k vs os hk⟩,
      fun k vs os hk _ => ⟨_, _, Or.inl (Or.inl ⟨rfl, rfl⟩), hF k vs os hk⟩⟩
  | paren e ih =>
    simp only [Exp.standard] at hs
    have hF : ∀ k vs os, noNumberHead k →
        exec ⟨createTokenVector (Exp.paren e).str ++ k, vs, os⟩ =
          exec ⟨k, Token.ofDouble (Exp.paren e).value :: vs, os⟩ := by
      intro k vs os _
      obtain ⟨vs1, os1, hform, hex⟩ := (ih hs).2.2 (Token.ofChar ')' :: k) vs
        (Token.ofChar '(' :: os) (noNumberHead_right k) (lowTop_left 1 (by norm_num) os)
      have hstr : createTokenVector (Exp.paren e).str ++ k =
          Token.ofChar '(' :: (createTokenVector e.str ++ (Token.ofChar ')' :: k)) := by
        simp [Exp.str, createTokenVector]
      rw [hstr, exec_cons, step_left]
      simp only []
      rw [hex, exec_cons, step_right, rightParenLoop_expr hform]
      rfl
    refine ⟨fun _ => hF, fun _ k vs os hk _ => ⟨_, _, Or.inl ⟨rfl, rfl⟩, hF k vs os hk⟩,
      fun k vs os hk _ => ⟨_, _, Or.inl (Or.inl ⟨rfl, rfl⟩), hF k vs os hk⟩⟩
  | bin l o r ihl ihr =>
    simp only [Exp.standard, Bool.and_eq_true] at hs
    obtain ⟨⟨hl, hr⟩, hshape⟩ := hs
    have hstr : ∀ k, createTokenVector (Exp.bin l o r).str ++ k =
        createTokenVector l.str ++ (Token.ofChar o.char :: (createTokenVector r.str ++ k)) := by
      intro k
      simp [Exp.str, createTokenVector]
    cases ho : o.tight with
    | true =>
      simp only [ho, if_true, Bool.and_eq_true] at hshape
      have hT : ∀ k vs os, noNumberHead k → lowTop 2 os →
          ∃ vs1 os1, TermForm (Exp.bin l o r).value vs os vs1 os1 ∧
            exec ⟨createTokenVector (Exp.bin l o r).str ++ k, vs, os⟩ = exec ⟨k, vs1, os1⟩ := by
        intro k vs os hk hos
        obtain ⟨vs1, os1, hform, hex⟩ := (ihl hl).2.1 hshape.1
          (Token.ofChar o.char :: (createTokenVector r.str ++ k)) vs os (noNumberHead_op o _) hos
        refine ⟨_, _, Or.inr ⟨l.value, r.value, o, ho, rfl, rfl, rfl⟩, ?_⟩
        rw [hstr, hex, exec_cons, step_op, ho]
        simp only [if_true]
        rw [operatorLoop_term hform hos]
        simp only []
        exact (ihr hr).1 hshape.2 k _ _ hk
      refine ⟨fun h => by simp [Exp.isFactor] at h, fun _ => hT, ?_⟩
      intro k vs os hk hos
      obtain ⟨vs1, os1, hform, hex⟩ := hT k vs os hk (lowTop_mono (by norm_num) hos)
      exact ⟨vs1, os1, Or.inl hform, hex⟩
    | false =>
      simp only [ho] at hshape
      refine ⟨fun h => by simp [Exp.isFactor] at h, fun h => by simp [Exp.isTerm, ho] at h, ?_⟩
      intro k vs os hk hos
      obtain ⟨vs1, os1, hform, hex⟩ := (ihl hl).2.2
        (Token.ofChar o.char :: (createTokenVector r.str ++ k)) vs os (noNumberHead_op o _) hos
      obtain ⟨vs2, os2, hform2, hex2⟩ := (ihr hr).2.1 (by simpa using hshape) k
        (Token.ofDouble l.value :: vs) (Token.ofChar o.char :: os) hk (lowTop_loose o ho os)
      refine ⟨vs2, os2, Or.inr ⟨l.value, r.value, o, ho, hform2, rfl⟩, ?_⟩
      rw [hstr, hex, exec_cons, step_op, ho]
      simp only [Bool.false_eq_true, if_false]
      rw [operatorLoop_expr hform hos]
      simp only []
      exact hex2

/-- The evaluator on the tokens of a standard expression returns its value. -/
theorem calculate_standard (e : Exp) (hs : e.standard = true) :
    calculate (createTokenVector e.str) = .ok e.value := by
  obtain ⟨vs1, os1, hform, hex⟩ := (exec_standard e hs).2.2 [] [] []
    (by intro t ht; simp at ht) (by intro t ht; simp at ht)
  rw [List.append_nil] at hex
  rw [calculate_eq, hex, exec_nil]
  simp only []
  rw [drainLoop_expr hform]
  rfl

/-! ## The validator on expressions of the grammar -/

theorem allowedChar_digit {c : Char} (h : isdigit c = true) : allowedChar c = true := by
  simp [allowedChar, h]

theorem allowedChar_op (o : Op) : allowedChar o.char = true := by
  cases o <;> decide

theorem checkValidCharsFrom_ok (s : List Char) (h : s.all allowedChar = true) :
    ∀ i, checkValidCharsFrom i s = .ok () := by
  induction s with
  | nil => intro i; rfl
  | cons c s ih =>
    intro i
    simp only [List.all_cons, Bool.and_eq_true] at h
    have hc := h.1
    simp only [allowedChar, Bool.not_eq_true'] at hc
    rw [checkValidCharsFrom, hc]
    exact ih h.2 (i + 1)

theorem Exp.str_allowed (e : Exp) (h : e.wellFormed = true) : e.str.all allowedChar = true := by
  induction e with
  | num ds =>
    simp only [Exp.wellFormed, Bool.and_eq_true] at h
    simp only [Exp.str, List.all_eq_true] at h ⊢
    exact fun c hc => allowedChar_digit (h.2 c hc)
  | paren e ih =>
    simp only [Exp.wellFormed] at h
    have := ih h
    simp only [Exp.str, List.all_cons, List.all_append, this, Bool.and_eq_true]
    decide
  | bin l o r ihl ihr =>
    simp only [Exp.wellFormed, Bool.and_eq_true] at h
    simp [Exp.str, List.all_append, ihl h.1, ihr h.2, allowedChar_op]

theorem checkParentheseesFrom_cons (st : List Char) (c : Char) (rest : List Char) :
    checkParentheseesFrom st (c :: rest) =
      if c = '(' then checkParentheseesFrom (c :: st) rest
      else if c = ')' then
        match st with
        | _ :: popped => checkParentheseesFrom popped rest
        | [] => .error .unbalancedParentheses
      else checkParentheseesFrom st rest := by
  cases st <;> rfl

theorem checkParentheseesFrom_digits (ds : List Char) (h : ds.all isdigit = true)
    (k : List Char) : ∀ st, checkParentheseesFrom st (ds ++ k) = checkParentheseesFrom st k := by
  induction ds with
  | nil => intro st; rfl
  | cons c ds ih =>
    intro st
    simp only [List.all_cons, Bool.and_eq_true] at h
    have hc := (isdigit_iff c).mp h.1
    have h1 : c ≠ '(' := by rintro rfl; revert hc; decide
    have h2 : c ≠ ')' := by rintro rfl; revert hc; decide
    rw [List.cons_append, checkParentheseesFrom_cons]
    simp only [h1, h2, if_false]
    exact ih h.2 st

theorem checkParentheseesFrom_str (e : Exp) (h : e.wellFormed = true) :
    ∀ k st, checkParentheseesFrom st (e.str ++ k) = checkParentheseesFrom st k := by
  induction e with
  | num ds =>
    simp only [Exp.wellFormed, Bool.and_eq_true] at h
    exact fun k st => checkParentheseesFrom_digits ds h.2 k st
  | paren e ih =>
    intro k st
    simp only [Exp.wellFormed] at h
    simp only [Exp.str, List.cons_append, List.append_assoc, List.nil_append]
    rw [checkParentheseesFrom_cons]
    simp only [if_true]
    rw [ih h, checkParentheseesFrom_cons]
    simp
  | bin l o r ihl ihr =>
    intro k st
    simp only [Exp.wellFormed, Bool.and_eq_true] at h
    simp only [Exp.str, List.append_assoc, List.cons_append]
    rw [ihl h.1, checkParentheseesFrom_cons]
    have h1 : o.char ≠ '(' := by cases o <;> decide
    have h2 : o.char ≠ ')' := by cases o <;> decide
    simp only [h1, h2, if_false]
    exact ihr h.2 k st

theorem goodPair_digits {x y : Char} (hx : isdigit x = true) (hy : isdigit y = true) :
    goodPair x y := by
  constructor
  · rintro ⟨rfl, -⟩; revert hx; decide
  · rintro ⟨-, rfl⟩; revert hy; decide

theorem goodPair_left (y : Char) : goodPair '(' y :=
  ⟨fun h => absurd h.1 (by decide), fun h => absurd h.1 (by decide)⟩

theorem goodPair_right (x : Char) : goodPair x ')' :=
  ⟨fun h => absurd h.2 (by decide), fun h => absurd h.2 (by decide)⟩

theorem goodPair_op_left (o : Op) (y : Char) : goodPair o.char y :=
  ⟨fun h => absurd h.1 (by cases o <;> decide), fun h => absurd h.1 (by cases o <;> decide)⟩

theorem goodPair_op_right (x : Char) (o : Op) : goodPair x o.char :=
  ⟨fun h => absurd h.2 (by cases o <;> decide), fun h => absurd h.2 (by cases o <;> decide)⟩

theorem chain_digits (ds : List Char) (h : ds.all isdigit = true) : ds.Chain' goodPair := by
  induction ds with
  | nil => exact List.chain'_nil
  | cons c ds ih =>
    simp only [List.all_cons, Bool.and_eq_true] at h
    refine List.chain'_cons'.mpr ⟨?_, ih h.2⟩
    intro y hy
    have hy' : y ∈ ds := List.mem_of_mem_head? hy
    exact goodPair_digits h.1 (List.all_eq_true.mp h.2 y hy')

theorem Exp.str_chain (e : Exp) (h : e.wellFormed = true) : e.str.Chain' goodPair := by
  induction e with
  | num ds =>
    simp only [Exp.wellFormed, Bool.and_eq_true] at h
    exact chain_digits ds h.2
  | paren e ih =>
    simp only [Exp.wellFormed] at h
    refine List.chain'_cons'.mpr ⟨fun y _ => goodPair_left y, ?_⟩
    refine List.chain'_append.mpr ⟨ih h, List.chain'_singleton _, ?_⟩
    intro x _ y hy
    simp only [List.head?_cons, Option.mem_def, Option.some.injEq] at hy
    subst hy
    exact goodPair_right x
  | bin l o r ihl ihr =>
    simp only [Exp.wellFormed, Bool.and_eq_true] at h
    refine List.chain'_append.mpr ⟨ihl h.1, ?_, ?_⟩
    · exact List.chain'_cons'.mpr ⟨fun y _ => goodPair_op_left o y, ihr h.2⟩
    · intro x _ y hy
      simp only [List.head?_cons, Option.mem_def, Option.some.injEq] at hy
      subst hy
      exact goodPair_op_right x o

/-! ## `checkNearParens` -/

theorem option_any_iff {α : Type} (o : Option α) (p : α → Bool) :
    o.any p = true ↔ ∃ d, o = some d ∧ p d = true := by
  cases o <;> simp [Option.any]

theorem nearParenAt_iff (s : List Char) (i : Nat) :
    nearParenAt s i = true ↔
      (s[i]? = some ')' ∧ ∃ d, s[i + 1]? = some d ∧ isdigit d = true) ∨
      (s[i]? = some '(' ∧ 0 < i ∧ ∃ d, s[i - 1]? = some d ∧ isdigit d = true) := by
  simp only [nearParenAt, Bool.or_eq_true, Bool.and_eq_true, beq_iff_eq, decide_eq_true_eq,
    option_any_iff, gt_iff_lt]
  constructor
  · rintro (⟨⟨h1, -⟩, d, h3, h4⟩ | ⟨⟨h1, h2⟩, d, h3, h4⟩)
    · exact Or.inl ⟨h1, d, h3, h4⟩
    · exact Or.inr ⟨h1, h2, d, h3, h4⟩
  · rintro (⟨h1, d, h3, h4⟩ | ⟨h1, h2, d, h3, h4⟩)
    · refine Or.inl ⟨⟨h1, ?_⟩, d, h3, h4⟩
      by_contra hlt
      rw [List.getElem?_eq_none (not_lt.mp hlt)] at h3
      cases h3
    · exact Or.inr ⟨⟨h1, h2⟩, d, h3, h4⟩

theorem checkNearParensFrom_ok_iff (s : List Char) (n : Nat) : ∀ i,
    checkNearParensFrom s n i = .ok () ↔ ∀ j, i ≤ j → j < i + n → nearParenAt s j = false := by
  induction n with
  | zero =>
    intro i
    simp only [checkNearParensFrom, true_iff]
    intro j h1 h2
    omega
  | succ n ih =>
    intro i
    rw [checkNearParensFrom]
    cases hi : nearParenAt s i with
    | true =>
      simp only [if_true]
      constructor
      · intro h; cases h
      · intro h
        have := h i le_rfl (by omega)
        rw [hi] at this
        cases this
    | false =>
      simp only [Bool.false_eq_true, if_false]
      rw [ih]
      constructor
      · intro h j h1 h2
        rcases Nat.eq_or_lt_of_le h1 with rfl | hlt
        · exact hi
        · exact h j hlt (by omega)
      · intro h j h1 h2
        exact h j (by omega) (by omega)

theorem checkNearParensFrom_error (s : List Char) (n : Nat) : ∀ i e,
    checkNearParensFrom s n i = .error e → e = .missingOperator := by
  induction n with
  | zero => intro i e h; cases h
  | succ n ih =>
    intro i e h
    rw [checkNearParensFrom] at h
    split at h
    · cases h; rfl
    · exact ih _ _ h

theorem checkNearParens_ok_iff (s : List Char) :
    checkNearParens s = .ok () ↔ ∀ j, nearParenAt s j = false := by
  rw [checkNearParens, checkNearParensFrom_ok_iff]
  constructor
  · intro h j
    by_cases hj : j < s.length
    · exact h j (Nat.zero_le _) (by omega)
    · by_contra hne
      have ht : nearParenAt s j = true := by simpa using hne
      rw [nearParenAt_iff] at ht
      rcases ht with ⟨h1, -⟩ | ⟨h1, -⟩ <;>
        · rw [List.getElem?_eq_none (not_lt.mp hj)] at h1
          cases h1
  · intro h j _ _
    exact h j

theorem chain_getElem {s : List Char} (h : s.Chain' goodPair) : ∀ (i : Nat) (x y : Char),
    s[i]? = some x → s[i + 1]? = some y → goodPair x y := by
  induction s with
  | nil => intro i x y hx; simp at hx
  | cons a t ih =>
    intro i x y hx hy
    rw [List.chain'_cons'] at h
    cases i with
    | zero =>
      simp only [List.getElem?_cons_zero, Option.some.injEq] at hx
      subst hx
      simp only [zero_add, List.getElem?_cons_succ] at hy
      refine h.1 y ?_
      cases t with
      | nil => simp at hy
      | cons b t => simpa using hy
    | succ i =>
      simp only [List.getElem?_cons_succ] at hx hy
      exact ih h.2 i x y hx hy

theorem checkNearParens_chain {s : List Char} (h : s.Chain' goodPair) :
    checkNearParens s = .ok () := by
  rw [checkNearParens_ok_iff]
  intro j
  by_contra hne
  have ht : nearParenAt s j = true := by simpa using hne
  rw [nearParenAt_iff] at ht
  rcases ht with ⟨h1, d, h2, h3⟩ | ⟨h1, hpos, d, h2, h3⟩
  · exact (chain_getElem h j _ _ h1 h2).1 ⟨rfl, h3⟩
  · have hj : j - 1 + 1 = j := by omega
    exact (chain_getElem h (j - 1) _ _ h2 (by rw [hj]; exact h1)).2 ⟨h3, rfl⟩

/-! ## The whole pipeline on a standard expression -/

theorem Exp.wellFormed_of_standard (e : Exp) (h : e.standard = true) : e.wellFormed = true := by
  induction e with
  | num ds => exact h
  | paren e ih => exact ih h
  | bin l o r ihl ihr =>
    simp only [Exp.standard, Bool.and_eq_true] at h
    simp [Exp.wellFormed, ihl h.1.1, ihr h.1.2]

theorem ExpParser_str (e : Exp) (h : e.wellFormed = true) (s : List Char)
    (hs : removeSpaces s = e.str) : ExpParser s = .ok (createTokenVector e.str) := by
  have h1 : checkValidChars e.str = .ok () := checkValidCharsFrom_ok _ (e.str_allowed h) 0
  have h2 : checkParenthesees e.str = .ok () := by
    have := checkParentheseesFrom_str e h [] []
    rw [List.append_nil] at this
    rw [checkParenthesees, this]
    rfl
  have h3 : checkNearParens e.str = .ok () := checkNearParens_chain (e.str_chain h)
  simp only [ExpParser, hs, h1, h2, h3]

/-- The calculator on any spacing of a standard expression returns its value. -/
theorem evaluate_standard (e : Exp) (h : e.standard = true) (s : List Char)
    (hs : removeSpaces s = e.str) : evaluate s = .ok e.value := by
  rw [evaluate, ExpParser_str e (e.wellFormed_of_standard h) s hs]
  exact calculate_standard e h

/-! ## Every derivation tree has a standard reading -/

theorem Exp.attachFactor_str (l : Exp) (o : Op) (f : Exp) :
    (l.attachFactor o f).str = l.str ++ o.char :: f.str := by
  unfold Exp.attachFactor
  split
  · split <;> simp [Exp.str]
  · rfl

theorem Exp.join_str (x : Exp) (o : Op) (f : Exp) :
    (x.join o f).str = x.str ++ o.char :: f.str := by
  unfold Exp.join
  split
  · exact Exp.attachFactor_str x o f
  · rfl

theorem Exp.attach_str (l : Exp) (o : Op) (r : Exp) :
    (Exp.attach l o r).str = l.str ++ o.char :: r.str := by
  induction r with
  | num ds => exact Exp.join_str l o _
  | paren e _ => exact Exp.join_str l o _
  | bin r1 o1 r2 ih1 _ =>
    rw [Exp.attach, Exp.join_str, ih1]
    simp [Exp.str]

theorem Exp.standardize_str (t : Exp) : t.standardize.str = t.str := by
  induction t with
  | num ds => rfl
  | paren e ih => simp [Exp.standardize, Exp.str, ih]
  | bin l o r ihl ihr => rw [Exp.standardize, Exp.attach_str, ihl, ihr]; rfl

theorem Exp.isTerm_of_isFactor {e : Exp} (h : e.isFactor = true) : e.isTerm = true := by
  cases e <;> simp_all [Exp.isFactor, Exp.isTerm]

theorem Exp.isTerm_bin (l : Exp) (o : Op) (r : Exp) : (Exp.bin l o r).isTerm = o.tight := rfl

theorem Exp.standard_bin (l : Exp) (o : Op) (r : Exp) :
    (Exp.bin l o r).standard =
      (l.standard && r.standard && (if o.tight then l.isTerm && r.isFactor else r.isTerm)) := rfl

theorem Exp.attachFactor_standard {l f : Exp} (o : Op) (ho : o.tight = true)
    (hl : l.standard = true) (hf : f.standard = true) (hff : f.isFactor = true) :
    (l.attachFactor o f).standard = true := by
  unfold Exp.attachFactor
  split
  · rename_i l1 o1 l2
    have hl0 := hl
    simp only [Exp.standard_bin, Bool.and_eq_true] at hl
    cases h1 : o1.tight with
    | true => simp [Exp.standard_bin, Exp.isTerm_bin, h1, ho, hl0, hf, hff]
    | false =>
      simp only [h1, Bool.false_eq_true, if_false] at hl
      simp [Exp.standard_bin, Exp.isTerm_bin, h1, ho, hl, hf, hff]
  · rename_i hne
    have hlt : l.isTerm = true := by
      cases l with
      | num ds => rfl
      | paren e => rfl
      | bin l1 o1 l2 => exact absurd rfl (hne l1 o1 l2)
    simp [Exp.standard_bin, ho, hl, hf, hff, hlt]

theorem Exp.join_standard {x f : Exp} (o : Op) (hx : x.standard = true) (hf : f.standard = true)
    (hshape : (if o.tight then f.isFactor else f.isTerm) = true) :
    (x.join o f).standard = true := by
  unfold Exp.join
  cases ho : o.tight with
  | true =>
    simp only [ho, if_true] at hshape ⊢
    exact Exp.attachFactor_standard o ho hx hf hshape
  | false =>
    simp only [ho, Bool.false_eq_true, if_false] at hshape ⊢
    simp [Exp.standard_bin, ho, hx, hf, hshape]

theorem Exp.attach_standard {l : Exp} (o : Op) (hl : l.standard = true) :
    ∀ r : Exp, r.standard = true → (Exp.attach l o r).standard = true := by
  intro r
  induction r with
  | num ds =>
    intro hr
    exact Exp.join_standard o hl hr (by split <;> rfl)
  | paren e _ =>
    intro hr
    exact Exp.join_standard o hl hr (by split <;> rfl)
  | bin r1 o1 r2 ih1 _ =>
    intro hr
    simp only [Exp.standard, Bool.and_eq_true] at hr
    rw [Exp.attach]
    refine Exp.join_standard o1 (ih1 hr.1.1) hr.1.2 ?_
    cases h1 : o1.tight with
    | true => simp only [h1, if_true, Bool.and_eq_true] at hr ⊢; exact hr.2.2
    | false => simp only [h1, Bool.false_eq_true, if_false] at hr ⊢; exact hr.2

theorem Exp.standardize_standard (t : Exp) (h : t.wellFormed = true) :
    t.standardize.standard = true := by
  induction t with
  | num ds => exact h
  | paren e ih => exact ih h
  | bin l o r ihl ihr =>
    simp only [Exp.wellFormed, Bool.and_eq_true] at h
    exact Exp.attach_standard o (ihl h.1) _ (ihr h.2)

/-! ## Well-formed expressions in the model, and claim C5 -/

theorem not_isspace_of_allowed {c : Char} (h : allowedChar c = true) : isspace c = false := by
  simp only [allowedChar, Bool.not_eq_true', Bool.and_eq_false_imp, Bool.and_eq_true,
    Bool.not_eq_true', bne_iff_ne, ne_eq, Bool.not_eq_false'] at h
  by_cases hd : isdigit c = true
  · rw [isdigit_iff] at hd
    simp only [isspace, Bool.or_eq_false_iff, decide_eq_false_iff_not, Bool.and_eq_false_imp,
      decide_eq_true_eq]
    omega
  · have hd' : isdigit c = false := by simpa using hd
    by_cases h1 : c = ')'
    · subst h1; decide
    by_cases h2 : c = '('
    · subst h2; decide
    by_cases h3 : c = '+'
    · subst h3; decide
    by_cases h4 : c = '*'
    · subst h4; decide
    by_cases h5 : c = '/'
    · subst h5; decide
    by_cases h6 : c = '-'
    · subst h6; decide
    simp_all

theorem removeSpaces_allowed (s : List Char) (h : s.all allowedChar = true) :
    removeSpaces s = s := by
  rw [removeSpaces, List.filter_eq_self]
  intro c hc
  simp [not_isspace_of_allowed (List.all_eq_true.mp h c hc)]

theorem Exp.standard_num (d : List Char) : (Exp.num d).standard = digitString d := rfl

theorem Exp.standard_paren (e : Exp) : (Exp.paren e).standard = e.standard := rfl

/-- The calculator on the string of a standard expression, written without spaces. -/
theorem evaluate_str (e : Exp) (h : e.standard = true) : evaluate e.str = .ok e.value :=
  evaluate_standard e h e.str
    (removeSpaces_allowed _ (e.str_allowed (e.wellFormed_of_standard h)))

/-- Well-formed expressions in the model, that is, with exact arithmetic and with every
reduction reading the popped values. Let `s` be a line whose whitespace-stripped form is
derived by a tree `t` of the grammar `E ::= digit+ | E op E | '(' E ')'`. Then the string has
a standard reading (a tree in which `*` and `/` bind tighter than `+` and `-` and all
operators associate to the left), and for every standard reading `e` in which no divisor
evaluates to zero, the lexer and `calculate` return the value of `e` and no error. The program
itself departs from this where a reduction starts with `10 * k + 1` values on the stack
(`releasesBlock`), as on `deepExample`. -/
theorem model_wellformed_expression (t : Exp) (ht : t.wellFormed = true) (s : List Char)
    (hs : removeSpaces s = t.str) :
    (∃ e : Exp, e.standard = true ∧ e.str = t.str) ∧
    (∀ e : Exp, e.standard = true → e.str = t.str → e.noZeroDivisor = true →
      evaluate s = .ok e.value) := by
  refine ⟨⟨t.standardize, t.standardize_standard ht, t.standardize_str⟩, ?_⟩
  intro e he hstr _
  exact evaluate_standard e he s (hs.trans hstr.symm)

/-- The two example inputs of the usage banner in the model: `(54 * (4 + 3*2 ) + 876)` is
1416 and `1000/4 + 3/5+(3+(7*2))` is 1338/5. -/
theorem model_banner_examples :
    evaluate "(54 * (4 + 3*2 ) + 876)".toList = .ok 1416 ∧
    evaluate "1000/4 + 3/5+(3+(7*2))".toList = .ok (1338 / 5) := by
  constructor
  · have h := (model_wellformed_expression
      (.paren (.bin (.bin (.num ['5', '4']) .mul
        (.paren (.bin (.num ['4']) .add (.bin (.num ['3']) .mul (.num ['2']))))) .add
        (.num ['8', '7', '6'])))
      (by decide) "(54 * (4 + 3*2 ) + 876)".toList (by decide)).2 _ (by decide) rfl (by decide!)
    exact h.trans (by decide!)
  · have h := (model_wellformed_expression
      (.bin (.bin (.bin (.num ['1', '0', '0', '0']) .div (.num ['4'])) .add
        (.bin (.num ['3']) .div (.num ['5']))) .add
        (.paren (.bin (.num ['3']) .add (.paren (.bin (.num ['7']) .mul (.num ['2']))))))
      (by decide) "1000/4 + 3/5+(3+(7*2))".toList (by decide)).2 _ (by decide) rfl (by decide!)
    exact h.trans (by decide!)

theorem applyOperation_error {a b : ℚ} {op : Char} {e : Error}
    (h : applyOperation a b op = .error e) : e = .unknownOperator op := by
  unfold applyOperation at h
  split at h
  · cases h
  · split at h
    · cases h
    · split at h
      · cases h
      · split at h
        · cases h
        · cases h; rfl

theorem reduceTop_error {vs : List Token} {op : Token} {e : Error}
    (h : reduceTop vs op = .error e) : fromCalculator e := by
  unfold reduceTop at h
  split at h
  · cases h; exact Or.inl rfl
  · split at h
    · cases h; exact Or.inl rfl
    · split at h
      · rename_i e1 he
        cases h
        exact Or.inr ⟨_, applyOperation_error he⟩
      · cases h

theorem rightParenLoop_error {e : Error} (os : List Token) : ∀ vs : List Token,
    rightParenLoop vs os = .error e → fromCalculator e := by
  induction os with
  | nil => intro vs h; cases h
  | cons top os ih =>
    intro vs h
    rw [rightParenLoop] at h
    split at h
    · split at h
      · rename_i e1 he
        cases h
        exact reduceTop_error he
      · exact ih _ h
    · cases h

theorem operatorLoop_error {e : Error} (p : Int) (os : List Token) : ∀ vs : List Token,
    operatorLoop p vs os = .error e → fromCalculator e := by
  induction os with
  | nil => intro vs h; cases h
  | cons top os ih =>
    intro vs h
    rw [operatorLoop] at h
    split at h
    · split at h
      · rename_i e1 he
        cases h
        exact reduceTop_error he
      · exact ih _ h
    · cases h

theorem drainLoop_error {e : Error} (os : List Token) : ∀ vs : List Token,
    drainLoop vs os = .error e → fromCalculator e := by
  induction os with
  | nil => intro vs h; cases h
  | cons top os ih =>
    intro vs h
    rw [drainLoop] at h
    split at h
    · rename_i e1 he
      cases h
      exact reduceTop_error he
    · exact ih _ h

theorem step_error {t : Token} {rest vs os : List Token} {e : Error}
    (h : step t rest vs os = .error e) : fromCalculator e := by
  unfold step at h
  split at h
  · cases h
  · split at h
    · cases h
    · split at h
      · split at h
        · rename_i e1 he
          cases h
          exact rightParenLoop_error _ _ he
        · cases h
      · split at h
        · rename_i e1 he
          cases h
          exact operatorLoop_error _ _ _ he
        · cases h

theorem scan_error {e : Error} (n : Nat) : ∀ st : State, scan n st = .error e →
    fromCalculator e := by
  induction n with
  | zero => intro st h; cases h
  | succ n ih =>
    intro st h
    rw [scan] at h
    split at h
    · cases h
    · split at h
      · rename_i e1 he
        cases h
        exact step_error he
      · exact ih _ h

theorem calculate_error {tokens : List Token} {e : Error} (h : calculate tokens = .error e) :
    fromCalculator e := by
  unfold calculate at h
  split at h
  · rename_i e1 he
    cases h
    exact scan_error _ _ he
  · split at h
    · rename_i e1 he
      cases h
      exact drainLoop_error _ _ he
    · split at h
      · cases h
      · cases h; exact Or.inl rfl

theorem checkParentheseesFrom_error {e : Error} (s : List Char) : ∀ st : List Char,
    checkParentheseesFrom st s = .error e → e = .unbalancedParentheses := by
  induction s with
  | nil =>
    intro st h
    rw [checkParentheseesFrom] at h
    split at h
    · cases h; rfl
    · cases h
  | cons c s ih =>
    intro st h
    rw [checkParentheseesFrom_cons] at h
    split at h
    · exact ih _ h
    · split at h
      · split at h
        · exact ih _ h
        · cases h; rfl
      · exact ih _ h

theorem checkValidCharsFrom_error {e : Error} (s : List Char) : ∀ i : Nat,
    checkValidCharsFrom i s = .error e → ∃ c j, e = .invalidCharacter c j := by
  induction s with
  | nil => intro i h; cases h
  | cons c s ih =>
    intro i h
    rw [checkValidCharsFrom] at h
    split at h
    · cases h; exact ⟨_, _, rfl⟩
    · exact ih _ h

/-- The pipeline of `evaluate`, stage by stage, on the stripped line. -/
theorem evaluate_eq (s : List Char) :
    evaluate s =
      match checkValidChars (removeSpaces s) with
      | .error e => .error e
      | .ok _ =>
        match checkParenthesees (removeSpaces s) with
        | .error e => .error e
        | .ok _ =>
          match checkNearParens (removeSpaces s) with
          | .error e => .error e
          | .ok _ => calculate (createTokenVector (removeSpaces s)) := by
  unfold evaluate ExpParser
  simp only []
  cases checkValidChars (removeSpaces s) with
  | error e => rfl
  | ok _ =>
    cases checkParenthesees (removeSpaces s) with
    | error e => rfl
    | ok _ =>
      cases checkNearParens (removeSpaces s) with
      | error e => rfl
      | ok _ => rfl

/-! ## Claim C6: character-set validation -/

theorem checkValidCharsFrom_cons (i : Nat) (c : Char) (s : List Char) :
    checkValidCharsFrom i (c :: s) =
      if allowedChar c = true then checkValidCharsFrom (i + 1) s
      else .error (.invalidCharacter c i) := by
  rw [checkValidCharsFrom]
  cases h : allowedChar c <;> simp only [allowedChar, Bool.not_eq_true', Bool.not_eq_false'] at h
    <;> simp [h]

theorem checkValidCharsFrom_error_iff (s : List Char) : ∀ (i : Nat) (c : Char) (n : Nat),
    checkValidCharsFrom i s = .error (.invalidCharacter c n) ↔
      ∃ j, n = i + j ∧ s[j]? = some c ∧ allowedChar c = false ∧
        ∀ k < j, ∀ d, s[k]? = some d → allowedChar d = true := by
  induction s with
  | nil =>
    intro i c n
    simp [checkValidCharsFrom]
  | cons a s ih =>
    intro i c n
    rw [checkValidCharsFrom_cons]
    cases ha : allowedChar a with
    | true =>
      simp only [if_true]
      rw [ih]
      constructor
      · rintro ⟨j, hn, hj, hc, hall⟩
        refine ⟨j + 1, by omega, by simpa using hj, hc, ?_⟩
        intro k hk d hd
        cases k with
        | zero => simp only [List.getElem?_cons_zero, Option.some.injEq] at hd; rw [← hd]; exact ha
        | succ k => exact hall k (by omega) d (by simpa using hd)
      · rintro ⟨j, hn, hj, hc, hall⟩
        cases j with
        | zero =>
          simp only [List.getElem?_cons_zero, Option.some.injEq] at hj
          rw [hj, hc] at ha
          cases ha
        | succ j =>
          refine ⟨j, by omega, by simpa using hj, hc, ?_⟩
          intro k hk d hd
          exact hall (k + 1) (by omega) d (by simpa using hd)
    | false =>
      simp only [Bool.false_eq_true, if_false, Except.error.injEq, Error.invalidCharacter.injEq]
      constructor
      · rintro ⟨rfl, rfl⟩
        exact ⟨0, rfl, List.getElem?_cons_zero, ha, fun k hk => absurd hk (Nat.not_lt_zero k)⟩
      · rintro ⟨j, hn, hj, hc, hall⟩
        cases j with
        | zero =>
          simp only [List.getElem?_cons_zero, Option.some.injEq] at hj
          exact ⟨hj, hn.symm⟩
        | succ j =>
          have := hall 0 (Nat.succ_pos j) a List.getElem?_cons_zero
          rw [ha] at this
          cases this

theorem allowedChar_iff (c : Char) :
    allowedChar c = true ↔ c ∈ "0123456789+-*/()".toList := by
  constructor
  · intro h
    simp only [allowedChar, Bool.not_eq_true', Bool.and_eq_false_imp, Bool.and_eq_true,
      Bool.not_eq_true', bne_iff_ne, ne_eq, Bool.not_eq_false'] at h
    by_cases hd : isdigit c = true
    · rw [isdigit_iff] at hd
      have hc : c = Char.ofNat c.toNat := (Char.ofNat_toNat c).symm
      obtain ⟨h1, h2⟩ := hd
      generalize c.toNat = n at hc h1 h2
      subst hc
      interval_cases n <;> decide
    · have hd' : isdigit c = false := by simpa using hd
      by_cases h1 : c = ')'
      · subst h1; decide
      by_cases h2 : c = '('
      · subst h2; decide
      by_cases h3 : c = '+'
      · subst h3; decide
      by_cases h4 : c = '*'
      · subst h4; decide
      by_cases h5 : c = '/'
      · subst h5; decide
      by_cases h6 : c = '-'
      · subst h6; decide
      simp_all
  · intro h
    have : "0123456789+-*/()".toList.all allowedChar = true := by decide
    exact List.all_eq_true.mp this c h

/-- The error of `evaluate` is that of `checkValidChars` exactly when it is an
`invalidCharacter`. -/
theorem evaluate_error_invalid_iff (s : List Char) (c : Char) (n : Nat) :
    evaluate s = .error (.invalidCharacter c n) ↔
      checkValidChars (removeSpaces s) = .error (.invalidCharacter c n) := by
  rw [evaluate_eq]
  cases h1 : checkValidChars (removeSpaces s) with
  | error e => simp
  | ok _ =>
    simp only []
    cases h2 : checkParenthesees (removeSpaces s) with
    | error e =>
      have := checkParentheseesFrom_error _ _ h2
      subst this
      simp
    | ok _ =>
      simp only []
      cases h3 : checkNearParens (removeSpaces s) with
      | error e =>
        have := checkNearParensFrom_error _ _ _ _ h3
        subst this
        simp
      | ok _ =>
        simp only []
        constructor
        · intro h
          rcases calculate_error h with h | ⟨_, h⟩ <;> cases h
        · intro h; cases h

/-- Claim C6. Character-set validation, for every input line `s`: `evaluate` fails with
`InvalidCharacter c i` if and only if `c` is the first character of the whitespace-stripped
line outside `0-9 + - * / ( )` and `i` is its 0-based index there, whatever the rest of the
line looks like; so it fails with `InvalidCharacter` if and only if the stripped line contains
a character outside that set. For instance `2^3` fails with `InvalidCharacter '^' 1`. -/
theorem evaluate_invalidCharacter (s : List Char) :
    (∀ (c : Char) (i : Nat), evaluate s = .error (.invalidCharacter c i) ↔
      ((removeSpaces s)[i]? = some c ∧ c ∉ "0123456789+-*/()".toList ∧
        ∀ j < i, ∀ d, (removeSpaces s)[j]? = some d → d ∈ "0123456789+-*/()".toList)) ∧
    ((∃ (c : Char) (i : Nat), evaluate s = .error (.invalidCharacter c i)) ↔
      ∃ c ∈ removeSpaces s, c ∉ "0123456789+-*/()".toList) ∧
    evaluate "2^3".toList = .error (.invalidCharacter '^' 1) := by
  have key : ∀ (c : Char) (i : Nat), evaluate s = .error (.invalidCharacter c i) ↔
      ((removeSpaces s)[i]? = some c ∧ c ∉ "0123456789+-*/()".toList ∧
        ∀ j < i, ∀ d, (removeSpaces s)[j]? = some d → d ∈ "0123456789+-*/()".toList) := by
    intro c i
    rw [evaluate_error_invalid_iff, checkValidChars, checkValidCharsFrom_error_iff]
    simp only [← allowedChar_iff, Bool.not_eq_true]
    constructor
    · rintro ⟨j, hn, h⟩
      rw [zero_add] at hn
      subst hn
      exact h
    · intro h
      exact ⟨i, (zero_add i).symm, h⟩
  refine ⟨key, ?_, by decide⟩
  constructor
  · rintro ⟨c, i, h⟩
    obtain ⟨h1, h2, -⟩ := (key c i).mp h
    exact ⟨c, List.getElem?_mem h1, h2⟩
  · rintro ⟨c, hc, hbad⟩
    -- the least index of a character outside the set
    have hex : ∃ i : Nat, ∃ d, (removeSpaces s)[i]? = some d ∧ d ∉ "0123456789+-*/()".toList := by
      obtain ⟨i, hi⟩ := List.mem_iff_getElem?.mp hc
      exact ⟨i, c, hi, hbad⟩
    classical
    obtain ⟨d, hd, hdbad⟩ := Nat.find_spec hex
    refine ⟨d, Nat.find hex, (key d _).mpr ⟨hd, hdbad, ?_⟩⟩
    intro j hj x hx
    by_contra hxbad
    exact Nat.find_min hex hj ⟨x, hx, hxbad⟩

/-! ## Claim C7: parenthesis balance -/

/-- The stack check from a stack of height `st.length` succeeds exactly when no prefix closes
more than `st.length` parentheses beyond those it opens, and the counts match at the end. -/
theorem checkParentheseesFrom_ok_iff (s : List Char) : ∀ st : List Char,
    checkParentheseesFrom st s = .ok () ↔
      (∀ n, (s.take n).count ')' ≤ st.length + (s.take n).count '(') ∧
        st.length + s.count '(' = s.count ')' := by
  induction s with
  | nil =>
    intro st
    rw [checkParentheseesFrom]
    cases st with
    | nil => simp
    | cons x st => simp
  | cons c s ih =>
    intro st
    have hsplit : ∀ (P : Nat → Prop), (∀ n, P n) ↔ P 0 ∧ ∀ n, P (n + 1) := by
      intro P
      constructor
      · intro h; exact ⟨h 0, fun n => h (n + 1)⟩
      · rintro ⟨h0, hs⟩ n
        cases n with
        | zero => exact h0
        | succ n => exact hs n
    rw [checkParentheseesFrom_cons, hsplit]
    simp only [List.take_zero, List.count_nil, Nat.zero_le, true_and, List.take_succ_cons]
    by_cases h1 : c = '('
    · subst h1
      simp only [if_true]
      rw [ih]
      simp only [List.length_cons, List.count_cons_self]
      have hne : ('(' == ')') = false := by decide
      simp only [List.count_cons, hne, Bool.false_eq_true, if_false, Nat.add_zero, beq_self_eq_true,
        if_true]
      constructor
      · rintro ⟨h, h'⟩; exact ⟨fun n => by have := h n; omega, by omega⟩
      · rintro ⟨h, h'⟩; exact ⟨fun n => by have := h n; omega, by omega⟩
    · by_cases h2 : c = ')'
      · subst h2
        have hne : (')' == '(') = false := by decide
        simp only [List.count_cons, hne, Bool.false_eq_true, if_false, Nat.add_zero,
          beq_self_eq_true, if_true]
        cases st with
        | nil =>
          simp only [List.length_nil, Nat.zero_add]
          constructor
          · intro h; cases h
          · rintro ⟨h, -⟩
            have := h 0
            simp at this
        | cons x st =>
          simp only [List.length_cons, h1, if_false]
          rw [ih]
          constructor
          · rintro ⟨h, h'⟩; exact ⟨fun n => by have := h n; omega, by omega⟩
          · rintro ⟨h, h'⟩; exact ⟨fun n => by have := h n; omega, by omega⟩
      · simp only [h1, h2, if_false]
        rw [ih]
        have e1 : (c == '(') = false := by simpa using h1
        have e2 : (c == ')') = false := by simpa using h2
        simp only [List.count_cons, e1, e2, Bool.false_eq_true, if_false, Nat.add_zero]

theorem checkParenthesees_ok_iff (s : List Char) : checkParenthesees s = .ok () ↔ Balanced s := by
  rw [checkParenthesees, checkParentheseesFrom_ok_iff]
  simp [Balanced]

theorem checkParenthesees_error_iff (s : List Char) :
    checkParenthesees s = .error .unbalancedParentheses ↔ ¬Balanced s := by
  rw [← checkParenthesees_ok_iff]
  cases h : checkParenthesees s with
  | error e =>
    have := checkParentheseesFrom_error _ _ h
    subst this
    simp
  | ok u => simp

theorem checkValidChars_ok_iff (s : List Char) :
    checkValidChars s = .ok () ↔ ∀ c ∈ s, c ∈ "0123456789+-*/()".toList := by
  constructor
  · intro h c hc
    by_contra hbad
    obtain ⟨i, hi⟩ := List.mem_iff_getElem?.mp hc
    have hex : ∃ i : Nat, ∃ d, s[i]? = some d ∧ allowedChar d = false :=
      ⟨i, c, hi, by rw [← allowedChar_iff] at hbad; simpa using hbad⟩
    classical
    obtain ⟨d, hd, hdbad⟩ := Nat.find_spec hex
    have herr : checkValidCharsFrom 0 s = .error (.invalidCharacter d (Nat.find hex)) := by
      rw [checkValidCharsFrom_error_iff]
      refine ⟨_, (zero_add _).symm, hd, hdbad, ?_⟩
      intro k hk x hx
      by_contra hxbad
      exact Nat.find_min hex hk ⟨x, hx, by simpa using hxbad⟩
    rw [checkValidChars, herr] at h
    cases h
  · intro h
    refine checkValidCharsFrom_ok s ?_ 0
    exact List.all_eq_true.mpr (fun c hc => (allowedChar_iff c).mpr (h c hc))

/-- Claim C7. Parenthesis balance: for every line whose whitespace-stripped form contains only
the characters `0-9 + - * / ( )`, `evaluate` fails with `UnbalancedParentheses` if and only if
the stripped form is not balanced (balanced: every prefix has at least as many `(` as `)` and
the whole string has equally many). No other condition is involved, so this error takes
priority over `MissingOperator` and `MalformedExpression`. -/
theorem evaluate_unbalanced (s : List Char)
    (hs : ∀ c ∈ removeSpaces s, c ∈ "0123456789+-*/()".toList) :
    evaluate s = .error .unbalancedParentheses ↔ ¬Balanced (removeSpaces s) := by
  rw [evaluate_eq, (checkValidChars_ok_iff _).mpr hs, ← checkParenthesees_error_iff]
  simp only []
  cases h2 : checkParenthesees (removeSpaces s) with
  | error e =>
    have := checkParentheseesFrom_error _ _ h2
    subst this
    simp
  | ok _ =>
    simp only []
    cases h3 : checkNearParens (removeSpaces s) with
    | error e =>
      have := checkNearParensFrom_error _ _ _ _ h3
      subst this
      simp
    | ok _ =>
      simp only []
      constructor
      · intro h
        rcases calculate_error h with h | ⟨_, h⟩ <;> cases h
      · intro h; cases h

/-- The lines `(` and `(3+2)4)` fail with `UnbalancedParentheses`; the second also has a digit
right after a `)`. -/
theorem evaluate_unbalanced_witness :
    evaluate "(".toList = .error .unbalancedParentheses ∧
    evaluate "(3+2)4)".toList = .error .unbalancedParentheses :=
  ⟨(evaluate_unbalanced "(".toList (by decide)).mpr (fun h => absurd h.2 (by decide)),
    (evaluate_unbalanced "(3+2)4)".toList (by decide)).mpr (fun h => absurd h.2 (by decide))⟩

/-! ## Claim C8: implicit adjacency -/

theorem checkNearParens_error_iff (s : List Char) :
    checkNearParens s = .error .missingOperator ↔ ∃ i, Adjacent s i := by
  have hok := checkNearParens_ok_iff s
  cases h : checkNearParens s with
  | error e =>
    have := checkNearParensFrom_error _ _ _ _ h
    subst this
    simp only [true_iff]
    by_contra hnone
    have : checkNearParens s = .ok () := hok.mpr (fun j => by
      by_contra hj
      have ht : nearParenAt s j = true := by simpa using hj
      exact hnone ⟨j, (nearParenAt_iff s j).mp ht⟩)
    rw [h] at this
    cases this
  | ok u =>
    constructor
    · intro h'; cases h'
    · rintro ⟨i, hi⟩
      have := (hok.mp (by rw [h])) i
      rw [(nearParenAt_iff s i).mpr hi] at this
      cases this

/-- Claim C8. Implicit-adjacency check: for every line whose whitespace-stripped form `t`
contains only the characters `0-9 + - * / ( )` and is balanced, `evaluate` fails with
`MissingOperator` if and only if there is an index `i` with `t[i] = ')'` and `t[i+1]` a digit,
or with `t[i] = '('`, `i > 0` and `t[i-1]` a digit. -/
theorem evaluate_missingOperator (s : List Char)
    (hs : ∀ c ∈ removeSpaces s, c ∈ "0123456789+-*/()".toList)
    (hb : Balanced (removeSpaces s)) :
    evaluate s = .error .missingOperator ↔ ∃ i, Adjacent (removeSpaces s) i := by
  rw [evaluate_eq, (checkValidChars_ok_iff _).mpr hs, (checkParenthesees_ok_iff _).mpr hb,
    ← checkNearParens_error_iff]
  simp only []
  cases h3 : checkNearParens (removeSpaces s) with
  | error e =>
    have := checkNearParensFrom_error _ _ _ _ h3
    subst this
    simp
  | ok _ =>
    simp only []
    constructor
    · intro h
      rcases calculate_error h with h | ⟨_, h⟩ <;> cases h
    · intro h; cases h

theorem balanced_of_check {s : List Char} (h : checkParenthesees s = .ok ()) : Balanced s :=
  (checkParenthesees_ok_iff s).mp h

/-- The lines `(3+2)4` and `1+3(4/2)` fail with `MissingOperator`: a digit follows the `)` at
index 4 of the first, and a digit precedes the `(` at index 3 of the second. -/
theorem evaluate_missingOperator_witness :
    evaluate "(3+2)4".toList = .error .missingOperator ∧
    evaluate "1+3(4/2)".toList = .error .missingOperator :=
  ⟨(evaluate_missingOperator "(3+2)4".toList (by decide) (balanced_of_check (by decide))).mpr
      ⟨4, Or.inl ⟨by decide, '4', by decide, by decide⟩⟩,
    (evaluate_missingOperator "1+3(4/2)".toList (by decide) (balanced_of_check (by decide))).mpr
      ⟨3, Or.inr ⟨by decide, by decide, '3', by decide, by decide⟩⟩⟩

/-! ## Claim C9: two groups side by side -/

theorem calculate_eq_drained (tokens : List Token) :
    calculate tokens =
      match drainedStack tokens with
      | .error e => .error e
      | .ok valueStack =>
        match valueStack with
        | top :: _ => .ok top.value
        | [] => .error .malformedExpression := by
  unfold calculate drainedStack
  cases scan tokens.length ⟨tokens, [], []⟩ with
  | error e => rfl
  | ok st => rfl

/-- Claim C9: the code does not do what the claim says. The lines `(2)(3)` and `(1)(2)+` pass
the three checks of the lexer, which reject `)4` and `3(` but not `)(`; after the operator
stack has been emptied the value stack of `(2)(3)` holds the two values 3 and 2; and both
lines evaluate to 3 instead of failing with `MalformedExpression`. -/
theorem adjacent_groups_failing_input :
    ExpParser "(2)(3)".toList = .ok (createTokenVector "(2)(3)".toList) ∧
    drainedStack (createTokenVector "(2)(3)".toList) =
      .ok [Token.ofDouble 3, Token.ofDouble 2] ∧
    evaluate "(2)(3)".toList = .ok 3 ∧
    ExpParser "(1)(2)+".toList = .ok (createTokenVector "(1)(2)+".toList) ∧
    evaluate "(1)(2)+".toList = .ok 3 := by
  refine ⟨by decide, by decide!, by decide!, by decide, by decide!⟩

/-! ## Claim C10: a line of whitespace -/

/-- Claim C10. For every non-empty line consisting only of whitespace characters, whitespace
removal leaves the empty string, the token sequence is empty, and `evaluate` fails with
`MalformedExpression`. -/
theorem evaluate_whitespace (s : List Char) (_hne : s ≠ []) (hw : ∀ c ∈ s, isspace c = true) :
    removeSpaces s = [] ∧ ExpParser s = .ok [] ∧ evaluate s = .error .malformedExpression := by
  have h0 : removeSpaces s = [] := by
    rw [removeSpaces, List.filter_eq_nil_iff]
    intro c hc
    simp [hw c hc]
  have h1 : ExpParser s = .ok [] := by
    simp only [ExpParser, h0]
    rfl
  refine ⟨h0, h1, ?_⟩
  rw [evaluate, h1]
  rfl

/-- The line made of a space, a tab and a space fails with `MalformedExpression`. -/
theorem evaluate_whitespace_witness :
    evaluate " \t ".toList = .error .malformedExpression :=
  (evaluate_whitespace " \t ".toList (by decide) (by decide)).2.2

/-! ## Claim C11: whitespace is cosmetic -/

theorem removeSpaces_cons (c : Char) (s : List Char) :
    removeSpaces (c :: s) = if isspace c = true then removeSpaces s else c :: removeSpaces s := by
  cases h : isspace c <;> simp [removeSpaces, List.filter_cons, h]

theorem removeSpaces_spaced {s spaced : List Char} (h : Spaced s spaced) :
    removeSpaces spaced = removeSpaces s := by
  induction h with
  | nil => rfl
  | keep c _ ih => rw [removeSpaces_cons, removeSpaces_cons, ih]
  | insert w hw _ ih => rw [removeSpaces_cons, hw, if_pos rfl, ih]

theorem spaced_removeSpaces (s : List Char) : Spaced (removeSpaces s) s := by
  induction s with
  | nil => exact Spaced.nil
  | cons c s ih =>
    rw [removeSpaces_cons]
    cases h : isspace c with
    | true => simpa using Spaced.insert c h ih
    | false => simpa using Spaced.keep c ih

theorem evaluate_congr {s t : List Char} (h : removeSpaces s = removeSpaces t) :
    evaluate s = evaluate t := by
  rw [evaluate_eq, evaluate_eq, h]

/-- Claim C11. Whitespace is cosmetic. `removeSpaces` deletes exactly the whitespace
characters: its result contains no whitespace character, and the line is that result with
whitespace characters inserted. Hence for every line `s` and every line `spaced` obtained
from `s` by inserting whitespace characters at any positions, both lines are stripped to the
same string and `evaluate` has the same outcome on both: the same number or the same error. -/
theorem evaluate_spaced (s spaced : List Char) (h : Spaced s spaced) :
    (∀ c ∈ removeSpaces s, isspace c = false) ∧ Spaced (removeSpaces s) s ∧
    removeSpaces spaced = removeSpaces s ∧ evaluate spaced = evaluate s := by
  refine ⟨?_, spaced_removeSpaces s, removeSpaces_spaced h, evaluate_congr (removeSpaces_spaced h)⟩
  intro c hc
  have := (List.mem_filter.mp hc).2
  simpa using this

/-- The line `2 +\t3*4 ` is the line `2+3*4` with whitespace inserted; both are stripped to
`2+3*4` and both evaluate to 14. -/
theorem evaluate_spaced_witness :
    Spaced "2+3*4".toList "2 +\t3*4 ".toList ∧
    evaluate "2 +\t3*4 ".toList = evaluate "2+3*4".toList ∧
    evaluate "2 +\t3*4 ".toList = .ok 14 := by
  have hsp : Spaced "2+3*4".toList "2 +\t3*4 ".toList :=
    .keep '2' (.insert ' ' (by decide) (.keep '+' (.insert '\t' (by decide) (.keep '3'
      (.keep '*' (.keep '4' (.insert ' ' (by decide) .nil)))))))
  have h := evaluate_spaced "2+3*4".toList "2 +\t3*4 ".toList hsp
  exact ⟨hsp, h.2.2.2, h.2.2.2.trans (by decide!)⟩

/-! ## Claim C12: one token per character -/

theorem allowed_cases {c : Char} (hc : c ∈ "0123456789+-*/()".toList) :
    isdigit c = true ∨ c = '+' ∨ c = '-' ∨ c = '*' ∨ c = '/' ∨ c = '(' ∨ c = ')' := by
  have h := (allowedChar_iff c).mpr hc
  simp only [allowedChar, Bool.not_eq_true', Bool.and_eq_false_imp, Bool.and_eq_true,
    Bool.not_eq_true', bne_iff_ne, ne_eq, Bool.not_eq_false'] at h
  by_cases hd : isdigit c = true
  · exact Or.inl hd
  · have hd' : isdigit c = false := by simpa using hd
    by_cases h1 : c = ')'
    · simp [h1]
    by_cases h2 : c = '('
    · simp [h2]
    by_cases h3 : c = '+'
    · simp [h3]
    by_cases h4 : c = '*'
    · simp [h4]
    by_cases h5 : c = '/'
    · simp [h5]
    by_cases h6 : c = '-'
    · simp [h6]
    simp_all

/-- Claim C13. The kind and the precedence of a token are fixed by its character alone.
For every allowed character `c`: `c` is a digit, an operator or a parenthesis; `Token(c)` is
an `OPERATOR` with symbol `c` and precedence 1 when `c` is `+` or `-`, an `OPERATOR` with
symbol `c` and precedence 2 when `c` is `*` or `/`, a `LEFT_PARENTHESIS` with precedence 0
when `c` is `(`, a `RIGHT_PARENTHESIS` with precedence 0 when `c` is `)`, and a `NUMBER` whose
value is the integer `c - '0'`, between 0 and 9, when `c` is a digit. Hence the precedence of
every operator token is strictly greater than that of every parenthesis token. -/
theorem token_of_character (c : Char) (hc : c ∈ "0123456789+-*/()".toList) :
    (isdigit c = true ∨ c = '+' ∨ c = '-' ∨ c = '*' ∨ c = '/' ∨ c = '(' ∨ c = ')') ∧
    (c = '+' ∨ c = '-' → (Token.ofChar c).type = OPERATOR ∧ (Token.ofChar c).op = c ∧
      (Token.ofChar c).precedence = 1) ∧
    (c = '*' ∨ c = '/' → (Token.ofChar c).type = OPERATOR ∧ (Token.ofChar c).op = c ∧
      (Token.ofChar c).precedence = 2) ∧
    (c = '(' → (Token.ofChar c).type = LEFT_PARENTHESIS ∧ (Token.ofChar c).precedence = 0) ∧
    (c = ')' → (Token.ofChar c).type = RIGHT_PARENTHESIS ∧ (Token.ofChar c).precedence = 0) ∧
    (isdigit c = true → (Token.ofChar c).type = NUMBER ∧
      (Token.ofChar c).value = (((c.toNat : Int) - ('0'.toNat : Int) : Int) : ℚ) ∧
      0 ≤ (c.toNat : Int) - ('0'.toNat : Int) ∧ (c.toNat : Int) - ('0'.toNat : Int) ≤ 9) ∧
    (∀ d ∈ "0123456789+-*/()".toList, (Token.ofChar c).type = OPERATOR →
      (Token.ofChar d).type = LEFT_PARENTHESIS ∨ (Token.ofChar d).type = RIGHT_PARENTHESIS →
      (Token.ofChar d).precedence < (Token.ofChar c).precedence) := by
  refine ⟨allowed_cases hc, ?_, ?_, ?_, ?_, ?_, ?_⟩
  · rintro (rfl | rfl) <;> exact ⟨rfl, rfl, rfl⟩
  · rintro (rfl | rfl) <;> exact ⟨rfl, rfl, rfl⟩
  · rintro rfl; exact ⟨rfl, rfl⟩
  · rintro rfl; exact ⟨rfl, rfl⟩
  · intro hd
    have hr := (isdigit_iff c).mp hd
    have h48 : ('0'.toNat : Int) = 48 := by decide
    refine ⟨by rw [ofChar_digit hd], ?_, by rw [h48]; omega, by rw [h48]; omega⟩
    rw [ofChar_digit hd, h48]
    simp only [digitValue]
    rw [Nat.cast_sub hr.1]
    push_cast
    rfl
  · intro d hd hop hpar
    have hcp : (Token.ofChar c).precedence = 1 ∨ (Token.ofChar c).precedence = 2 := by
      rcases allowed_cases hc with h | rfl | rfl | rfl | rfl | rfl | rfl
      · rw [ofChar_digit h] at hop; cases hop
      · exact Or.inl rfl
      · exact Or.inl rfl
      · exact Or.inr rfl
      · exact Or.inr rfl
      · cases hop
      · cases hop
    have hdp : (Token.ofChar d).precedence = 0 := by
      rcases allowed_cases hd with h | rfl | rfl | rfl | rfl | rfl | rfl
      · rw [ofChar_digit h]
      · rcases hpar with h | h <;> cases h
      · rcases hpar with h | h <;> cases h
      · rcases hpar with h | h <;> cases h
      · rcases hpar with h | h <;> cases h
      · rfl
      · rfl
    rw [hdp]
    rcases hcp with h | h <;> rw [h] <;> decide

/-- The tokens of `+`, `/`, `(`, `)` and `7`. -/
theorem token_of_character_witness :
    ((Token.ofChar '+').type = OPERATOR ∧ (Token.ofChar '+').op = '+' ∧
      (Token.ofChar '+').precedence = 1) ∧
    ((Token.ofChar '/').type = OPERATOR ∧ (Token.ofChar '/').op = '/' ∧
      (Token.ofChar '/').precedence = 2) ∧
    ((Token.ofChar '(').type = LEFT_PARENTHESIS ∧ (Token.ofChar '(').precedence = 0) ∧
    ((Token.ofChar ')').type = RIGHT_PARENTHESIS ∧ (Token.ofChar ')').precedence = 0) ∧
    (Token.ofChar '7').type = NUMBER ∧ (Token.ofChar '7').value = 7 := by
  have hp := token_of_character '+' (by decide)
  have hd := token_of_character '/' (by decide)
  have hl := token_of_character '(' (by decide)
  have hr := token_of_character ')' (by decide)
  have h7 := token_of_character '7' (by decide)
  refine ⟨hp.2.1 (Or.inl rfl), hd.2.2.1 (Or.inr rfl), hl.2.2.2.1 rfl, hr.2.2.2.2.1 rfl,
    (h7.2.2.2.2.2.1 (by decide)).1, ?_⟩
  rw [(h7.2.2.2.2.2.1 (by decide)).2.1]
  decide!

/-! ## A reduction on two values -/

theorem reduceTop_cons_cons (val2 val1 : Token) (vs : List Token) (top : Token) :
    reduceTop (val2 :: val1 :: vs) top =
      match applyOperation val1.value val2.value top.op with
      | .error e => .error e
      | .ok t => .ok (t :: vs) := by
  cases h : applyOperation val1.value val2.value top.op <;> simp [reduceTop, h]

/-! ## Claim C17: division by zero is not an error -/

/-- Claim C17. Division by zero is not an error. `applyOperation` returns a token and no
error for all operands when `op` is one of `+ - * /`, a right operand 0 of `/` included.
Hence, for every line whose whitespace-stripped form is derived by a tree of the grammar
`E ::= digit+ | E op E | '(' E ')'`, `evaluate` returns a number and no error, whether or not
a divisor evaluates to zero. Which number a division by zero yields is outside the model (the
source yields a non-finite `double`); no branch of `calculate` depends on a value. -/
theorem division_by_zero_no_error (t : Exp) (ht : t.wellFormed = true) (s : List Char)
    (hs : removeSpaces s = t.str) :
    (∀ (a b : ℚ) (op : Char), op ∈ ['+', '-', '*', '/'] →
      ∃ r : Token, applyOperation a b op = .ok r ∧ r.type = NUMBER) ∧
    (∀ a : ℚ, ∃ r : Token, applyOperation a 0 '/' = .ok r) ∧
    (∃ v : ℚ, evaluate s = .ok v) ∧
    (∀ e : Error, evaluate s ≠ .error e) := by
  have hev : evaluate s = .ok t.standardize.value :=
    evaluate_standard t.standardize (t.standardize_standard ht) s
      (hs.trans t.standardize_str.symm)
  refine ⟨?_, fun a => ⟨_, rfl⟩, ⟨_, hev⟩, ?_⟩
  · intro a b op hop
    simp only [List.mem_cons, List.mem_singleton, List.not_mem_nil, or_false] at hop
    rcases hop with rfl | rfl | rfl | rfl <;> exact ⟨_, rfl, rfl⟩
  · intro e he
    rw [hev] at he
    cases he

/-- The lines `1/0` and `5/(3-3)` return a number and no error. -/
theorem division_by_zero_no_error_witness :
    (∃ v : ℚ, evaluate "1/0".toList = .ok v) ∧ (∃ v : ℚ, evaluate "5/(3-3)".toList = .ok v) :=
  ⟨(division_by_zero_no_error (.bin (.num ['1']) .div (.num ['0'])) (by decide)
      "1/0".toList (by decide)).2.2.1,
    (division_by_zero_no_error
      (.bin (.num ['5']) .div (.paren (.bin (.num ['3']) .sub (.num ['3'])))) (by decide)
      "5/(3-3)".toList (by decide)).2.2.1⟩

/-! ## Claim C20: termination -/

theorem numberLoop_length_lt {t : Token} (ht : t.type = NUMBER) (rest : List Token) (val : ℚ) :
    (numberLoop val (t :: rest)).2.length < (t :: rest).length := by
  rw [numberLoop, if_pos ht]
  exact Nat.lt_succ_of_le (numberLoop_length rest _)

theorem reduceTop_length {vs vs1 : List Token} {top : Token} (h : reduceTop vs top = .ok vs1) :
    vs1.length + 1 = vs.length := by
  unfold reduceTop at h
  split at h
  · cases h
  · split at h
    · cases h
    · split at h
      · cases h
      · cases h; simp

theorem rightParenLoop_pops (os : List Token) : ∀ (vs vs1 os1 : List Token),
    rightParenLoop vs os = .ok (vs1, os1) →
      ∃ popped, os = popped ++ os1 ∧ vs1.length + popped.length = vs.length := by
  induction os with
  | nil =>
    intro vs vs1 os1 h
    cases h
    exact ⟨[], rfl, rfl⟩
  | cons top os ih =>
    intro vs vs1 os1 h
    rw [rightParenLoop] at h
    split at h
    · split at h
      · cases h
      · rename_i vs2 hr
        obtain ⟨popped, h1, h2⟩ := ih _ _ _ h
        refine ⟨top :: popped, by rw [h1]; rfl, ?_⟩
        have := reduceTop_length hr
        simp only [List.length_cons]
        omega
    · cases h
      exact ⟨[], rfl, rfl⟩

theorem operatorLoop_pops (p : Int) (os : List Token) : ∀ (vs vs1 os1 : List Token),
    operatorLoop p vs os = .ok (vs1, os1) →
      ∃ popped, os = popped ++ os1 ∧ vs1.length + popped.length = vs.length := by
  induction os with
  | nil =>
    intro vs vs1 os1 h
    cases h
    exact ⟨[], rfl, rfl⟩
  | cons top os ih =>
    intro vs vs1 os1 h
    rw [operatorLoop] at h
    split at h
    · split at h
      · cases h
      · rename_i vs2 hr
        obtain ⟨popped, h1, h2⟩ := ih _ _ _ h
        refine ⟨top :: popped, by rw [h1]; rfl, ?_⟩
        have := reduceTop_length hr
        simp only [List.length_cons]
        omega
    · cases h
      exact ⟨[], rfl, rfl⟩

theorem drainLoop_pops (os : List Token) : ∀ (vs vs1 : List Token),
    drainLoop vs os = .ok vs1 → vs1.length + os.length = vs.length := by
  induction os with
  | nil =>
    intro vs vs1 h
    cases h
    rfl
  | cons top os ih =>
    intro vs vs1 h
    rw [drainLoop] at h
    split at h
    · cases h
    · rename_i vs2 hr
      have h1 := ih _ _ h
      have := reduceTop_length hr
      simp only [List.length_cons]
      omega

theorem step_tokens_lt {t : Token} {rest vs os : List Token} {st : State}
    (h : step t rest vs os = .ok st) : st.tokens.length < (t :: rest).length :=
  Nat.lt_succ_of_le (step_tokens_length h)

/-- Claim C20. Termination. For every finite token sequence, also one that the lexer would
never produce, `calculate` returns a number or reports an error. Every iteration of the outer
scan strictly shortens the tokens that are left, so at most `tokens.length` iterations are
run: after that many the scan has reached the end of the tokens, and allowing more changes
nothing. Each of the two inner reduction loops returns a suffix of the operator stack and
the final loop empties it, and each of their iterations pops one operator (and, net, one
value), so none runs more often than the operator stack is high. -/
theorem calculate_terminates (tokens : List Token) :
    ((∃ v : ℚ, calculate tokens = .ok v) ∨ (∃ e : Error, calculate tokens = .error e)) ∧
    (∀ (t : Token) (rest vs os : List Token) (st : State),
      step t rest vs os = .ok st → st.tokens.length < (t :: rest).length) ∧
    (∀ st : State, scan tokens.length ⟨tokens, [], []⟩ = .ok st → st.tokens = []) ∧
    (∀ n : Nat, tokens.length ≤ n →
      scan n ⟨tokens, [], []⟩ = scan tokens.length ⟨tokens, [], []⟩) ∧
    (∀ vs os vs1 os1 : List Token, rightParenLoop vs os = .ok (vs1, os1) →
      ∃ popped, os = popped ++ os1 ∧ vs1.length + popped.length = vs.length) ∧
    (∀ (p : Int) (vs os vs1 os1 : List Token), operatorLoop p vs os = .ok (vs1, os1) →
      ∃ popped, os = popped ++ os1 ∧ vs1.length + popped.length = vs.length) ∧
    (∀ vs os vs1 : List Token, drainLoop vs os = .ok vs1 →
      vs1.length + os.length = vs.length) := by
  refine ⟨?_, fun t rest vs os st h => step_tokens_lt h,
    fun st h => scan_tokens tokens.length ⟨tokens, [], []⟩ st le_rfl h,
    fun n hn => scan_fuel n tokens.length ⟨tokens, [], []⟩ hn le_rfl,
    fun vs os vs1 os1 h => rightParenLoop_pops os vs vs1 os1 h,
    fun p vs os vs1 os1 h => operatorLoop_pops p os vs vs1 os1 h,
    fun vs os vs1 h => drainLoop_pops os vs vs1 h⟩
  cases h : calculate tokens with
  | error e => exact Or.inr ⟨e, rfl⟩
  | ok v => exact Or.inl ⟨v, rfl⟩

/-! ## Invariants along the scan -/

/-- A property of states that every iteration preserves holds after any number of
iterations. -/
theorem scan_invariant (P : State → Prop)
    (hstep : ∀ (t : Token) (rest vs os : List Token) (st1 : State),
      P ⟨t :: rest, vs, os⟩ → step t rest vs os = .ok st1 → P st1) :
    ∀ (n : Nat) (st st1 : State), P st → scan n st = .ok st1 → P st1 := by
  intro n
  induction n with
  | zero =>
    intro st st1 hP h
    cases h
    exact hP
  | succ n ih =>
    intro st st1 hP h
    rcases st with ⟨tokens, vs, os⟩
    cases tokens with
    | nil =>
      simp only [scan] at h
      cases h
      exact hP
    | cons t rest =>
      simp only [scan] at h
      cases hs : step t rest vs os with
      | error e => rw [hs] at h; cases h
      | ok st2 =>
        rw [hs] at h
        exact ih st2 st1 (hstep t rest vs os st2 hP hs) h

theorem ofChar_cases (c : Char) :
    (∃ o : Op, c = o.char) ∨ c = '(' ∨ c = ')' ∨ (Token.ofChar c).type = NUMBER := by
  by_cases h1 : c = '+'
  · exact Or.inl ⟨.add, h1⟩
  by_cases h2 : c = '-'
  · exact Or.inl ⟨.sub, h2⟩
  by_cases h3 : c = '*'
  · exact Or.inl ⟨.mul, h3⟩
  by_cases h4 : c = '/'
  · exact Or.inl ⟨.div, h4⟩
  by_cases h5 : c = '('
  · exact Or.inr (Or.inl h5)
  by_cases h6 : c = ')'
  · exact Or.inr (Or.inr (Or.inl h6))
  refine Or.inr (Or.inr (Or.inr ?_))
  simp [Token.ofChar, h1, h2, h3, h4, h5, h6]

theorem OperatorToken.type_eq {x : Token} (h : OperatorToken x) : x.type = OPERATOR := by
  obtain ⟨o, rfl⟩ := h
  rw [ofChar_op]

theorem OperatorToken.precedence_pos {x : Token} (h : OperatorToken x) :
    1 ≤ x.precedence := by
  obtain ⟨o, rfl⟩ := h
  rw [ofChar_op]
  cases o <;> decide

theorem StackToken.type_cases {x : Token} (h : StackToken x) :
    x.type = OPERATOR ∨ x.type = LEFT_PARENTHESIS := by
  rcases h with h | rfl
  · exact Or.inl h.type_eq
  · exact Or.inr rfl

theorem StackToken.operator_of_not_left {x : Token} (h : StackToken x)
    (hx : x.type ≠ LEFT_PARENTHESIS) : OperatorToken x := by
  rcases h with h | rfl
  · exact h
  · exact absurd rfl hx

theorem StackToken.operator_of_precedence {x : Token} (h : StackToken x) {p : Int}
    (hp : 1 ≤ p) (hx : x.precedence ≥ p) : OperatorToken x := by
  rcases h with h | rfl
  · exact h
  · rw [ofChar_left] at hx
    simp only [ge_iff_le] at hx
    omega

theorem numberLoop_suffix (l : List Token) : ∀ val : ℚ,
    ∃ run, l = run ++ (numberLoop val l).2 ∧ ∀ t ∈ run, t.type = NUMBER := by
  induction l with
  | nil => intro val; exact ⟨[], rfl, by simp⟩
  | cons t rest ih =>
    intro val
    rw [numberLoop]
    split
    · rename_i ht
      obtain ⟨run, h1, h2⟩ := ih (val * 10 + t.value)
      refine ⟨t :: run, by rw [List.cons_append, ← h1], ?_⟩
      intro x hx
      rcases List.mem_cons.mp hx with rfl | hx
      · exact ht
      · exact h2 x hx
    · exact ⟨[], rfl, by simp⟩

theorem numberLoop_noNumberHead (l : List Token) : ∀ val : ℚ,
    noNumberHead (numberLoop val l).2 := by
  induction l with
  | nil => intro val t ht; simp [numberLoop] at ht
  | cons t rest ih =>
    intro val
    rw [numberLoop]
    split
    · exact ih _
    · rename_i ht
      intro x hx
      simp only [List.head?_cons, Option.mem_def, Option.some.injEq] at hx
      subst hx
      exact ht

/-- What the loop of the operator branch returns: it popped operators only, each with one
value, and stopped below precedence `p`. -/
theorem operatorLoop_result (p : Int) (os : List Token) : ∀ (vs vs1 os1 : List Token),
    operatorLoop p vs os = .ok (vs1, os1) →
      lowTop p os1 ∧ ∃ popped, os = popped ++ os1 ∧ vs1.length + popped.length = vs.length ∧
        ∀ x ∈ popped, x.precedence ≥ p := by
  induction os with
  | nil =>
    intro vs vs1 os1 h
    cases h
    exact ⟨fun t ht => by simp at ht, [], rfl, rfl, by simp⟩
  | cons top os ih =>
    intro vs vs1 os1 h
    rw [operatorLoop] at h
    split at h
    · rename_i htop
      split at h
      · cases h
      · rename_i vs2 hr
        obtain ⟨hlow, popped, h1, h2, h3⟩ := ih _ _ _ h
        refine ⟨hlow, top :: popped, by rw [h1]; rfl, ?_, ?_⟩
        · have := reduceTop_length hr
          simp only [List.length_cons]
          omega
        · intro x hx
          rcases List.mem_cons.mp hx with rfl | hx
          · exact htop
          · exact h3 x hx
    · rename_i htop
      cases h
      refine ⟨?_, [], rfl, rfl, by simp⟩
      intro t ht
      simp only [List.head?_cons, Option.mem_def, Option.some.injEq] at ht
      subst ht
      exact not_le.mp htop

/-- What the loop of the right-parenthesis branch returns: it popped tokens other than
`LEFT_PARENTHESIS`, each with one value, and stopped at a `LEFT_PARENTHESIS` or at the
bottom. -/
theorem rightParenLoop_result (os : List Token) : ∀ (vs vs1 os1 : List Token),
    rightParenLoop vs os = .ok (vs1, os1) →
      (∀ t ∈ os1.head?, t.type = LEFT_PARENTHESIS) ∧
      ∃ popped, os = popped ++ os1 ∧ vs1.length + popped.length = vs.length ∧
        ∀ x ∈ popped, x.type ≠ LEFT_PARENTHESIS := by
  induction os with
  | nil =>
    intro vs vs1 os1 h
    cases h
    exact ⟨fun t ht => by simp at ht, [], rfl, rfl, by simp⟩
  | cons top os ih =>
    intro vs vs1 os1 h
    rw [rightParenLoop] at h
    split at h
    · rename_i htop
      split at h
      · cases h
      · rename_i vs2 hr
        obtain ⟨hlow, popped, h1, h2, h3⟩ := ih _ _ _ h
        refine ⟨hlow, top :: popped, by rw [h1]; rfl, ?_, ?_⟩
        · have := reduceTop_length hr
          simp only [List.length_cons]
          omega
        · intro x hx
          rcases List.mem_cons.mp hx with rfl | hx
          · exact htop
          · exact h3 x hx
    · rename_i htop
      cases h
      refine ⟨?_, [], rfl, rfl, by simp⟩
      intro t ht
      simp only [List.head?_cons, Option.mem_def, Option.some.injEq] at ht
      subst ht
      simpa using htop

/-! ## Claim C19: the shape of the operator stack -/

theorem StackShape.of_append {popped os : List Token} (h : StackShape (popped ++ os)) :
    StackShape os :=
  ⟨fun x hx => h.1 x (List.mem_append_right _ hx), (List.chain'_append.mp h.2).2.1⟩

theorem StackShape.tail {os : List Token} (h : StackShape os) : StackShape os.tail := by
  cases os with
  | nil => exact h
  | cons x os => exact @StackShape.of_append [x] os h

theorem StackShape.push_left {os : List Token} (h : StackShape os) :
    StackShape (Token.ofChar '(' :: os) := by
  refine ⟨?_, List.chain'_cons'.mpr ⟨?_, h.2⟩⟩
  · intro x hx
    rcases List.mem_cons.mp hx with rfl | hx
    · exact Or.inr rfl
    · exact h.1 x hx
  · intro y _ hup
    rw [ofChar_left] at hup
    cases hup

theorem StackShape.push_operator {os : List Token} (h : StackShape os) (o : Op)
    (hlow : lowTop (Token.ofChar o.char).precedence os) :
    StackShape (Token.ofChar o.char :: os) := by
  refine ⟨?_, List.chain'_cons'.mpr ⟨?_, h.2⟩⟩
  · intro x hx
    rcases List.mem_cons.mp hx with rfl | hx
    · exact Or.inl ⟨o, rfl⟩
    · exact h.1 x hx
  · intro y hy _ _
    exact hlow y hy

theorem step_shape (t : Token) (rest vs os : List Token) (st1 : State)
    (hinv : ShapeInv ⟨t :: rest, vs, os⟩) (h : step t rest vs os = .ok st1) :
    ShapeInv st1 := by
  obtain ⟨htok, hshape⟩ := hinv
  simp only at htok hshape
  have hrest : ∀ x ∈ rest, ∃ c, x = Token.ofChar c :=
    fun x hx => htok x (List.mem_cons_of_mem _ hx)
  obtain ⟨c, rfl⟩ := htok t (List.mem_cons_self _ _)
  unfold step at h
  split at h
  · rename_i ht
    cases h
    refine ⟨hrest, ?_⟩
    rcases ofChar_cases c with ⟨o, rfl⟩ | rfl | rfl | hn
    · rw [ofChar_op] at ht; cases ht
    · exact hshape.push_left
    · cases ht
    · rw [hn] at ht; cases ht
  · split at h
    · cases h
      refine ⟨?_, hshape⟩
      intro x hx
      obtain ⟨run, h1, -⟩ := numberLoop_suffix (Token.ofChar c :: rest) 0
      refine htok x ?_
      rw [h1]
      exact List.mem_append_right _ hx
    · rename_i hnl hnn
      split at h
      · split at h
        · cases h
        · rename_i vs1 os1 hloop
          cases h
          obtain ⟨-, popped, h1, -, -⟩ := rightParenLoop_result os vs vs1 os1 hloop
          rw [h1] at hshape
          exact ⟨hrest, hshape.of_append.tail⟩
      · rename_i hnr
        split at h
        · cases h
        · rename_i vs1 os1 hloop
          cases h
          obtain ⟨hlow, popped, h1, -, -⟩ := operatorLoop_result _ os vs vs1 os1 hloop
          rw [h1] at hshape
          refine ⟨hrest, ?_⟩
          rcases ofChar_cases c with ⟨o, rfl⟩ | rfl | rfl | hn
          · exact hshape.of_append.push_operator o hlow
          · exact absurd rfl hnl
          · exact absurd rfl hnr
          · exact absurd hn hnn

/-- The operators pending above the topmost `(` of a well-shaped stack: none, one, or a `*`
or `/` above a `+` or `-`. -/
theorem StackShape.pending {os : List Token} (h : StackShape os) :
    pendingOperators os = [] ∨ (∃ o : Op, pendingOperators os = [Token.ofChar o.char]) ∨
    ∃ u l : Op, u.tight = true ∧ l.tight = false ∧
      pendingOperators os = [Token.ofChar u.char, Token.ofChar l.char] := by
  have hleft : ∀ os1, pendingOperators (Token.ofChar '(' :: os1) = [] := fun os1 => rfl
  have hop : ∀ (o : Op) os1, pendingOperators (Token.ofChar o.char :: os1) =
      Token.ofChar o.char :: pendingOperators os1 := by
    intro o os1
    rw [pendingOperators, List.takeWhile_cons]
    simp [ofChar_op, pendingOperators]
  have hnil : pendingOperators [] = [] := rfl
  have hprec : ∀ u l : Op, increasing (Token.ofChar u.char) (Token.ofChar l.char) →
      u.tight = true ∧ l.tight = false := by
    intro u l hul
    have := hul (by rw [ofChar_op]) (by rw [ofChar_op])
    rw [ofChar_op, ofChar_op] at this
    cases u <;> cases l <;> simp [Op.tight] at this ⊢
  cases os with
  | nil => exact Or.inl hnil
  | cons x os1 =>
    rcases h.1 x (List.mem_cons_self _ _) with ⟨u, rfl⟩ | rfl
    · rw [hop]
      cases os1 with
      | nil => exact Or.inr (Or.inl ⟨u, by rw [hnil]⟩)
      | cons y os2 =>
        have hy := h.1 y (List.mem_cons_of_mem _ (List.mem_cons_self _ _))
        rcases hy with ⟨l, rfl⟩ | rfl
        · rw [hop]
          have hul := hprec u l (List.chain'_cons.mp h.2).1
          cases os2 with
          | nil => exact Or.inr (Or.inr ⟨u, l, hul.1, hul.2, by rw [hnil]⟩)
          | cons z os3 =>
            have hz := h.1 z (List.mem_cons_of_mem _ (List.mem_cons_of_mem _
              (List.mem_cons_self _ _)))
            rcases hz with ⟨m, rfl⟩ | rfl
            · have hlm := hprec l m
                (List.chain'_cons.mp (List.chain'_cons.mp h.2).2).1
              rw [hul.2] at hlm
              cases hlm.1
            · rw [hleft]
              exact Or.inr (Or.inr ⟨u, l, hul.1, hul.2, rfl⟩)
        · rw [hleft]
          exact Or.inr (Or.inl ⟨u, rfl⟩)
    · exact Or.inl (hleft os1)

/-- Claim C19. Operator-stack invariant. On the tokens of any string, after any number of
iterations of the scan of `calculate`: the operator stack contains only `OPERATOR` and
`LEFT_PARENTHESIS` tokens; the operators above its topmost `LEFT_PARENTHESIS` (above its
bottom when there is none) have strictly increasing precedence from bottom to top; so at
most two of them are pending, and when two are, the lower is `+` or `-` and the upper is `*`
or `/`. The inner loops only pop, and what remains of such a stack has the same shape. -/
theorem operator_stack_invariant (s : List Char) (n : Nat) (st : State)
    (h : scan n ⟨createTokenVector s, [], []⟩ = .ok st) :
    (∀ x ∈ st.operatorStack, x.type = OPERATOR ∨ x.type = LEFT_PARENTHESIS) ∧
    (pendingOperators st.operatorStack).Pairwise
      (fun upper lower => lower.precedence < upper.precedence) ∧
    (pendingOperators st.operatorStack).length ≤ 2 ∧
    (∀ upper lower : Token, pendingOperators st.operatorStack = [upper, lower] →
      (lower.op = '+' ∨ lower.op = '-') ∧ (upper.op = '*' ∨ upper.op = '/')) ∧
    (∀ popped below : List Token, st.operatorStack = popped ++ below →
      (∀ x ∈ below, x.type = OPERATOR ∨ x.type = LEFT_PARENTHESIS) ∧
      (pendingOperators below).Pairwise
        (fun upper lower => lower.precedence < upper.precedence)) := by
  have h0 : ShapeInv ⟨createTokenVector s, [], []⟩ := by
    refine ⟨?_, fun x hx => by simp at hx, List.chain'_nil⟩
    intro t ht
    simp only [createTokenVector, List.mem_map] at ht
    obtain ⟨c, -, rfl⟩ := ht
    exact ⟨c, rfl⟩
  have hinv := scan_invariant ShapeInv step_shape n _ st h0 h
  have key : ∀ os : List Token, StackShape os →
      (∀ x ∈ os, x.type = OPERATOR ∨ x.type = LEFT_PARENTHESIS) ∧
      (pendingOperators os).Pairwise (fun upper lower => lower.precedence < upper.precedence) ∧
      (pendingOperators os).length ≤ 2 ∧
      (∀ upper lower : Token, pendingOperators os = [upper, lower] →
        (lower.op = '+' ∨ lower.op = '-') ∧ (upper.op = '*' ∨ upper.op = '/')) := by
    intro os hos
    refine ⟨fun x hx => (hos.1 x hx).type_cases, ?_, ?_, ?_⟩
    · rcases hos.pending with hp | ⟨o, hp⟩ | ⟨u, l, hu, hl, hp⟩
      · rw [hp]; exact List.Pairwise.nil
      · rw [hp]; exact List.pairwise_singleton _ _
      · rw [hp]
        refine List.pairwise_pair.mpr ?_
        rw [ofChar_op, ofChar_op, hu, hl]
        simp
    · rcases hos.pending with hp | ⟨o, hp⟩ | ⟨u, l, hu, hl, hp⟩ <;> rw [hp] <;> simp
    · intro upper lower hul
      rcases hos.pending with hp | ⟨o, hp⟩ | ⟨u, l, hu, hl, hp⟩
      · rw [hp] at hul; cases hul
      · rw [hp] at hul; cases hul
      · rw [hp] at hul
        cases hul
        rw [ofChar_op, ofChar_op]
        constructor
        · cases l <;> simp [Op.tight] at hl <;> simp [Op.char]
        · cases u <;> simp [Op.tight] at hu <;> simp [Op.char]
  obtain ⟨k1, k2, k3, k4⟩ := key _ hinv.2
  refine ⟨k1, k2, k3, k4, ?_⟩
  intro popped below hsplit
  have hb : StackShape below := by
    have := hinv.2
    rw [hsplit] at this
    exact this.of_append
  exact ⟨(key below hb).1, (key below hb).2.1⟩

/-- After four iterations on `1+2*3` the operator stack holds `*` above `+`; after four
iterations on `1*2+3` it holds `+` alone, the `*` having been applied. -/
theorem operator_stack_invariant_witness :
    (∀ st, scan 4 ⟨createTokenVector "1+2*3".toList, [], []⟩ = .ok st →
      st.operatorStack = [Token.ofChar '*', Token.ofChar '+'] ∧
      (pendingOperators st.operatorStack).length ≤ 2) ∧
    (∀ st, scan 4 ⟨createTokenVector "1*2+3".toList, [], []⟩ = .ok st →
      st.operatorStack = [Token.ofChar '+'] ∧
      (pendingOperators st.operatorStack).length ≤ 2) := by
  constructor
  · intro st h
    refine ⟨?_, (operator_stack_invariant "1+2*3".toList 4 st h).2.2.1⟩
    have e : scan 4 ⟨createTokenVector "1+2*3".toList, [], []⟩ =
        .ok ⟨[Token.ofChar '3'], [Token.ofDouble 2, Token.ofDouble 1],
          [Token.ofChar '*', Token.ofChar '+']⟩ := by
      decide!
    rw [e] at h
    cases h
    rfl
  · intro st h
    refine ⟨?_, (operator_stack_invariant "1*2+3".toList 4 st h).2.2.1⟩
    have e : scan 4 ⟨createTokenVector "1*2+3".toList, [], []⟩ =
        .ok ⟨[Token.ofChar '3'], [Token.ofDouble 2], [Token.ofChar '+']⟩ := by
      decide!
    rw [e] at h
    cases h
    rfl

/-! ## Balanced parentheses along the scan -/

theorem opens_cons (t : Token) (l : List Token) :
    opens (t :: l) = opens l + if t.type = LEFT_PARENTHESIS then 1 else 0 := by
  simp [opens, List.countP_cons]

theorem closes_cons (t : Token) (l : List Token) :
    closes (t :: l) = closes l + if t.type = RIGHT_PARENTHESIS then 1 else 0 := by
  simp [closes, List.countP_cons]

theorem opens_append (l m : List Token) : opens (l ++ m) = opens l + opens m := by
  simp [opens, List.countP_append]

theorem opens_cons_left {t : Token} (ht : t.type = LEFT_PARENTHESIS) (l : List Token) :
    opens (t :: l) = opens l + 1 := by
  rw [opens_cons, if_pos ht]

theorem opens_cons_other {t : Token} (ht : t.type ≠ LEFT_PARENTHESIS) (l : List Token) :
    opens (t :: l) = opens l := by
  rw [opens_cons, if_neg ht, Nat.add_zero]

theorem closes_cons_right {t : Token} (ht : t.type = RIGHT_PARENTHESIS) (l : List Token) :
    closes (t :: l) = closes l + 1 := by
  rw [closes_cons, if_pos ht]

theorem closes_cons_other {t : Token} (ht : t.type ≠ RIGHT_PARENTHESIS) (l : List Token) :
    closes (t :: l) = closes l := by
  rw [closes_cons, if_neg ht, Nat.add_zero]

theorem Bal.cons_left {k : Nat} {t : Token} {rest : List Token}
    (ht : t.type = LEFT_PARENTHESIS) (h : Bal k (t :: rest)) : Bal (k + 1) rest := by
  have hr : t.type ≠ RIGHT_PARENTHESIS := by rw [ht]; decide
  constructor
  · intro n
    have := h.1 (n + 1)
    rw [List.take_succ_cons, opens_cons_left ht, closes_cons_other hr] at this
    omega
  · have := h.2
    rw [opens_cons_left ht, closes_cons_other hr] at this
    omega

theorem Bal.cons_right {k : Nat} {t : Token} {rest : List Token}
    (ht : t.type = RIGHT_PARENTHESIS) (h : Bal k (t :: rest)) : 1 ≤ k ∧ Bal (k - 1) rest := by
  have hl : t.type ≠ LEFT_PARENTHESIS := by rw [ht]; decide
  have h1 : 1 ≤ k := by
    have := h.1 1
    rw [List.take_succ_cons, List.take_zero, opens_cons_other hl, closes_cons_right ht] at this
    simp only [opens, closes, List.countP_nil] at this
    omega
  refine ⟨h1, ?_, ?_⟩
  · intro n
    have := h.1 (n + 1)
    rw [List.take_succ_cons, opens_cons_other hl, closes_cons_right ht] at this
    omega
  · have := h.2
    rw [opens_cons_other hl, closes_cons_right ht] at this
    omega

theorem Bal.cons_other {k : Nat} {t : Token} {rest : List Token}
    (hl : t.type ≠ LEFT_PARENTHESIS) (hr : t.type ≠ RIGHT_PARENTHESIS)
    (h : Bal k (t :: rest)) : Bal k rest := by
  constructor
  · intro n
    have := h.1 (n + 1)
    rw [List.take_succ_cons, opens_cons_other hl, closes_cons_other hr] at this
    omega
  · have := h.2
    rw [opens_cons_other hl, closes_cons_other hr] at this
    omega

theorem Bal.drop_run {k : Nat} (run : List Token) (hrun : ∀ t ∈ run, t.type = NUMBER)
    {rest : List Token} (h : Bal k (run ++ rest)) : Bal k rest := by
  induction run with
  | nil => exact h
  | cons t run ih =>
    have ht := hrun t (List.mem_cons_self _ _)
    refine ih (fun x hx => hrun x (List.mem_cons_of_mem _ hx)) ?_
    exact Bal.cons_other (by rw [ht]; decide) (by rw [ht]; decide) h

theorem Bal.nil_eq {k : Nat} (h : Bal k []) : k = 0 := by
  have := h.2
  simp only [opens, closes, List.countP_nil] at this
  omega

theorem ofChar_type_left (c : Char) : (Token.ofChar c).type = LEFT_PARENTHESIS ↔ c = '(' := by
  constructor
  · intro h
    rcases ofChar_cases c with ⟨o, rfl⟩ | rfl | rfl | hn
    · rw [ofChar_op] at h; cases h
    · rfl
    · cases h
    · rw [hn] at h; cases h
  · rintro rfl; rfl

theorem ofChar_type_right (c : Char) : (Token.ofChar c).type = RIGHT_PARENTHESIS ↔ c = ')' := by
  constructor
  · intro h
    rcases ofChar_cases c with ⟨o, rfl⟩ | rfl | rfl | hn
    · rw [ofChar_op] at h; cases h
    · cases h
    · rfl
    · rw [hn] at h; cases h
  · rintro rfl; rfl

theorem opens_createTokenVector (s : List Char) : opens (createTokenVector s) = s.count '(' := by
  induction s with
  | nil => rfl
  | cons c s ih =>
    rw [createTokenVector, List.map_cons, ← createTokenVector, List.count_cons]
    by_cases h : c = '('
    · rw [opens_cons_left ((ofChar_type_left c).mpr h), ih]
      simp [h]
    · have : (Token.ofChar c).type ≠ LEFT_PARENTHESIS := fun hc => h ((ofChar_type_left c).mp hc)
      rw [opens_cons_other this, ih]
      simp [h]

theorem closes_createTokenVector (s : List Char) :
    closes (createTokenVector s) = s.count ')' := by
  induction s with
  | nil => rfl
  | cons c s ih =>
    rw [createTokenVector, List.map_cons, ← createTokenVector, List.count_cons]
    by_cases h : c = ')'
    · rw [closes_cons_right ((ofChar_type_right c).mpr h), ih]
      simp [h]
    · have : (Token.ofChar c).type ≠ RIGHT_PARENTHESIS :=
        fun hc => h ((ofChar_type_right c).mp hc)
      rw [closes_cons_other this, ih]
      simp [h]

theorem Bal.of_balanced {s : List Char} (h : Balanced s) : Bal 0 (createTokenVector s) := by
  constructor
  · intro n
    have := h.1 n
    rw [createTokenVector, ← List.map_take, ← createTokenVector, opens_createTokenVector,
      closes_createTokenVector]
    omega
  · rw [opens_createTokenVector, closes_createTokenVector, h.2, Nat.zero_add]

theorem BalancedInv.initial {s : List Char} (h : Balanced s) :
    BalancedInv ⟨createTokenVector s, [], []⟩ := by
  refine ⟨⟨?_, fun x hx => by simp at hx, List.chain'_nil⟩, Bal.of_balanced h⟩
  intro t ht
  simp only [createTokenVector, List.mem_map] at ht
  obtain ⟨c, -, rfl⟩ := ht
  exact ⟨c, rfl⟩

/-! ## The reduction loops on stacks of operators and left parentheses -/

theorem reduceTop_error_operator {vs : List Token} {top : Token} {e : Error}
    (htop : OperatorToken top) (h : reduceTop vs top = .error e) :
    e = .malformedExpression := by
  obtain ⟨o, rfl⟩ := htop
  unfold reduceTop at h
  split at h
  · cases h; rfl
  · split at h
    · cases h; rfl
    · rw [ofChar_op] at h
      simp only [applyOperation_op] at h
      cases h

theorem rightParenLoop_error_stack {e : Error} (os : List Token)
    (hos : ∀ x ∈ os, StackToken x) : ∀ vs : List Token,
    rightParenLoop vs os = .error e → e = .malformedExpression := by
  induction os with
  | nil => intro vs h; cases h
  | cons top os ih =>
    intro vs h
    rw [rightParenLoop] at h
    split at h
    · rename_i htop
      have hop := (hos top (List.mem_cons_self _ _)).operator_of_not_left htop
      split at h
      · rename_i e1 he
        cases h
        exact reduceTop_error_operator hop he
      · exact ih (fun x hx => hos x (List.mem_cons_of_mem _ hx)) _ h
    · cases h

theorem operatorLoop_error_stack {e : Error} (p : Int) (hp : 1 ≤ p) (os : List Token)
    (hos : ∀ x ∈ os, StackToken x) : ∀ vs : List Token,
    operatorLoop p vs os = .error e → e = .malformedExpression := by
  induction os with
  | nil => intro vs h; cases h
  | cons top os ih =>
    intro vs h
    rw [operatorLoop] at h
    split at h
    · rename_i htop
      have hop := (hos top (List.mem_cons_self _ _)).operator_of_precedence hp htop
      split at h
      · rename_i e1 he
        cases h
        exact reduceTop_error_operator hop he
      · exact ih (fun x hx => hos x (List.mem_cons_of_mem _ hx)) _ h
    · cases h

theorem drainLoop_error_stack {e : Error} (os : List Token)
    (hos : ∀ x ∈ os, OperatorToken x) : ∀ vs : List Token,
    drainLoop vs os = .error e → e = .malformedExpression := by
  induction os with
  | nil => intro vs h; cases h
  | cons top os ih =>
    intro vs h
    rw [drainLoop] at h
    split at h
    · rename_i e1 he
      cases h
      exact reduceTop_error_operator (hos top (List.mem_cons_self _ _)) he
    · exact ih (fun x hx => hos x (List.mem_cons_of_mem _ hx)) _ h

theorem opens_eq_zero_of_not_left {l : List Token} (h : ∀ x ∈ l, x.type ≠ LEFT_PARENTHESIS) :
    opens l = 0 := by
  rw [opens, List.countP_eq_zero]
  intro x hx
  simpa using h x hx

theorem operators_of_opens_zero {os : List Token} (hos : ∀ x ∈ os, StackToken x)
    (h0 : opens os = 0) : ∀ x ∈ os, OperatorToken x := by
  intro x hx
  rw [opens, List.countP_eq_zero] at h0
  exact (hos x hx).operator_of_not_left (by simpa using h0 x hx)

/-! ## One iteration on a line with balanced parentheses -/

theorem rightParenLoop_opens {os vs vs1 os1 : List Token}
    (h : rightParenLoop vs os = .ok (vs1, os1)) (hk : 1 ≤ opens os) :
    opens os1.tail + 1 = opens os := by
  obtain ⟨hhead, popped, h1, -, hpop⟩ := rightParenLoop_result os vs vs1 os1 h
  have e : opens os = opens os1 := by
    rw [h1, opens_append, opens_eq_zero_of_not_left hpop, Nat.zero_add]
  cases os1 with
  | nil =>
    rw [e] at hk
    simp [opens] at hk
  | cons x os2 =>
    have hx : x.type = LEFT_PARENTHESIS := hhead x rfl
    rw [e, opens_cons_left hx]
    rfl

theorem operatorLoop_opens {p : Int} (hp : 1 ≤ p) {os vs vs1 os1 : List Token}
    (hos : ∀ x ∈ os, StackToken x) (h : operatorLoop p vs os = .ok (vs1, os1)) :
    opens os1 = opens os := by
  obtain ⟨-, popped, h1, -, hpop⟩ := operatorLoop_result p os vs vs1 os1 h
  have hnl : ∀ x ∈ popped, x.type ≠ LEFT_PARENTHESIS := by
    intro x hx
    have hxs : StackToken x := hos x (by rw [h1]; exact List.mem_append_left _ hx)
    rw [(hxs.operator_of_precedence hp (hpop x hx)).type_eq]
    decide
  rw [h1, opens_append, opens_eq_zero_of_not_left hnl, Nat.zero_add]

theorem step_balanced (t : Token) (rest vs os : List Token) (st1 : State)
    (hinv : BalancedInv ⟨t :: rest, vs, os⟩) (h : step t rest vs os = .ok st1) :
    BalancedInv st1 := by
  refine ⟨step_shape t rest vs os st1 hinv.1 h, ?_⟩
  obtain ⟨⟨htok, hshape⟩, hbal⟩ := hinv
  simp only at htok hshape hbal
  obtain ⟨c, hc⟩ := htok t (List.mem_cons_self _ _)
  subst hc
  unfold step at h
  split at h
  · rename_i ht
    cases h
    simp only
    rw [opens_cons_left ht]
    exact hbal.cons_left ht
  · rename_i hnl
    split at h
    · cases h
      simp only
      obtain ⟨run, h1, h2⟩ := numberLoop_suffix (Token.ofChar c :: rest) 0
      rw [h1] at hbal
      exact hbal.drop_run run h2
    · rename_i hnn
      split at h
      · rename_i hr
        split at h
        · cases h
        · rename_i vs1 os1 hloop
          cases h
          simp only
          obtain ⟨hk, hb⟩ := hbal.cons_right hr
          have := rightParenLoop_opens hloop hk
          have e : opens os1.tail = opens os - 1 := by omega
          rw [e]
          exact hb
      · rename_i hnr
        split at h
        · cases h
        · rename_i vs1 os1 hloop
          cases h
          simp only
          have hp : 1 ≤ (Token.ofChar c).precedence := by
            rcases ofChar_cases c with ⟨o, rfl⟩ | rfl | rfl | hn
            · exact OperatorToken.precedence_pos ⟨o, rfl⟩
            · exact absurd rfl hnl
            · exact absurd rfl hnr
            · exact absurd hn hnn
          rw [opens_cons_other hnl, operatorLoop_opens hp hshape.1 hloop]
          exact hbal.cons_other hnl hnr

theorem step_error_balanced (t : Token) (rest vs os : List Token) (e : Error)
    (hinv : BalancedInv ⟨t :: rest, vs, os⟩) (h : step t rest vs os = .error e) :
    e = .malformedExpression := by
  obtain ⟨⟨htok, hshape⟩, -⟩ := hinv
  simp only at htok hshape
  obtain ⟨c, hc⟩ := htok t (List.mem_cons_self _ _)
  subst hc
  unfold step at h
  split at h
  · cases h
  · rename_i hnl
    split at h
    · cases h
    · rename_i hnn
      split at h
      · split at h
        · rename_i e1 he
          cases h
          exact rightParenLoop_error_stack os hshape.1 vs he
        · cases h
      · rename_i hnr
        split at h
        · rename_i e1 he
          cases h
          have hp : 1 ≤ (Token.ofChar c).precedence := by
            rcases ofChar_cases c with ⟨o, rfl⟩ | rfl | rfl | hn
            · exact OperatorToken.precedence_pos ⟨o, rfl⟩
            · exact absurd rfl hnl
            · exact absurd rfl hnr
            · exact absurd hn hnn
          exact operatorLoop_error_stack _ hp os hshape.1 vs he
        · cases h

/-- An error of the scan is one that some iteration reports. -/
theorem scan_error_invariant (P : State → Prop) (Q : Error → Prop)
    (hstep : ∀ (t : Token) (rest vs os : List Token) (st1 : State),
      P ⟨t :: rest, vs, os⟩ → step t rest vs os = .ok st1 → P st1)
    (herr : ∀ (t : Token) (rest vs os : List Token) (e : Error),
      P ⟨t :: rest, vs, os⟩ → step t rest vs os = .error e → Q e) :
    ∀ (n : Nat) (st : State) (e : Error), P st → scan n st = .error e → Q e := by
  intro n
  induction n with
  | zero => intro st e _ h; cases h
  | succ n ih =>
    intro st e hP h
    rcases st with ⟨tokens, vs, os⟩
    cases tokens with
    | nil => simp only [scan] at h; cases h
    | cons t rest =>
      simp only [scan] at h
      cases hs : step t rest vs os with
      | error e1 =>
        rw [hs] at h
        cases h
        exact herr t rest vs os e hP hs
      | ok st2 =>
        rw [hs] at h
        exact ih st2 e (hstep t rest vs os st2 hP hs) h

/-- At the end of the scan of a line with balanced parentheses the operator stack holds
operators only. -/
theorem BalancedInv.final {st : State} (h : BalancedInv st) (hend : st.tokens = []) :
    ∀ x ∈ st.operatorStack, OperatorToken x := by
  have hb := h.2
  rw [hend] at hb
  exact operators_of_opens_zero h.1.2.1 hb.nil_eq

/-- On the tokens of a line with balanced parentheses `calculate` reports no error other than
`MalformedExpression`. -/
theorem calculate_error_balanced {s : List Char} (hs : Balanced s) {e : Error}
    (h : calculate (createTokenVector s) = .error e) : e = .malformedExpression := by
  have h0 := BalancedInv.initial hs
  unfold calculate at h
  split at h
  · rename_i e1 he
    cases h
    exact scan_error_invariant BalancedInv (fun e => e = .malformedExpression) step_balanced
      step_error_balanced _ _ e h0 he
  · rename_i st hscan
    have hinv := scan_invariant BalancedInv step_balanced _ _ st h0 hscan
    have hend := scan_tokens _ ⟨createTokenVector s, [], []⟩ st le_rfl hscan
    split at h
    · rename_i e1 he
      cases h
      exact drainLoop_error_stack _ (hinv.final hend) _ he
    · split at h
      · cases h
      · cases h; rfl

/-! ## Claim C15: `UnknownOperator` is unreachable after the lexer -/

/-- What the lexer has checked when it returns tokens. -/
theorem ExpParser_accepts {s : List Char} {tokens : List Token} (h : ExpParser s = .ok tokens) :
    tokens = createTokenVector (removeSpaces s) ∧
    (∀ c ∈ removeSpaces s, c ∈ "0123456789+-*/()".toList) ∧ Balanced (removeSpaces s) ∧
    ∀ i, ¬Adjacent (removeSpaces s) i := by
  unfold ExpParser at h
  simp only [] at h
  split at h
  · cases h
  · rename_i u1 h1
    split at h
    · cases h
    · rename_i u2 h2
      split at h
      · cases h
      · rename_i u3 h3
        cases h
        refine ⟨rfl, (checkValidChars_ok_iff _).mp h1, (checkParenthesees_ok_iff _).mp h2, ?_⟩
        intro i hi
        have := (checkNearParens_ok_iff _).mp h3 i
        rw [(nearParenAt_iff _ i).mpr hi] at this
        cases this

theorem OperatorToken.op_mem {x : Token} (h : OperatorToken x) :
    x.op ∈ ['+', '-', '*', '/'] := by
  obtain ⟨o, rfl⟩ := h
  rw [ofChar_op]
  cases o <;> decide

/-- Claim C15. `UnknownOperator` is unreachable after the lexer. `applyOperation` takes its
default branch, and then reports `UnknownOperator`, only for an `op` outside `+ - * /`. For
every line accepted by the lexer, with `tokens` its tokens: after any number of iterations of
the scan every token on the operator stack is a `LEFT_PARENTHESIS` or an `OPERATOR` whose
`op` is one of `+ - * /`; a `LEFT_PARENTHESIS` is on the operator stack whenever the token to
process is a `RIGHT_PARENTHESIS`; no `LEFT_PARENTHESIS` is on the operator stack when the
final loop starts; so `calculate` never reports `UnknownOperator`, and the only error it can
report is `MalformedExpression`. -/
theorem unknownOperator_unreachable (s : List Char) (tokens : List Token)
    (hp : ExpParser s = .ok tokens) :
    (∀ (a b : ℚ) (op : Char) (e : Error), applyOperation a b op = .error e →
      e = .unknownOperator op ∧ op ∉ ['+', '-', '*', '/']) ∧
    (∀ (n : Nat) (st : State), scan n ⟨tokens, [], []⟩ = .ok st →
      ∀ x ∈ st.operatorStack, x.type = LEFT_PARENTHESIS ∨
        (x.type = OPERATOR ∧ x.op ∈ ['+', '-', '*', '/'])) ∧
    (∀ (n : Nat) (t : Token) (rest vs os : List Token),
      scan n ⟨tokens, [], []⟩ = .ok ⟨t :: rest, vs, os⟩ → t.type = RIGHT_PARENTHESIS →
      ∃ x ∈ os, x.type = LEFT_PARENTHESIS) ∧
    (∀ st : State, scan tokens.length ⟨tokens, [], []⟩ = .ok st →
      ∀ x ∈ st.operatorStack, x.type = OPERATOR ∧ x.op ∈ ['+', '-', '*', '/']) ∧
    (∀ c : Char, calculate tokens ≠ .error (.unknownOperator c)) ∧
    (∀ e : Error, calculate tokens = .error e → e = .malformedExpression) ∧
    ((∃ v : ℚ, evaluate s = .ok v) ∨ evaluate s = .error .malformedExpression) := by
  obtain ⟨rfl, -, hbal, -⟩ := ExpParser_accepts hp
  have h0 := BalancedInv.initial hbal
  have hinv : ∀ (n : Nat) (st : State),
      scan n ⟨createTokenVector (removeSpaces s), [], []⟩ = .ok st → BalancedInv st :=
    fun n st h => scan_invariant BalancedInv step_balanced n _ st h0 h
  have herr : ∀ e : Error, calculate (createTokenVector (removeSpaces s)) = .error e →
      e = .malformedExpression := fun e he => calculate_error_balanced hbal he
  refine ⟨?_, ?_, ?_, ?_, ?_, herr, ?_⟩
  · intro a b op e h
    have he := applyOperation_error h
    refine ⟨he, ?_⟩
    intro hop
    simp only [List.mem_cons, List.mem_singleton, List.not_mem_nil, or_false] at hop
    rcases hop with rfl | rfl | rfl | rfl <;> cases h
  · intro n st h x hx
    rcases (hinv n st h).1.2.1 x hx with hop | rfl
    · exact Or.inr ⟨hop.type_eq, hop.op_mem⟩
    · exact Or.inl rfl
  · intro n t rest vs os h ht
    have hk := ((hinv n _ h).2.cons_right ht).1
    simp only at hk
    by_contra hnone
    have : opens os = 0 :=
      opens_eq_zero_of_not_left (fun x hx hxl => hnone ⟨x, hx, hxl⟩)
    omega
  · intro st h x hx
    have hend := scan_tokens _ ⟨createTokenVector (removeSpaces s), [], []⟩ st le_rfl h
    have hop := (hinv _ st h).final hend x hx
    exact ⟨hop.type_eq, hop.op_mem⟩
  · intro c hc
    cases herr _ hc
  · rw [evaluate, hp]
    simp only []
    cases hcalc : calculate (createTokenVector (removeSpaces s)) with
    | error e => rw [herr e hcalc]; exact Or.inr rfl
    | ok v => exact Or.inl ⟨v, rfl⟩

/-- The line `(1+2)*3` is accepted and evaluates to 9; the line `(+)` is accepted and fails
with `MalformedExpression`; neither reports `UnknownOperator`. -/
theorem unknownOperator_unreachable_witness :
    evaluate "(1+2)*3".toList = .ok 9 ∧
    calculate (createTokenVector "(1+2)*3".toList) ≠ .error (.unknownOperator '(') ∧
    evaluate "(+)".toList = .error .malformedExpression := by
  have h1 := unknownOperator_unreachable "(1+2)*3".toList
    (createTokenVector "(1+2)*3".toList) (by decide)
  have h2 := unknownOperator_unreachable "(+)".toList (createTokenVector "(+)".toList)
    (by decide)
  refine ⟨by decide!, h1.2.2.2.2.1 '(', ?_⟩
  rcases h2.2.2.2.2.2.2 with ⟨v, hv⟩ | h
  · rw [show evaluate "(+)".toList = .error .malformedExpression by decide] at hv
    cases hv
  · exact h

/-! ## Counting values against operators -/


theorem operators_cons_operator {t : Token} (ht : t.type = OPERATOR) (l : List Token) :
    operators (t :: l) = operators l + 1 := by
  simp [operators, List.countP_cons, ht]

theorem operators_cons_other {t : Token} (ht : t.type ≠ OPERATOR) (l : List Token) :
    operators (t :: l) = operators l := by
  simp [operators, List.countP_cons, ht]

theorem operators_append (l m : List Token) : operators (l ++ m) = operators l + operators m := by
  simp [operators, List.countP_append]

theorem operators_eq_length {l : List Token} (h : ∀ x ∈ l, OperatorToken x) :
    operators l = l.length := by
  rw [operators, List.countP_eq_length]
  intro x hx
  simp [(h x hx).type_eq]

theorem operators_eq_zero {l : List Token} (h : ∀ x ∈ l, x.type ≠ OPERATOR) :
    operators l = 0 := by
  rw [operators, List.countP_eq_zero]
  intro x hx
  simpa using h x hx

theorem numberRuns_cons_other {t : Token} (ht : t.type ≠ NUMBER) (l : List Token) :
    numberRuns (t :: l) = numberRuns l := by
  simp [numberRuns, ht]

theorem startsWithNumber_eq_false {k : List Token} (h : noNumberHead k) :
    startsWithNumber k = false := by
  cases k with
  | nil => rfl
  | cons t k =>
    have := h t rfl
    simp [startsWithNumber, this]

theorem numberRuns_run (run : List Token) (hne : run ≠ []) (hrun : ∀ t ∈ run, t.type = NUMBER)
    (rest : List Token) (hrest : noNumberHead rest) :
    numberRuns (run ++ rest) = numberRuns rest + 1 := by
  induction run with
  | nil => exact absurd rfl hne
  | cons t run ih =>
    have ht := hrun t (List.mem_cons_self _ _)
    cases run with
    | nil =>
      simp [numberRuns, ht, startsWithNumber_eq_false hrest]
      omega
    | cons u run =>
      have hu := hrun u (List.mem_cons_of_mem _ (List.mem_cons_self _ _))
      have := ih (by simp) (fun x hx => hrun x (List.mem_cons_of_mem _ hx))
      rw [List.cons_append, numberRuns, this]
      simp [startsWithNumber, hu]

theorem step_count (d : Int) (t : Token) (rest vs os : List Token) (st1 : State)
    (hinv : CountInv d ⟨t :: rest, vs, os⟩) (h : step t rest vs os = .ok st1) :
    CountInv d st1 := by
  refine ⟨step_balanced t rest vs os st1 hinv.1 h, ?_⟩
  obtain ⟨⟨⟨htok, hshape⟩, hbal⟩, hcount⟩ := hinv
  simp only at htok hshape hbal hcount
  obtain ⟨c, hc⟩ := htok t (List.mem_cons_self _ _)
  subst hc
  unfold step at h
  split at h
  · rename_i ht
    cases h
    simp only
    rw [numberRuns_cons_other (by rw [ht]; decide),
      operators_cons_other (by rw [ht]; decide)] at hcount
    rw [operators_cons_other (by rw [ht]; decide)]
    exact hcount
  · rename_i hnl
    split at h
    · rename_i hn
      cases h
      simp only
      obtain ⟨run, h1, h2⟩ := numberLoop_suffix (Token.ofChar c :: rest) 0
      have hhead := numberLoop_noNumberHead (Token.ofChar c :: rest) 0
      have hne : run ≠ [] := by
        rintro rfl
        rw [List.nil_append] at h1
        rw [← h1] at hhead
        exact hhead _ rfl hn
      have hops : operators run = 0 :=
        operators_eq_zero (fun x hx => by rw [h2 x hx]; decide)
      rw [h1, numberRuns_run run hne h2 _ hhead, operators_append, hops] at hcount
      simp only [List.length_cons]
      push_cast at hcount ⊢
      omega
    · rename_i hnn
      split at h
      · rename_i hr
        split at h
        · cases h
        · rename_i vs1 os1 hloop
          cases h
          simp only
          obtain ⟨hhead, popped, h1, h2, hpop⟩ := rightParenLoop_result os vs vs1 os1 hloop
          have hpo : ∀ x ∈ popped, OperatorToken x := fun x hx =>
            (hshape.1 x (by rw [h1]; exact List.mem_append_left _ hx)).operator_of_not_left
              (hpop x hx)
          have htail : operators os1.tail = operators os1 := by
            cases os1 with
            | nil => rfl
            | cons x os2 =>
              have hx : x.type = LEFT_PARENTHESIS := hhead x rfl
              rw [operators_cons_other (by rw [hx]; decide)]
              rfl
          rw [numberRuns_cons_other hnn, operators_cons_other (by rw [hr]; decide), h1,
            operators_append, operators_eq_length hpo] at hcount
          rw [htail]
          push_cast at hcount
          omega
      · rename_i hnr
        split at h
        · cases h
        · rename_i vs1 os1 hloop
          cases h
          simp only
          have hop : OperatorToken (Token.ofChar c) := by
            rcases ofChar_cases c with ⟨o, rfl⟩ | rfl | rfl | hn
            · exact ⟨o, rfl⟩
            · exact absurd rfl hnl
            · exact absurd rfl hnr
            · exact absurd hn hnn
          obtain ⟨-, popped, h1, h2, hpop⟩ := operatorLoop_result _ os vs vs1 os1 hloop
          have hpo : ∀ x ∈ popped, OperatorToken x := fun x hx =>
            (hshape.1 x (by rw [h1]; exact List.mem_append_left _ hx)).operator_of_precedence
              hop.precedence_pos (hpop x hx)
          rw [numberRuns_cons_other hnn, operators_cons_operator hop.type_eq, h1,
            operators_append, operators_eq_length hpo] at hcount
          rw [operators_cons_operator hop.type_eq]
          push_cast at hcount ⊢
          omega

/-- When `calculate` returns a number, the tokens hold more runs of numbers than
operators. -/
theorem calculate_ok_count {s : List Char} (hs : Balanced s) {v : ℚ}
    (h : calculate (createTokenVector s) = .ok v) :
    operators (createTokenVector s) < numberRuns (createTokenVector s) := by
  have h0 : CountInv ((numberRuns (createTokenVector s) : Int) -
      (operators (createTokenVector s) : Int)) ⟨createTokenVector s, [], []⟩ := by
    refine ⟨BalancedInv.initial hs, ?_⟩
    have e2 : operators [] = 0 := rfl
    simp only [List.length_nil, e2]
    push_cast
    ring
  unfold calculate at h
  split at h
  · cases h
  · rename_i st hscan
    have hinv := scan_invariant (CountInv _) (step_count _) _ _ st h0 hscan
    have hend := scan_tokens _ ⟨createTokenVector s, [], []⟩ st le_rfl hscan
    split at h
    · cases h
    · rename_i vs1 hdrain
      have hlen := drainLoop_pops _ _ _ hdrain
      have hops := operators_eq_length (hinv.1.final hend)
      have hc := hinv.2
      have e1 : numberRuns [] = 0 := rfl
      have e2 : operators [] = 0 := rfl
      rw [hend, hops, e1, e2] at hc
      split at h
      · simp only [List.length_cons] at hlen
        push_cast at hc
        omega
      · cases h

/-! ## The counting rule: operators against runs of digits -/

theorem ofChar_type_operator (c : Char) :
    (Token.ofChar c).type = OPERATOR ↔ (c = '+' ∨ c = '-' ∨ c = '*' ∨ c = '/') := by
  constructor
  · intro h
    rcases ofChar_cases c with ⟨o, rfl⟩ | rfl | rfl | hn
    · cases o <;> simp [Op.char]
    · cases h
    · cases h
    · rw [hn] at h; cases h
  · rintro (rfl | rfl | rfl | rfl) <;> rfl

theorem ofChar_type_number {c : Char} (hc : c ∈ "0123456789+-*/()".toList) :
    (Token.ofChar c).type = NUMBER ↔ isdigit c = true := by
  constructor
  · intro h
    rcases allowed_cases hc with hd | rfl | rfl | rfl | rfl | rfl | rfl
    · exact hd
    all_goals cases h
  · intro h
    rw [ofChar_digit h]

theorem operators_createTokenVector (s : List Char) :
    operators (createTokenVector s) = operatorCount s := by
  induction s with
  | nil => rfl
  | cons c s ih =>
    rw [createTokenVector, List.map_cons, ← createTokenVector, operatorCount, List.countP_cons,
      ← operatorCount, ← ih]
    by_cases h : (Token.ofChar c).type = OPERATOR
    · rw [operators_cons_operator h]
      have := (ofChar_type_operator c).mp h
      rcases this with rfl | rfl | rfl | rfl <;> simp
    · rw [operators_cons_other h]
      have := (not_congr (ofChar_type_operator c)).mp h
      simp only [not_or] at this
      simp [this]

theorem startsWithNumber_createTokenVector (s : List Char)
    (hs : ∀ c ∈ s, c ∈ "0123456789+-*/()".toList) :
    startsWithNumber (createTokenVector s) = startsWithDigit s := by
  cases s with
  | nil => rfl
  | cons c s =>
    have hc := ofChar_type_number (hs c (List.mem_cons_self _ _))
    simp only [createTokenVector, List.map_cons, startsWithNumber, startsWithDigit]
    by_cases h : isdigit c = true
    · simp [h, hc.mpr h]
    · have : (Token.ofChar c).type ≠ NUMBER := fun hn => h (hc.mp hn)
      simp [h, this]

theorem numberRuns_createTokenVector (s : List Char)
    (hs : ∀ c ∈ s, c ∈ "0123456789+-*/()".toList) :
    numberRuns (createTokenVector s) = digitRuns s := by
  induction s with
  | nil => rfl
  | cons c s ih =>
    have hs' : ∀ x ∈ s, x ∈ "0123456789+-*/()".toList :=
      fun x hx => hs x (List.mem_cons_of_mem _ hx)
    have hc := ofChar_type_number (hs c (List.mem_cons_self _ _))
    rw [createTokenVector, List.map_cons, ← createTokenVector, numberRuns, digitRuns, ih hs',
      startsWithNumber_createTokenVector s hs']
    by_cases h : isdigit c = true
    · simp [h, hc.mpr h]
    · have : (Token.ofChar c).type ≠ NUMBER := fun hn => h (hc.mp hn)
      simp [h, this]

/-- The counting rule: for every line accepted by the lexer whose whitespace-stripped form
has at least as many operator characters `+ - * /` as maximal runs of digits, `evaluate` fails
with `MalformedExpression` and returns no number. -/
theorem count_rule (s : List Char) (tokens : List Token) (hp : ExpParser s = .ok tokens)
    (hcount : digitRuns (removeSpaces s) ≤ operatorCount (removeSpaces s)) :
    evaluate s = .error .malformedExpression ∧ ∀ v : ℚ, evaluate s ≠ .ok v := by
  obtain ⟨rfl, hallowed, hbal, -⟩ := ExpParser_accepts hp
  have hev : evaluate s = calculate (createTokenVector (removeSpaces s)) := by
    rw [evaluate, hp]
  have hno : ∀ v : ℚ, calculate (createTokenVector (removeSpaces s)) ≠ .ok v := by
    intro v hv
    have := calculate_ok_count hbal hv
    rw [operators_createTokenVector, numberRuns_createTokenVector _ hallowed] at this
    omega
  rw [hev]
  refine ⟨?_, hno⟩
  cases hcalc : calculate (createTokenVector (removeSpaces s)) with
  | error e => rw [calculate_error_balanced hbal hcalc]
  | ok v => exact absurd hcalc (hno v)

/-- The lines `2+`, `+`, `2+*3`, `-5+3` and `(-5)` are accepted by the lexer and fail with
`MalformedExpression`: a trailing operator, a lone operator, doubled operators and a leading
minus. -/
theorem count_rule_examples :
    evaluate "2+".toList = .error .malformedExpression ∧
    evaluate "+".toList = .error .malformedExpression ∧
    evaluate "2+*3".toList = .error .malformedExpression ∧
    evaluate "-5+3".toList = .error .malformedExpression ∧
    evaluate "(-5)".toList = .error .malformedExpression :=
  ⟨(count_rule "2+".toList (createTokenVector "2+".toList) (by decide) (by decide)).1,
    (count_rule "+".toList (createTokenVector "+".toList) (by decide) (by decide)).1,
    (count_rule "2+*3".toList (createTokenVector "2+*3".toList) (by decide)
      (by decide)).1,
    (count_rule "-5+3".toList (createTokenVector "-5+3".toList) (by decide)
      (by decide)).1,
    (count_rule "(-5)".toList (createTokenVector "(-5)".toList) (by decide)
      (by decide)).1⟩

/-! ## Claim C18: the lexer on a line in outer parentheses -/

theorem removeSpaces_wrap (s : List Char) :
    removeSpaces ('(' :: s ++ [')']) = '(' :: removeSpaces s ++ [')'] := by
  simp only [removeSpaces, List.cons_append, List.filter_cons, List.filter_append,
    List.filter_nil]
  have h1 : isspace '(' = false := by decide
  have h2 : isspace ')' = false := by decide
  simp [h1, h2]

theorem balanced_wrap {t : List Char} (h : Balanced t) : Balanced ('(' :: t ++ [')']) := by
  have hc1 : List.count ')' ['('] = 0 := by decide
  have hc2 : List.count '(' [')'] = 0 := by decide
  constructor
  · intro n
    cases n with
    | zero => simp
    | succ m =>
      have h1 := h.1 m
      have hle : List.count ')' (List.take (m - t.length) [')']) ≤ 1 := by
        cases (m - t.length) with
        | zero => simp
        | succ k => simp
      rw [List.cons_append, List.take_succ_cons, List.take_append_eq_append_take]
      simp only [List.count_cons, List.count_append]
      have h3 : ('(' == ')') = false := by decide
      simp only [h3, beq_self_eq_true, if_true, Bool.false_eq_true, if_false, Nat.add_zero]
      omega
  · have h2 := h.2
    simp only [List.cons_append, List.count_cons, List.count_append, List.count_nil]
    have h3 : ('(' == ')') = false := by decide
    have h4 : (')' == '(') = false := by decide
    simp only [h3, h4, beq_self_eq_true, if_true, Bool.false_eq_true, if_false, Nat.add_zero,
      Nat.zero_add]
    omega

theorem adjacent_cons {a : Char} {t : List Char} {i : Nat} (h : Adjacent t i) :
    Adjacent (a :: t) (i + 1) := by
  rcases h with ⟨h1, d, h2, h3⟩ | ⟨h1, hpos, d, h2, h3⟩
  · exact Or.inl ⟨by simpa using h1, d, by simpa using h2, h3⟩
  · refine Or.inr ⟨by simpa using h1, Nat.succ_pos _, d, ?_, h3⟩
    obtain ⟨j, rfl⟩ : ∃ j, i = j + 1 := ⟨i - 1, by omega⟩
    simpa using h2

theorem chain_of_not_adjacent (t : List Char) (h : ∀ i, ¬Adjacent t i) :
    t.Chain' goodPair := by
  induction t with
  | nil => exact List.chain'_nil
  | cons a t ih =>
    refine List.chain'_cons'.mpr ⟨?_, ih (fun i hi => h (i + 1) (adjacent_cons hi))⟩
    intro y hy
    cases t with
    | nil => simp at hy
    | cons b t =>
      simp only [List.head?_cons, Option.mem_def, Option.some.injEq] at hy
      subst hy
      constructor
      · rintro ⟨rfl, hd⟩
        exact h 0 (Or.inl ⟨by simp, b, by simp, hd⟩)
      · rintro ⟨hd, rfl⟩
        exact h 1 (Or.inr ⟨by simp, Nat.one_pos, a, by simp, hd⟩)

theorem chain_wrap {t : List Char} (h : t.Chain' goodPair) :
    ('(' :: t ++ [')']).Chain' goodPair := by
  rw [List.cons_append]
  refine List.chain'_cons'.mpr ⟨fun y _ => goodPair_left y, ?_⟩
  refine List.chain'_append.mpr ⟨h, List.chain'_singleton _, ?_⟩
  intro x _ y hy
  simp only [List.head?_cons, Option.mem_def, Option.some.injEq] at hy
  subst hy
  exact goodPair_right x

/-- A line accepted by the lexer is still accepted inside a pair of parentheses. -/
theorem ExpParser_wrap {s : List Char} {tokens : List Token} (h : ExpParser s = .ok tokens) :
    ExpParser ('(' :: s ++ [')']) =
      .ok (createTokenVector ('(' :: removeSpaces s ++ [')'])) := by
  obtain ⟨-, hallowed, hbal, hadj⟩ := ExpParser_accepts h
  have h1 : checkValidChars ('(' :: removeSpaces s ++ [')']) = .ok () := by
    rw [checkValidChars_ok_iff]
    intro c hc
    simp only [List.cons_append, List.mem_cons, List.mem_append, List.mem_singleton,
      List.not_mem_nil, or_false] at hc
    rcases hc with rfl | hc | rfl
    · decide
    · exact hallowed c hc
    · decide
  have h2 : checkParenthesees ('(' :: removeSpaces s ++ [')']) = .ok () :=
    (checkParenthesees_ok_iff _).mpr (balanced_wrap hbal)
  have h3 : checkNearParens ('(' :: removeSpaces s ++ [')']) = .ok () :=
    checkNearParens_chain (chain_wrap (chain_of_not_adjacent _ hadj))
  simp only [ExpParser, removeSpaces_wrap, h1, h2, h3]

/-! ## Claim C18: the scan of a line in outer parentheses -/

theorem numberLoop_append_right (l : List Token) : ∀ val : ℚ,
    numberLoop val (l ++ [Token.ofChar ')']) =
      ((numberLoop val l).1, (numberLoop val l).2 ++ [Token.ofChar ')']) := by
  induction l with
  | nil =>
    intro val
    simp [numberLoop, ofChar_right]
  | cons t rest ih =>
    intro val
    rw [List.cons_append, numberLoop, numberLoop]
    split
    · exact ih _
    · rfl

theorem operatorLoop_frame (p : Int) (hp : 1 ≤ p) (os : List Token) : ∀ vs : List Token,
    operatorLoop p vs (os ++ [Token.ofChar '(']) =
      match operatorLoop p vs os with
      | .error e => .error e
      | .ok (vs1, os1) => .ok (vs1, os1 ++ [Token.ofChar '(']) := by
  induction os with
  | nil =>
    intro vs
    have : ¬(Token.ofChar '(').precedence ≥ p := by
      rw [ofChar_left]
      simp only [ge_iff_le, not_le]
      omega
    simp [operatorLoop, this]
  | cons top os ih =>
    intro vs
    rw [List.cons_append, operatorLoop, operatorLoop]
    split
    · cases hr : reduceTop vs top with
      | error e => rfl
      | ok vs2 => exact ih vs2
    · rfl

theorem rightParenLoop_frame (os : List Token) (hleft : ∃ x ∈ os, x.type = LEFT_PARENTHESIS) :
    ∀ vs : List Token,
    rightParenLoop vs (os ++ [Token.ofChar '(']) =
      match rightParenLoop vs os with
      | .error e => .error e
      | .ok (vs1, os1) => .ok (vs1, os1 ++ [Token.ofChar '(']) := by
  induction os with
  | nil =>
    obtain ⟨x, hx, -⟩ := hleft
    simp at hx
  | cons top os ih =>
    intro vs
    rw [List.cons_append, rightParenLoop, rightParenLoop]
    split
    · rename_i htop
      have hleft' : ∃ x ∈ os, x.type = LEFT_PARENTHESIS := by
        obtain ⟨x, hx, hxl⟩ := hleft
        rcases List.mem_cons.mp hx with rfl | hx
        · exact absurd hxl htop
        · exact ⟨x, hx, hxl⟩
      cases hr : reduceTop vs top with
      | error e => rfl
      | ok vs2 => exact ih hleft' vs2
    · rfl

theorem rightParenLoop_drain (os : List Token) (hos : ∀ x ∈ os, OperatorToken x) :
    ∀ vs : List Token,
    rightParenLoop vs (os ++ [Token.ofChar '(']) =
      match drainLoop vs os with
      | .error e => .error e
      | .ok vs1 => .ok (vs1, [Token.ofChar '(']) := by
  induction os with
  | nil =>
    intro vs
    simp [rightParenLoop, drainLoop, ofChar_left]
  | cons top os ih =>
    intro vs
    have htop : top.type ≠ LEFT_PARENTHESIS := by
      rw [(hos top (List.mem_cons_self _ _)).type_eq]
      decide
    rw [List.cons_append, rightParenLoop, drainLoop, if_pos htop]
    cases hr : reduceTop vs top with
    | error e => rfl
    | ok vs2 => exact ih (fun x hx => hos x (List.mem_cons_of_mem _ hx)) vs2

/-- An iteration on the framed state is the frame of the iteration. -/
theorem step_frame (t : Token) (rest vs os : List Token)
    (hinv : BalancedInv ⟨t :: rest, vs, os⟩) :
    step t (rest ++ [Token.ofChar ')']) vs (os ++ [Token.ofChar '(']) =
      match step t rest vs os with
      | .error e => .error e
      | .ok st1 => .ok st1.frame := by
  obtain ⟨⟨htok, hshape⟩, hbal⟩ := hinv
  simp only at htok hshape hbal
  obtain ⟨c, hc⟩ := htok t (List.mem_cons_self _ _)
  subst hc
  unfold step
  split
  · rfl
  · rename_i hnl
    split
    · simp only [State.frame]
      rw [← List.cons_append, numberLoop_append_right]
    · rename_i hnn
      split
      · rename_i hr
        have hk := (hbal.cons_right hr).1
        have hleft : ∃ x ∈ os, x.type = LEFT_PARENTHESIS := by
          by_contra hnone
          have : opens os = 0 :=
            opens_eq_zero_of_not_left (fun x hx hxl => hnone ⟨x, hx, hxl⟩)
          omega
        rw [rightParenLoop_frame os hleft]
        cases hloop : rightParenLoop vs os with
        | error e => rfl
        | ok r =>
          obtain ⟨vs1, os1⟩ := r
          simp only [State.frame]
          have := rightParenLoop_opens hloop hk
          cases os1 with
          | nil =>
            obtain ⟨-, popped, h1, -, hpop⟩ := rightParenLoop_result os vs vs1 [] hloop
            obtain ⟨x, hx, hxl⟩ := hleft
            rw [h1, List.append_nil] at hx
            exact absurd hxl (hpop x hx)
          | cons x os2 => rfl
      · rename_i hnr
        have hp : 1 ≤ (Token.ofChar c).precedence := by
          rcases ofChar_cases c with ⟨o, rfl⟩ | rfl | rfl | hn
          · exact OperatorToken.precedence_pos ⟨o, rfl⟩
          · exact absurd rfl hnl
          · exact absurd rfl hnr
          · exact absurd hn hnn
        rw [operatorLoop_frame _ hp]
        cases hloop : operatorLoop (Token.ofChar c).precedence vs os with
        | error e => rfl
        | ok r =>
          obtain ⟨vs1, os1⟩ := r
          rfl

/-- The scan of the framed state follows the scan of the state and then meets the `)`. -/
theorem exec_frame (n : Nat) : ∀ st : State, st.tokens.length ≤ n → BalancedInv st →
    exec st.frame =
      match exec st with
      | .error e => .error e
      | .ok st1 => exec st1.frame := by
  induction n with
  | zero =>
    intro st hn _
    rcases st with ⟨tokens, vs, os⟩
    have h0 : tokens = [] := List.length_eq_zero.mp (Nat.le_zero.mp hn)
    subst h0
    rw [exec_nil]
  | succ n ih =>
    intro st hn hinv
    rcases st with ⟨tokens, vs, os⟩
    cases tokens with
    | nil => rw [exec_nil]
    | cons t rest =>
      have hf : State.frame ⟨t :: rest, vs, os⟩ =
          ⟨t :: (rest ++ [Token.ofChar ')']), vs, os ++ [Token.ofChar '(']⟩ := rfl
      rw [hf, exec_cons, exec_cons, step_frame t rest vs os hinv]
      cases hs : step t rest vs os with
      | error e => rfl
      | ok st1 =>
        simp only []
        have hl := step_tokens_length hs
        simp only [List.length_cons, Nat.add_le_add_iff_right] at hn
        exact ih st1 (le_trans hl hn) (step_balanced t rest vs os st1 hinv hs)

/-- On the tokens of a line with balanced parentheses, a pair of parentheses around the line
does not change what `calculate` returns. -/
theorem calculate_wrap {t : List Char} (h : Balanced t) :
    calculate (createTokenVector ('(' :: t ++ [')'])) = calculate (createTokenVector t) := by
  have h0 := BalancedInv.initial h
  have htoks : createTokenVector ('(' :: t ++ [')']) =
      Token.ofChar '(' :: (createTokenVector t ++ [Token.ofChar ')']) := by
    simp [createTokenVector]
  have hstart : exec ⟨createTokenVector ('(' :: t ++ [')']), [], []⟩ =
      exec (State.frame ⟨createTokenVector t, [], []⟩) := by
    rw [htoks, exec_cons, step_left]
    rfl
  rw [calculate_eq, calculate_eq, hstart, exec_frame _ _ le_rfl h0]
  cases hex : exec ⟨createTokenVector t, [], []⟩ with
  | error e => rfl
  | ok st =>
    simp only []
    have hinv : BalancedInv st := scan_invariant BalancedInv step_balanced _ _ st h0 hex
    have hend : st.tokens = [] := scan_tokens _ ⟨createTokenVector t, [], []⟩ st le_rfl hex
    rcases st with ⟨tokens, vs, os⟩
    simp only at hend
    subst hend
    have hf : State.frame ⟨[], vs, os⟩ = ⟨[Token.ofChar ')'], vs, os ++ [Token.ofChar '(']⟩ :=
      rfl
    rw [hf, exec_cons, step_right, rightParenLoop_drain os (hinv.final rfl)]
    cases hd : drainLoop vs os with
    | error e => rfl
    | ok vs1 =>
      simp only []
      rw [exec_nil]
      rfl

theorem evaluate_wrap {s : List Char} {tokens : List Token} (h : ExpParser s = .ok tokens) :
    evaluate ('(' :: s ++ [')']) = evaluate s := by
  obtain ⟨rfl, -, hbal, -⟩ := ExpParser_accepts h
  rw [evaluate, evaluate, ExpParser_wrap h, h]
  exact calculate_wrap hbal

theorem wrap_replicate (k : Nat) (s : List Char) :
    List.replicate (k + 1) '(' ++ s ++ List.replicate (k + 1) ')' =
      '(' :: (List.replicate k '(' ++ s ++ List.replicate k ')') ++ [')'] := by
  rw [List.replicate_succ, List.replicate_succ']
  simp

/-- Claim C18. Redundant outer parentheses are neutral. For every line `s` accepted by the
lexer, the line `(s)` is accepted by the lexer too and `evaluate` has the same outcome on
both, which is a number or `MalformedExpression`. The same holds for `s` inside any number
`k` of pairs of parentheses. -/
theorem outer_parentheses_neutral (s : List Char) (tokens : List Token)
    (hp : ExpParser s = .ok tokens) :
    (∃ wrapped : List Token, ExpParser ('(' :: s ++ [')']) = .ok wrapped) ∧
    evaluate ('(' :: s ++ [')']) = evaluate s ∧
    ((∃ v : ℚ, evaluate s = .ok v) ∨ evaluate s = .error .malformedExpression) ∧
    (∀ k : Nat,
      (∃ wrapped : List Token,
        ExpParser (List.replicate k '(' ++ s ++ List.replicate k ')') = .ok wrapped) ∧
      evaluate (List.replicate k '(' ++ s ++ List.replicate k ')') = evaluate s) := by
  refine ⟨⟨_, ExpParser_wrap hp⟩, evaluate_wrap hp, ?_, ?_⟩
  · obtain ⟨rfl, -, hbal, -⟩ := ExpParser_accepts hp
    rw [evaluate, hp]
    simp only []
    cases hcalc : calculate (createTokenVector (removeSpaces s)) with
    | error e => rw [calculate_error_balanced hbal hcalc]; exact Or.inr rfl
    | ok v => exact Or.inl ⟨v, rfl⟩
  · intro k
    induction k with
    | zero => exact ⟨⟨tokens, by simpa using hp⟩, by simp⟩
    | succ k ih =>
      obtain ⟨⟨wrapped, hw⟩, hev⟩ := ih
      rw [wrap_replicate]
      exact ⟨⟨_, ExpParser_wrap hw⟩, (evaluate_wrap hw).trans hev⟩

/-- The lines `(2+3*4)` and `((2+3*4))` evaluate to 14 like `2+3*4`; the lines `(2+)` and
`2+` both fail with `MalformedExpression`. -/
theorem outer_parentheses_neutral_witness :
    evaluate "(2+3*4)".toList = .ok 14 ∧ evaluate "((2+3*4))".toList = .ok 14 ∧
    evaluate "(2+)".toList = .error .malformedExpression := by
  have h := outer_parentheses_neutral "2+3*4".toList (createTokenVector "2+3*4".toList)
    (by decide)
  have h2 := outer_parentheses_neutral "2+".toList (createTokenVector "2+".toList) (by decide)
  have e : evaluate "2+3*4".toList = .ok 14 := by decide!
  have e2 : evaluate "2+".toList = .error .malformedExpression := by decide
  exact ⟨h.2.1.trans e, ((h.2.2.2 2).2).trans e, h2.2.1.trans e2⟩

/-! ## Values of type `double` -/

theorem isDouble_int (n : ℤ) (h : |n| < 2 ^ 53) : IsDouble (n : ℚ) :=
  ⟨n, 0, h, by norm_num, by norm_num, by simp⟩

theorem isDouble_nat (n : ℕ) (h : n < 2 ^ 53) : IsDouble (n : ℚ) := by
  have := isDouble_int (n : ℤ) (by rw [abs_of_nonneg (Int.natCast_nonneg n)]; exact_mod_cast h)
  simpa using this

/-- A `double` written with a non-negative exponent is an integer multiple of that power of
two, and one written with a negative exponent has that power of two as a denominator. -/
theorem isDouble_cases {q : ℚ} (h : IsDouble q) :
    (∃ (m : ℤ) (k : ℕ), |m| < 2 ^ 53 ∧ q = (m : ℚ) * 2 ^ k) ∨
    (∃ (m : ℤ) (k : ℕ), |m| < 2 ^ 53 ∧ q * 2 ^ (k + 1) = (m : ℚ)) := by
  obtain ⟨m, e, hm, -, -, hq⟩ := h
  rcases Int.lt_or_le e 0 with he | he
  · obtain ⟨k, hk⟩ : ∃ k : ℕ, e = -((k : ℤ) + 1) := ⟨(-e - 1).toNat, by omega⟩
    refine Or.inr ⟨m, k, hm, ?_⟩
    rw [hq, hk, zpow_neg]
    have h2 : ((2 : ℚ) ^ ((k : ℤ) + 1)) = 2 ^ (k + 1) := by
      rw [← zpow_natCast]; push_cast; rfl
    rw [h2]
    field_simp
  · obtain ⟨k, hk⟩ : ∃ k : ℕ, e = (k : ℤ) := ⟨e.toNat, by omega⟩
    refine Or.inl ⟨m, k, hm, ?_⟩
    rw [hq, hk, zpow_natCast]

/-- The integer `2 ^ 53 + 1` is not a `double`: it has 54 significant bits. -/
theorem not_isDouble_big : ¬IsDouble (9007199254740993 : ℚ) := by
  intro h
  rcases isDouble_cases h with ⟨m, k, hm, hq⟩ | ⟨m, k, hm, hq⟩
  · have hz : (9007199254740993 : ℤ) = m * 2 ^ k := by exact_mod_cast hq
    cases k with
    | zero =>
      simp only [pow_zero, mul_one] at hz
      rw [← hz] at hm
      norm_num at hm
    | succ k =>
      have h2 : (2 : ℤ) ∣ m * 2 ^ (k + 1) := Dvd.dvd.mul_left (dvd_pow_self 2 (Nat.succ_ne_zero k)) m
      rw [← hz] at h2
      norm_num at h2
  · have hz : (9007199254740993 : ℤ) * 2 ^ (k + 1) = m := by exact_mod_cast hq
    have hp : (1 : ℤ) ≤ 2 ^ (k + 1) := one_le_pow₀ (by norm_num)
    have hm' := abs_lt.mp hm
    nlinarith [hm'.2]

/-- A third of an odd multiple is no `double`: `1 / 3` and `1 / 9` have no finite binary
expansion. -/
theorem not_isDouble_of_three {q : ℚ} (n : ℤ) (hq : q * 3 * n = 1) : ¬IsDouble q := by
  intro h
  have h3 : ¬(3 : ℤ) ∣ 1 := by norm_num
  rcases isDouble_cases h with ⟨m, k, -, hm⟩ | ⟨m, k, -, hm⟩
  · rw [hm] at hq
    have hz : m * 2 ^ k * 3 * n = 1 := by exact_mod_cast hq
    exact h3 ⟨m * 2 ^ k * n, by rw [← hz]; ring⟩
  · have hz : (2 : ℤ) ^ (k + 1) = m * 3 * n := by
      have : ((2 : ℚ) ^ (k + 1)) = (m : ℚ) * 3 * n := by
        rw [← hm]
        have : q * 2 ^ (k + 1) * 3 * n = (q * 3 * n) * 2 ^ (k + 1) := by ring
        rw [this, hq, one_mul]
      exact_mod_cast this
    have hdvd : (3 : ℤ) ∣ 2 ^ (k + 1) := ⟨m * n, by rw [hz]; ring⟩
    have hprime : Prime (3 : ℤ) := by
      rw [Int.prime_iff_natAbs_prime]; norm_num
    have := hprime.dvd_of_dvd_pow hdvd
    norm_num at this

theorem isDouble_of_eq {q r : ℚ} (h : q = r) (hr : IsDouble r) : IsDouble q := h ▸ hr

/-! ## Claims C2, C3, C4: values of three-operand lines -/

/-- Claim C2, as stated, fails. For `a = 9007199254740993`, `b = 0`, `c = 0` the value
`A + B * C` that the claim requires is `2 ^ 53 + 1`, which is not a value of type `double`;
`calculate`, which parses and adds in `double` and returns a `double`, returns a different
number. -/
theorem precedence_counterexample :
    digitString "9007199254740993".toList = true ∧ digitString "0".toList = true ∧
    (decimal "9007199254740993".toList : ℚ) +
      (decimal "0".toList : ℚ) * (decimal "0".toList : ℚ) = 9007199254740993 ∧
    ¬IsDouble ((decimal "9007199254740993".toList : ℚ) +
      (decimal "0".toList : ℚ) * (decimal "0".toList : ℚ)) := by
  have e : (decimal "9007199254740993".toList : ℚ) +
      (decimal "0".toList : ℚ) * (decimal "0".toList : ℚ) = 9007199254740993 := by decide!
  refine ⟨by decide, by decide, e, ?_⟩
  rw [e]
  exact not_isDouble_big

/-- Claim C2, amended. Precedence: for non-empty digit strings `a`, `b`, `c` with decimal
values `A`, `B`, `C` below `2 ^ 53`, the line `a+b*c` evaluates to `A + B * C` when `B * C`
and `A + B * C` are values of type `double`, and the line `a-b/c` evaluates to `A - B / C`
when `C` is not zero and `B / C` and `A - B / C` are values of type `double`. Under these
conditions every operation of the program is exact; the value stack holds at most three
values. -/
theorem evaluate_precedence (a b c : List Char) (ha : digitString a = true)
    (hb : digitString b = true) (hc : digitString c = true) (_hA : decimal a < 2 ^ 53)
    (_hB : decimal b < 2 ^ 53) (_hC : decimal c < 2 ^ 53) :
    (IsDouble ((decimal b : ℚ) * (decimal c : ℚ)) →
      IsDouble ((decimal a : ℚ) + (decimal b : ℚ) * (decimal c : ℚ)) →
      evaluate (a ++ ['+'] ++ b ++ ['*'] ++ c) =
        .ok ((decimal a : ℚ) + (decimal b : ℚ) * (decimal c : ℚ))) ∧
    ((decimal c : ℚ) ≠ 0 → IsDouble ((decimal b : ℚ) / (decimal c : ℚ)) →
      IsDouble ((decimal a : ℚ) - (decimal b : ℚ) / (decimal c : ℚ)) →
      evaluate (a ++ ['-'] ++ b ++ ['/'] ++ c) =
        .ok ((decimal a : ℚ) - (decimal b : ℚ) / (decimal c : ℚ))) := by
  constructor
  · intro _ _
    have h := evaluate_str (.bin (.num a) .add (.bin (.num b) .mul (.num c)))
      (by simp [Exp.standard_bin, Exp.standard_num, Exp.isTerm, Exp.isFactor, Op.tight,
            ha, hb, hc])
    simpa [Exp.str, Exp.value, Op.char, Op.apply] using h
  · intro _ _ _
    have h := evaluate_str (.bin (.num a) .sub (.bin (.num b) .div (.num c)))
      (by simp [Exp.standard_bin, Exp.standard_num, Exp.isTerm, Exp.isFactor, Op.tight,
            ha, hb, hc])
    simpa [Exp.str, Exp.value, Op.char, Op.apply] using h

/-- The line `2+3*4` is 14, not 20, and the line `7-6/4` is 11/2, not 1/4. -/
theorem evaluate_precedence_witness :
    evaluate "2+3*4".toList = .ok 14 ∧ evaluate "2+3*4".toList ≠ .ok 20 ∧
    evaluate "7-6/4".toList = .ok (11 / 2) ∧ evaluate "7-6/4".toList ≠ .ok (1 / 4) := by
  have h := evaluate_precedence ['2'] ['3'] ['4'] (by decide) (by decide) (by decide)
    (by decide!) (by decide!) (by decide!)
  have h2 := evaluate_precedence ['7'] ['6'] ['4'] (by decide) (by decide) (by decide)
    (by decide!) (by decide!) (by decide!)
  have e1 : evaluate "2+3*4".toList = .ok 14 :=
    (h.1 (isDouble_of_eq (by decide!) (isDouble_int 12 (by norm_num)))
      (isDouble_of_eq (by decide!) (isDouble_int 14 (by norm_num)))).trans (by decide!)
  have e2 : evaluate "7-6/4".toList = .ok (11 / 2) :=
    (h2.2 (by decide!)
      (isDouble_of_eq (r := 3 / 2) (by decide!)
        ⟨3, -1, by norm_num, by norm_num, by norm_num, by norm_num⟩)
      (isDouble_of_eq (r := 11 / 2) (by decide!)
        ⟨11, -1, by norm_num, by norm_num, by norm_num, by norm_num⟩)).trans (by decide!)
  exact ⟨e1, by rw [e1]; decide!, e2, by rw [e2]; decide!⟩

/-- Claim C3, as stated, fails. For `a = 9007199254740992`, `b = 1`, `c = 1` the value
`(A + B) * C` that the claim requires is `2 ^ 53 + 1`, which is not a value of type
`double`; `calculate`, which adds in `double` and returns a `double`, returns a different
number. -/
theorem parentheses_override_counterexample :
    digitString "9007199254740992".toList = true ∧ digitString "1".toList = true ∧
    ((decimal "9007199254740992".toList : ℚ) + (decimal "1".toList : ℚ)) *
      (decimal "1".toList : ℚ) = 9007199254740993 ∧
    ¬IsDouble (((decimal "9007199254740992".toList : ℚ) + (decimal "1".toList : ℚ)) *
      (decimal "1".toList : ℚ)) := by
  have e : ((decimal "9007199254740992".toList : ℚ) + (decimal "1".toList : ℚ)) *
      (decimal "1".toList : ℚ) = 9007199254740993 := by decide!
  refine ⟨by decide, by decide, e, ?_⟩
  rw [e]
  exact not_isDouble_big

/-- Claim C3, amended. Parentheses override precedence: for non-empty digit strings `a`, `b`,
`c` with decimal values `A`, `B`, `C` below `2 ^ 53` such that `A + B` and `(A + B) * C` are
values of type `double`, the line `(a+b)*c` evaluates to `(A + B) * C`. Under these conditions
every operation of the program is exact; the value stack holds at most two values. -/
theorem evaluate_parentheses_override (a b c : List Char) (ha : digitString a = true)
    (hb : digitString b = true) (hc : digitString c = true) (_hA : decimal a < 2 ^ 53)
    (_hB : decimal b < 2 ^ 53) (_hC : decimal c < 2 ^ 53)
    (_h1 : IsDouble ((decimal a : ℚ) + (decimal b : ℚ)))
    (_h2 : IsDouble (((decimal a : ℚ) + (decimal b : ℚ)) * (decimal c : ℚ))) :
    evaluate (['('] ++ a ++ ['+'] ++ b ++ [')', '*'] ++ c) =
      .ok (((decimal a : ℚ) + (decimal b : ℚ)) * (decimal c : ℚ)) := by
  have h := evaluate_str (.bin (.paren (.bin (.num a) .add (.num b))) .mul (.num c))
    (by simp [Exp.standard_bin, Exp.standard_num, Exp.standard_paren, Exp.isTerm, Exp.isFactor,
          Op.tight, ha, hb, hc])
  simpa [Exp.str, Exp.value, Op.char, Op.apply] using h

/-- The line `(2+3)*4` is 20, not 14. -/
theorem evaluate_parentheses_override_witness :
    evaluate "(2+3)*4".toList = .ok 20 ∧ evaluate "(2+3)*4".toList ≠ .ok 14 := by
  have e : evaluate "(2+3)*4".toList = .ok 20 :=
    (evaluate_parentheses_override ['2'] ['3'] ['4'] (by decide) (by decide) (by decide)
      (by decide!) (by decide!) (by decide!)
      (isDouble_of_eq (by decide!) (isDouble_int 5 (by norm_num)))
      (isDouble_of_eq (by decide!) (isDouble_int 20 (by norm_num)))).trans (by decide!)
  exact ⟨e, by rw [e]; decide!⟩

/-- Claim C4, as stated, fails. For `a = 1`, `b = 3`, `c = 3` the divisors are not zero and
the value `(A / B) / C` that the claim requires is `1 / 9`, which is not a value of type
`double`; `calculate`, which divides in `double` and returns a `double`, returns a different
number. -/
theorem left_associative_counterexample :
    digitString "1".toList = true ∧ digitString "3".toList = true ∧
    (decimal "3".toList : ℚ) ≠ 0 ∧
    ((decimal "1".toList : ℚ) / (decimal "3".toList : ℚ)) / (decimal "3".toList : ℚ) = 1 / 9 ∧
    ¬IsDouble (((decimal "1".toList : ℚ) / (decimal "3".toList : ℚ)) /
      (decimal "3".toList : ℚ)) := by
  have e : ((decimal "1".toList : ℚ) / (decimal "3".toList : ℚ)) / (decimal "3".toList : ℚ) =
      1 / 9 := by decide!
  refine ⟨by decide, by decide, by decide!, e, ?_⟩
  rw [e]
  exact not_isDouble_of_three 3 (by norm_num)

/-- Claim C4, amended. Left-associativity: for non-empty digit strings `a`, `b`, `c` with
decimal values `A`, `B`, `C` below `2 ^ 53`, the line `a/b/c` evaluates to `(A / B) / C` when
`B` and `C` are not zero and `A / B` and `(A / B) / C` are values of type `double`, and the
line `a-b-c` evaluates to `(A - B) - C` when `A - B` and `(A - B) - C` are values of type
`double`. Under these conditions every operation of the program is exact; the value stack
holds at most two values. -/
theorem evaluate_left_associative (a b c : List Char) (ha : digitString a = true)
    (hb : digitString b = true) (hc : digitString c = true) (_hA : decimal a < 2 ^ 53)
    (_hB : decimal b < 2 ^ 53) (_hC : decimal c < 2 ^ 53) :
    ((decimal b : ℚ) ≠ 0 → (decimal c : ℚ) ≠ 0 →
      IsDouble ((decimal a : ℚ) / (decimal b : ℚ)) →
      IsDouble (((decimal a : ℚ) / (decimal b : ℚ)) / (decimal c : ℚ)) →
      evaluate (a ++ ['/'] ++ b ++ ['/'] ++ c) =
        .ok (((decimal a : ℚ) / (decimal b : ℚ)) / (decimal c : ℚ))) ∧
    (IsDouble ((decimal a : ℚ) - (decimal b : ℚ)) →
      IsDouble (((decimal a : ℚ) - (decimal b : ℚ)) - (decimal c : ℚ)) →
      evaluate (a ++ ['-'] ++ b ++ ['-'] ++ c) =
        .ok (((decimal a : ℚ) - (decimal b : ℚ)) - (decimal c : ℚ))) := by
  constructor
  · intro _ _ _ _
    have h := evaluate_str (.bin (.bin (.num a) .div (.num b)) .div (.num c))
      (by simp [Exp.standard_bin, Exp.standard_num, Exp.isTerm, Exp.isFactor, Op.tight,
            ha, hb, hc])
    simpa [Exp.str, Exp.value, Op.char, Op.apply] using h
  · intro _ _
    have h := evaluate_str (.bin (.bin (.num a) .sub (.num b)) .sub (.num c))
      (by simp [Exp.standard_bin, Exp.standard_num, Exp.isTerm, Exp.isFactor, Op.tight,
            ha, hb, hc])
    simpa [Exp.str, Exp.value, Op.char, Op.apply] using h

/-- The line `10/2/5` is 1, not 25, and the line `9-4-3` is 2, not 8. -/
theorem evaluate_left_associative_witness :
    evaluate "10/2/5".toList = .ok 1 ∧ evaluate "10/2/5".toList ≠ .ok 25 ∧
    evaluate "9-4-3".toList = .ok 2 ∧ evaluate "9-4-3".toList ≠ .ok 8 := by
  have h := evaluate_left_associative ['1', '0'] ['2'] ['5'] (by decide) (by decide)
    (by decide) (by decide!) (by decide!) (by decide!)
  have h2 := evaluate_left_associative ['9'] ['4'] ['3'] (by decide) (by decide) (by decide)
    (by decide!) (by decide!) (by decide!)
  have e1 : evaluate "10/2/5".toList = .ok 1 :=
    (h.1 (by decide!) (by decide!)
      (isDouble_of_eq (by decide!) (isDouble_int 5 (by norm_num)))
      (isDouble_of_eq (by decide!) (isDouble_int 1 (by norm_num)))).trans (by decide!)
  have e2 : evaluate "9-4-3".toList = .ok 2 :=
    (h2.2 (isDouble_of_eq (by decide!) (isDouble_int 5 (by norm_num)))
      (isDouble_of_eq (by decide!) (isDouble_int 2 (by norm_num)))).trans (by decide!)
  exact ⟨e1, by rw [e1]; decide!, e2, by rw [e2]; decide!⟩

/-! ## Claim C14: order of the operands -/

/-- Claim C14, as stated, fails. For `x = 1`, `y = 3` the divisor is not zero and the value
`X / Y` that the claim requires is `1 / 3`, which is not a value of type `double`;
`applyOperation`, which divides in `double`, and `calculate`, which returns a `double`, return a
different number. -/
theorem operand_order_counterexample :
    digitString "1".toList = true ∧ digitString "3".toList = true ∧
    (decimal "3".toList : ℚ) ≠ 0 ∧
    (decimal "1".toList : ℚ) / (decimal "3".toList : ℚ) = 1 / 3 ∧
    ¬IsDouble ((decimal "1".toList : ℚ) / (decimal "3".toList : ℚ)) := by
  have e : (decimal "1".toList : ℚ) / (decimal "3".toList : ℚ) = 1 / 3 := by decide!
  refine ⟨by decide, by decide, by decide!, e, ?_⟩
  rw [e]
  exact not_isDouble_of_three 1 (by norm_num)

/-- Claim C14, amended. Operand order. On values `a`, `b` of type `double`,
`applyOperation(a, b, op)` returns `a+b`, `a-b`, `a*b`, `a/b` for `+`, `-`, `*`, `/` whenever
that result is a value of type `double` (and `b` is not zero for `/`). In a reduction step of
each of the three loops of `calculate` (right parenthesis, operator, final drain), with `val2`
on top of the value stack and `val1` below it, the call is `applyOperation(val1, val2, op)`:
the value popped first is the right operand and the value popped second the left one, as long
as the second pop does not release the storage behind `val2` (what the program reads
otherwise is left open). Consequently, for
non-empty digit strings `x`, `y` with values `X`, `Y` below `2 ^ 53`, the line `x-y` evaluates
to `X - Y` (possibly negative, and always a `double`), and the line `x/y` evaluates to `X / Y`
when `Y` is not zero and `X / Y` is a value of type `double`. -/
theorem operand_order (x y : List Char) (hx : digitString x = true)
    (hy : digitString y = true) (hX : decimal x < 2 ^ 53) (hY : decimal y < 2 ^ 53) :
    (∀ a b : ℚ, IsDouble a → IsDouble b →
      (IsDouble (a + b) → applyOperation a b '+' = .ok (Token.ofDouble (a + b))) ∧
      (IsDouble (a - b) → applyOperation a b '-' = .ok (Token.ofDouble (a - b))) ∧
      (IsDouble (a * b) → applyOperation a b '*' = .ok (Token.ofDouble (a * b))) ∧
      (b ≠ 0 → IsDouble (a / b) → applyOperation a b '/' = .ok (Token.ofDouble (a / b)))) ∧
    (∀ (val2 val1 top : Token) (vs os : List Token),
      releasesBlock (val2 :: val1 :: vs).length = false → top.type ≠ LEFT_PARENTHESIS →
      rightParenLoop (val2 :: val1 :: vs) (top :: os) =
        match applyOperation val1.value val2.value top.op with
        | .error e => .error e
        | .ok t => rightParenLoop (t :: vs) os) ∧
    (∀ (p : Int) (val2 val1 top : Token) (vs os : List Token),
      releasesBlock (val2 :: val1 :: vs).length = false → top.precedence ≥ p →
      operatorLoop p (val2 :: val1 :: vs) (top :: os) =
        match applyOperation val1.value val2.value top.op with
        | .error e => .error e
        | .ok t => operatorLoop p (t :: vs) os) ∧
    (∀ (val2 val1 top : Token) (vs os : List Token),
      releasesBlock (val2 :: val1 :: vs).length = false →
      drainLoop (val2 :: val1 :: vs) (top :: os) =
        match applyOperation val1.value val2.value top.op with
        | .error e => .error e
        | .ok t => drainLoop (t :: vs) os) ∧
    (IsDouble ((decimal x : ℚ) - (decimal y : ℚ)) ∧
      evaluate (x ++ ['-'] ++ y) = .ok ((decimal x : ℚ) - (decimal y : ℚ))) ∧
    ((decimal y : ℚ) ≠ 0 → IsDouble ((decimal x : ℚ) / (decimal y : ℚ)) →
      evaluate (x ++ ['/'] ++ y) = .ok ((decimal x : ℚ) / (decimal y : ℚ))) := by
  refine ⟨fun a b _ _ => ⟨fun _ => rfl, fun _ => rfl, fun _ => rfl, fun _ _ => rfl⟩,
    ?_, ?_, ?_, ⟨?_, ?_⟩, ?_⟩
  · intro val2 val1 top vs os _ htop
    rw [rightParenLoop, reduceTop_cons_cons]
    simp only [htop, ne_eq, not_false_eq_true, if_true]
    cases h : applyOperation val1.value val2.value top.op <;> simp
  · intro p val2 val1 top vs os _ htop
    rw [operatorLoop, reduceTop_cons_cons]
    simp only [htop, if_true]
    cases h : applyOperation val1.value val2.value top.op <;> simp
  · intro val2 val1 top vs os _
    rw [drainLoop, reduceTop_cons_cons]
    cases h : applyOperation val1.value val2.value top.op <;> simp
  · have hd : IsDouble (((decimal x : ℤ) - (decimal y : ℤ) : ℤ) : ℚ) := by
      refine isDouble_int _ ?_
      rw [abs_lt]
      have h1 : ((decimal x : ℕ) : ℤ) < 2 ^ 53 := by exact_mod_cast hX
      have h2 : ((decimal y : ℕ) : ℤ) < 2 ^ 53 := by exact_mod_cast hY
      have h3 : (0 : ℤ) ≤ (decimal x : ℕ) := Int.natCast_nonneg _
      have h4 : (0 : ℤ) ≤ (decimal y : ℕ) := Int.natCast_nonneg _
      constructor <;> linarith
    exact isDouble_of_eq (by push_cast; rfl) hd
  · have h := evaluate_str (.bin (.num x) .sub (.num y))
      (by simp [Exp.standard_bin, Exp.standard_num, Exp.isTerm, Op.tight, hx, hy])
    simpa [Exp.str, Exp.value, Op.char, Op.apply] using h
  · intro _ _
    have h := evaluate_str (.bin (.num x) .div (.num y))
      (by simp [Exp.standard_bin, Exp.standard_num, Exp.isTerm, Exp.isFactor, Op.tight, hx, hy])
    simpa [Exp.str, Exp.value, Op.char, Op.apply] using h

/-- The line `3-5` is -2, not 2, and the line `1/4` is 1/4, not 4. -/
theorem operand_order_witness :
    evaluate "3-5".toList = .ok (-2) ∧ evaluate "3-5".toList ≠ .ok 2 ∧
    evaluate "1/4".toList = .ok (1 / 4) ∧ evaluate "1/4".toList ≠ .ok 4 := by
  have h := operand_order ['3'] ['5'] (by decide) (by decide) (by decide!) (by decide!)
  have h2 := operand_order ['1'] ['4'] (by decide) (by decide) (by decide!) (by decide!)
  have e1 : evaluate "3-5".toList = .ok (-2) := h.2.2.2.2.1.2.trans (by decide!)
  have e2 : evaluate "1/4".toList = .ok (1 / 4) :=
    (h2.2.2.2.2.2 (by decide!)
      (isDouble_of_eq (r := 1 / 4) (by decide!)
        ⟨1, -2, by norm_num, by norm_num, by norm_num, by norm_num⟩)).trans (by decide!)
  exact ⟨e1, by rw [e1]; decide!, e2, by rw [e2]; decide!⟩

/-! ## Claim C1: a deep expression -/

/-- Claim C1: the code does not do what the claim says. The line
`1+2*(1+2*(1+2*(1+2*(1+2*7))))` is a standard expression without a zero divisor and its value
is 255. After 25 iterations of the scan the token to process is the first `)`, the operator
on top of the operator stack is `*` and the value stack holds eleven values, 7 on top. The
reduction of `2*7` pops 7 and then 2; the second pop releases the storage behind `val2`, so
the program multiplies 2 by what it finds in released memory and does not return 255. -/
theorem stale_operand_failing_input :
    Exp.standard deepExample = true ∧
    Exp.str deepExample = "1+2*(1+2*(1+2*(1+2*(1+2*7))))".toList ∧
    Exp.noZeroDivisor deepExample = true ∧
    Exp.value deepExample = 255 ∧
    scan 25 ⟨createTokenVector "1+2*(1+2*(1+2*(1+2*(1+2*7))))".toList, [], []⟩ =
      .ok ⟨createTokenVector "))))".toList,
        [7, 2, 1, 2, 1, 2, 1, 2, 1, 2, 1].map Token.ofDouble,
        createTokenVector "*+(*+(*+(*+(*+".toList⟩ ∧
    releasesBlock ([7, 2, 1, 2, 1, 2, 1, 2, 1, 2, 1].map Token.ofDouble).length = true := by
  refine ⟨by decide, by decide, by decide!, by decide!, by decide!, by decide⟩

/-! ## Claim C16: a minus without a left operand -/

/-- Claim C16: the code does not do what the claim says. A line with at least as many
operators as runs of digits does fail (`count_rule`), but a unary minus is evaluated silently
once a value of another group lies on the value stack: the lines `(0)(-5)` and `(4)(-5+3)`
pass the three checks of the lexer, which reject `)4` and `3(` but not `)(`, and evaluate to
`0 - 5 = -5` and to `4 - 5 + 3 = 2`. -/
theorem unary_minus_failing_input :
    ExpParser "(0)(-5)".toList = .ok (createTokenVector "(0)(-5)".toList) ∧
    digitRuns "(0)(-5)".toList = 2 ∧ operatorCount "(0)(-5)".toList = 1 ∧
    evaluate "(0)(-5)".toList = .ok (-5) ∧
    ExpParser "(4)(-5+3)".toList = .ok (createTokenVector "(4)(-5+3)".toList) ∧
    evaluate "(4)(-5+3)".toList = .ok 2 := by
  refine ⟨by decide, by decide, by decide, by decide!, by decide, by decide!⟩

end Arithmetic
